import Mathlib

/-!
# Alternating disks: `disks.hpp`

A shallow embedding of `src/disks.hpp` (the row of disks `disk_state`, the result
record `sorted_disks`, and the two sorting algorithms `sort_alternate` and
`sort_lawnmower`) together with theorems about it.

Modelling conventions.

* `std::vector<disk_color>` is a `List disk_color`; `size_t` values (sizes, indices and
  the running swap counter) are natural numbers, for a 64-bit `size_t`.  The product
  `light_count * 2` of the constructor is reduced modulo `2 ^ 64` (`umul`) and the
  subtractions wrap below zero (`usub`).  The additions stay as they are: an index that is
  incremented is below the length of a row, and the length of a row is below `2 ^ 64`.
* `sorted_disks` stores the counter in an `unsigned`; the narrowing from `size_t` is
  modelled as reduction modulo `2 ^ 32`.
* A failed `assert` is the outcome `Fault.assert_failed`; a read past the end of a vector
  (undefined behaviour in C++) is `Fault.out_of_range`.
* Every loop is a function that is structurally recursive on a step budget and tests the
  loop condition of the source at each step; running out of budget is the distinct outcome
  `Fault.out_of_fuel`.  The loops of the `const` members get a budget computed from the
  row; the two sorting algorithms take the budget as a parameter.
* For the statements about what happens during a run, each loop of the two algorithms has
  a second version (`..._traced`) that also records the calls of `get` and `swap`, the
  subtractions and the pass starts; erasing the record gives the plain loop on every input
  (`sort_alternate_traced_erase`, `sort_lawnmower_traced_erase`).
* `reference_sweep` is the one definition written from the description of an algorithm
  rather than from the code; it is compared with the sweep of the code.
-/

/-- The enumeration `enum disk_color { DISK_LIGHT, DISK_DARK }`. -/
inductive disk_color where
  | DISK_LIGHT
  | DISK_DARK
  deriving DecidableEq, Repr

open disk_color

/-- Integer value of an enumerator (`DISK_LIGHT == 0`, `DISK_DARK == 1`), which the source
compares against the literals `0` and `1`. -/
def disk_color.value : disk_color → Nat
  | DISK_LIGHT => 0
  | DISK_DARK => 1

/-- Ways in which a run can fail to return a value. -/
inductive Fault where
  | assert_failed
  | out_of_range
  | out_of_fuel
  deriving DecidableEq, Repr

deriving instance DecidableEq for Except

/-- Number of values of a 64-bit `size_t`. -/
def SIZE_MODULUS : Nat := 2 ^ 64

/-- Number of values of a 32-bit `unsigned`. -/
def UNSIGNED_MODULUS : Nat := 2 ^ 32

/-- Subtraction of two `size_t` values: wraps around when the result would be negative. -/
def usub (a b : Nat) : Nat :=
  if b ≤ a then a - b else SIZE_MODULUS - (b - a)

/-- Multiplication of two `size_t` values: the product is reduced modulo `2 ^ 64`. -/
def umul (a b : Nat) : Nat :=
  a * b % SIZE_MODULUS

/-- The class `disk_state`: its only member is the vector `_colors`. -/
structure disk_state where
  _colors : List disk_color
  deriving DecidableEq, Repr

namespace disk_state

/-- Loop of the constructor: `for (size_t i = 1; i < _colors.size(); i += 2) _colors[i] = DISK_DARK;` -/
def ctor_loop : Nat → List disk_color → Nat → Except Fault (List disk_color)
  | 0, _, _ => .error .out_of_fuel
  | fuel + 1, colors, i =>
    if i < colors.length then
      ctor_loop fuel (colors.set i DISK_DARK) (i + 2)
    else
      .ok colors

/-- The constructor `disk_state(size_t light_count)`: a vector of `light_count * 2` light
disks (the product is a `size_t` product and wraps), the assertion `light_count > 0`, then
every odd index is set to dark. -/
def ctor (light_count : Nat) : Except Fault disk_state :=
  let colors := List.replicate (umul light_count 2) DISK_LIGHT
  if light_count > 0 then
    match ctor_loop (colors.length + 1) colors 1 with
    | .ok colors => .ok ⟨colors⟩
    | .error e => .error e
  else
    .error .assert_failed

/-- The member `total_count()`. -/
def total_count (s : disk_state) : Nat := s._colors.length

/-- The member `light_count()`. -/
def light_count (s : disk_state) : Nat := s.total_count / 2

/-- The member `dark_count()`. -/
def dark_count (s : disk_state) : Nat := s.light_count

/-- The member `is_index(i)`. -/
def is_index (s : disk_state) (i : Nat) : Bool := decide (i < s.total_count)

/-- The member `get(index)`: asserts `is_index(index)` and reads `_colors[index]`. -/
def get (s : disk_state) (index : Nat) : Except Fault disk_color :=
  if s.is_index index then
    match s._colors[index]? with
    | some c => .ok c
    | none => .error .out_of_range
  else
    .error .assert_failed

/-- The member `swap(left_index)`: asserts that `left_index` and `left_index + 1` are
indices and exchanges the two entries. -/
def swap (s : disk_state) (left_index : Nat) : Except Fault disk_state :=
  if s.is_index left_index then
    let right_index := left_index + 1
    if s.is_index right_index then
      match s._colors[left_index]?, s._colors[right_index]? with
      | some a, some b => .ok ⟨(s._colors.set left_index b).set right_index a⟩
      | _, _ => .error .out_of_range
    else
      .error .assert_failed
  else
    .error .assert_failed

/-- The comparison `std::equal(first1, last1, first2)` on two vectors: walks the first
range and reads the second at the same positions, stopping at the first mismatch; it
never looks at the length of the second range, and reading past its end is undefined. -/
def std_equal : List disk_color → List disk_color → Except Fault Bool
  | [], _ => .ok true
  | _ :: _, [] => .error .out_of_range
  | a :: as, b :: bs => if a = b then std_equal as bs else .ok false

/-- The member `operator==`. -/
def operator_eq (lhs rhs : disk_state) : Except Fault Bool :=
  std_equal lhs._colors rhs._colors

/-- Loop of `is_initialized()`. -/
def is_initialized_loop (s : disk_state) : Nat → Nat → Except Fault Bool
  | 0, _ => .error .out_of_fuel
  | fuel + 1, i =>
    if i < s.total_count then
      match s._colors[i]? with
      | none => .error .out_of_range
      | some c =>
        if i % 2 = 0 then
          if c = DISK_DARK then .ok false else is_initialized_loop s fuel (i + 1)
        else
          if c = DISK_LIGHT then .ok false else is_initialized_loop s fuel (i + 1)
    else
      .ok true

/-- The member `is_initialized()`. -/
def is_initialized (s : disk_state) : Except Fault Bool :=
  is_initialized_loop s (s.total_count + 1) 0

/-- One of the two loops of `is_sorted()`:
`for (size_t i = lo; i < hi; i++) { if (get(i) == bad) return false; }`;
the result `true` means that the loop ran to its end. -/
def is_sorted_loop (s : disk_state) (bad : Nat) (hi : Nat) : Nat → Nat → Except Fault Bool
  | 0, _ => .error .out_of_fuel
  | fuel + 1, i =>
    if i < hi then
      match s.get i with
      | .error e => .error e
      | .ok c => if c.value = bad then .ok false else is_sorted_loop s bad hi fuel (i + 1)
    else
      .ok true

/-- The member `is_sorted()`. -/
def is_sorted (s : disk_state) : Except Fault Bool :=
  match is_sorted_loop s 1 s.light_count (s.total_count + 1) 0 with
  | .error e => .error e
  | .ok false => .ok false
  | .ok true => is_sorted_loop s 0 s.total_count (s.total_count + 1) s.light_count

end disk_state

/-- The class `sorted_disks`: the final row and the `unsigned` swap counter. -/
structure sorted_disks where
  _after : disk_state
  _swap_count : Nat
  deriving DecidableEq, Repr

namespace sorted_disks

/-- The constructor `sorted_disks(after, swap_count)`; its second parameter is an
`unsigned`, so the `size_t` counter passed by the algorithms is narrowed. -/
def ctor (after : disk_state) (swap_count : Nat) : sorted_disks :=
  ⟨after, swap_count % UNSIGNED_MODULUS⟩

/-- The member `after()`. -/
def after (r : sorted_disks) : disk_state := r._after

/-- The member `swap_count()`. -/
def swap_count (r : sorted_disks) : Nat := r._swap_count

end sorted_disks

namespace sort_alternate

/-- Inner loop of `sort_alternate`:
`while (currentIndex + loopCount < state.total_count() - loopCount) { ... currentIndex += 2; }`.
Returns the row and the swap counter at loop exit. -/
def pass : Nat → disk_state → Nat → Nat → Nat → Except Fault (disk_state × Nat)
  | 0, _, _, _, _ => .error .out_of_fuel
  | fuel + 1, state, numOfSwap, loopCount, currentIndex =>
    if currentIndex + loopCount < usub state.total_count loopCount then
      match state.get (currentIndex + loopCount) with
      | .error e => .error e
      | .ok tLeft =>
        match state.get (currentIndex + loopCount + 1) with
        | .error e => .error e
        | .ok tRight =>
          if tLeft.value = 1 ∧ tRight.value = 0 then
            match state.swap (currentIndex + loopCount) with
            | .error e => .error e
            | .ok state1 => pass fuel state1 (numOfSwap + 1) loopCount (currentIndex + 2)
          else
            pass fuel state numOfSwap loopCount (currentIndex + 2)
    else
      .ok (state, numOfSwap)

/-- Outer loop of `sort_alternate`: `while (isSorted == false) { ... }`.  The first
argument is the budget handed to each run of the inner loop. -/
def loop (passFuel : Nat) : Nat → disk_state → Nat → Nat → Except Fault (disk_state × Nat)
  | 0, _, _, _ => .error .out_of_fuel
  | fuel + 1, state, numOfSwap, loopCount =>
    let swapCheck := numOfSwap
    match pass passFuel state numOfSwap loopCount 0 with
    | .error e => .error e
    | .ok (state1, numOfSwap1) =>
      if swapCheck = numOfSwap1 ∧ loopCount ≠ 0 then
        .ok (state1, numOfSwap1)
      else
        loop passFuel fuel state1 numOfSwap1 (loopCount + 1)

end sort_alternate

/-- The function `sort_alternate(before)`, run with a step budget `fuel` for each of its
loops. -/
def sort_alternate (fuel : Nat) (before : disk_state) : Except Fault sorted_disks :=
  match sort_alternate.loop fuel fuel before 0 0 with
  | .error e => .error e
  | .ok (state, numOfSwap) => .ok (sorted_disks.ctor state numOfSwap)

namespace sort_lawnmower

/-- First inner loop of `sort_lawnmower` (left to right):
`while (loopCount < state.total_count() - 1) { ... loopCount++; }`.
Returns the row, the swap counter and `loopCount` at loop exit. -/
def left_to_right : Nat → disk_state → Nat → Nat → Except Fault (disk_state × Nat × Nat)
  | 0, _, _, _ => .error .out_of_fuel
  | fuel + 1, state, numOfSwap, loopCount =>
    if loopCount < usub state.total_count 1 then
      match state.get loopCount with
      | .error e => .error e
      | .ok tLeft =>
        match state.get (loopCount + 1) with
        | .error e => .error e
        | .ok tRight =>
          if tLeft.value = 1 ∧ tRight.value = 0 then
            match state.swap loopCount with
            | .error e => .error e
            | .ok state1 => left_to_right fuel state1 (numOfSwap + 1) (loopCount + 1)
          else
            left_to_right fuel state numOfSwap (loopCount + 1)
    else
      .ok (state, numOfSwap, loopCount)

/-- Second inner loop of `sort_lawnmower` (right to left):
`while (loopCount > 1) { ... loopCount--; }`. -/
def right_to_left : Nat → disk_state → Nat → Nat → Except Fault (disk_state × Nat)
  | 0, _, _, _ => .error .out_of_fuel
  | fuel + 1, state, numOfSwap, loopCount =>
    if loopCount > 1 then
      match state.get loopCount with
      | .error e => .error e
      | .ok tRight =>
        match state.get (usub loopCount 1) with
        | .error e => .error e
        | .ok tLeft =>
          if tLeft.value = 1 ∧ tRight.value = 0 then
            match state.swap (usub loopCount 1) with
            | .error e => .error e
            | .ok state1 => right_to_left fuel state1 (numOfSwap + 1) (usub loopCount 1)
          else
            right_to_left fuel state numOfSwap (usub loopCount 1)
    else
      .ok (state, numOfSwap)

/-- One iteration of the outer loop of `sort_lawnmower` up to its exit test: the
left-to-right loop started at `loopCount = 0`, then the right-to-left loop started at the
value of `loopCount` the first one left. -/
def sweep (passFuel : Nat) (state : disk_state) (numOfSwap : Nat) :
    Except Fault (disk_state × Nat) :=
  match left_to_right passFuel state numOfSwap 0 with
  | .error e => .error e
  | .ok (state1, numOfSwap1, loopCount1) => right_to_left passFuel state1 numOfSwap1 loopCount1

/-- Outer loop of `sort_lawnmower`: `while (isSorted == false) { ... }`. -/
def loop (passFuel : Nat) : Nat → disk_state → Nat → Except Fault (disk_state × Nat)
  | 0, _, _ => .error .out_of_fuel
  | fuel + 1, state, numOfSwap =>
    let swapCheck := numOfSwap
    match sweep passFuel state numOfSwap with
    | .error e => .error e
    | .ok (state1, numOfSwap1) =>
      if swapCheck = numOfSwap1 then
        .ok (state1, numOfSwap1)
      else
        loop passFuel fuel state1 numOfSwap1

end sort_lawnmower

/-- The function `sort_lawnmower(before)`, run with a step budget `fuel` for each of its
loops. -/
def sort_lawnmower (fuel : Nat) (before : disk_state) : Except Fault sorted_disks :=
  match sort_lawnmower.loop fuel fuel before 0 with
  | .error e => .error e
  | .ok (state, numOfSwap) => .ok (sorted_disks.ctor state numOfSwap)

namespace disk_state

/-- Loop of `to_string()`: the range-for over `_colors` with the flag `first`, appending
to the stream `ss`. -/
def to_string_loop : List disk_color → Bool → String → String
  | [], _, ss => ss
  | color :: rest, first, ss =>
    let ss1 := if !first then ss ++ " " else ss
    let ss2 := if color = DISK_LIGHT then ss1 ++ "L" else ss1 ++ "D"
    to_string_loop rest false ss2

/-- The member `to_string()`. -/
def to_string (s : disk_state) : String :=
  to_string_loop s._colors true ""

end disk_state

/-- The one-letter code of a colour in the rendering. -/
def token (c : disk_color) : String :=
  match c with
  | DISK_LIGHT => "L"
  | DISK_DARK => "D"

/-- Number of index pairs `i < j` of a row with a dark disk at `i` and a light disk at
`j`, counted position by position. -/
def dark_before_light_pairs (l : List disk_color) : Nat :=
  ((List.range l.length).map (fun i =>
    (List.range l.length).countP (fun j =>
      decide (i < j ∧ l[i]? = some DISK_DARK ∧ l[j]? = some DISK_LIGHT)))).sum

/-- One comparison of the reference sweep: the neighbours at `i` and `i + 1` are
exchanged, and the exchange counted, when colour(i) is dark and colour(i+1) is light. -/
def reference_step (st : List disk_color × Nat) (i : Nat) : List disk_color × Nat :=
  match st.1[i]?, st.1[i + 1]? with
  | some DISK_DARK, some DISK_LIGHT =>
    ((st.1.set i DISK_LIGHT).set (i + 1) DISK_DARK, st.2 + 1)
  | _, _ => st

/-- The reference sweep, written from the description of a sweep rather than from the
code: a left-to-right pass over `i = 0 .. total_count()-2` swapping at `i` whenever
colour(i) is dark and colour(i+1) is light, followed by a right-to-left pass over
`i = total_count()-1` down to `i = last` inclusive, swapping at `i - 1` whenever
colour(i-1) is dark and colour(i) is light.  Returns the row and the number of swaps. -/
def reference_sweep (last : Nat) (l : List disk_color) : List disk_color × Nat :=
  let forward := (List.range' 0 (l.length - 1)).foldl reference_step (l, 0)
  (List.range' last (l.length - last)).reverse.foldl
    (fun st i => reference_step st (i - 1)) forward

/-! ## The same loops with a record of the operations that have a precondition -/

/-- An operation of a run that has a precondition, with the values it is applied to:
a call `get(index)` or `swap(left_index)` on a row of `total` disks, a `size_t`
subtraction `a - b`, and the start of a pass of `sort_alternate` with the value of
`loopCount`. -/
inductive Event where
  | get (index total : Nat)
  | swap (left_index total : Nat)
  | sub (a b : Nat)
  | pass_start (loopCount total : Nat)
  deriving DecidableEq, Repr

/-- The operation meets its precondition: the index of `get` is below `total_count()`,
the right neighbour of the index of `swap` is below `total_count()`, the subtraction does
not wrap below zero, and `loopCount` does not exceed `total_count() / 2` when a pass
starts. -/
def Event.safe : Event → Bool
  | .get index total => decide (index < total)
  | .swap left_index total => decide (left_index + 1 < total)
  | .sub a b => decide (b ≤ a)
  | .pass_start loopCount total => decide (loopCount ≤ total / 2)

/-- The index passed to `get`, for a `get` event. -/
def Event.get_index : Event → Option Nat
  | .get index _ => some index
  | _ => none

namespace sort_alternate

/-- The inner loop `pass` of `sort_alternate`, recording its events. -/
def pass_traced :
    Nat → disk_state → Nat → Nat → Nat → List Event → Except Fault (disk_state × Nat × List Event)
  | 0, _, _, _, _, _ => .error .out_of_fuel
  | fuel + 1, state, numOfSwap, loopCount, currentIndex, log =>
    let log1 := log ++ [Event.sub state.total_count loopCount]
    if currentIndex + loopCount < usub state.total_count loopCount then
      let log2 := log1 ++ [Event.get (currentIndex + loopCount) state.total_count]
      match state.get (currentIndex + loopCount) with
      | .error e => .error e
      | .ok tLeft =>
        let log3 := log2 ++ [Event.get (currentIndex + loopCount + 1) state.total_count]
        match state.get (currentIndex + loopCount + 1) with
        | .error e => .error e
        | .ok tRight =>
          if tLeft.value = 1 ∧ tRight.value = 0 then
            let log4 := log3 ++ [Event.swap (currentIndex + loopCount) state.total_count]
            match state.swap (currentIndex + loopCount) with
            | .error e => .error e
            | .ok state1 =>
              pass_traced fuel state1 (numOfSwap + 1) loopCount (currentIndex + 2) log4
          else
            pass_traced fuel state numOfSwap loopCount (currentIndex + 2) log3
    else
      .ok (state, numOfSwap, log1)

/-- The outer loop `loop` of `sort_alternate`, recording its events. -/
def loop_traced (passFuel : Nat) :
    Nat → disk_state → Nat → Nat → List Event → Except Fault (disk_state × Nat × List Event)
  | 0, _, _, _, _ => .error .out_of_fuel
  | fuel + 1, state, numOfSwap, loopCount, log =>
    let swapCheck := numOfSwap
    let log1 := log ++ [Event.pass_start loopCount state.total_count]
    match pass_traced passFuel state numOfSwap loopCount 0 log1 with
    | .error e => .error e
    | .ok (state1, numOfSwap1, log2) =>
      if swapCheck = numOfSwap1 ∧ loopCount ≠ 0 then
        .ok (state1, numOfSwap1, log2)
      else
        loop_traced passFuel fuel state1 numOfSwap1 (loopCount + 1) log2

end sort_alternate

/-- The function `sort_alternate(before)`, recording its events. -/
def sort_alternate_traced (fuel : Nat) (before : disk_state) :
    Except Fault (sorted_disks × List Event) :=
  match sort_alternate.loop_traced fuel fuel before 0 0 [] with
  | .error e => .error e
  | .ok (state, numOfSwap, log) => .ok (sorted_disks.ctor state numOfSwap, log)

namespace sort_lawnmower

/-- The loop `left_to_right` of `sort_lawnmower`, recording its events. -/
def left_to_right_traced :
    Nat → disk_state → Nat → Nat → List Event →
      Except Fault (disk_state × Nat × Nat × List Event)
  | 0, _, _, _, _ => .error .out_of_fuel
  | fuel + 1, state, numOfSwap, loopCount, log =>
    let log1 := log ++ [Event.sub state.total_count 1]
    if loopCount < usub state.total_count 1 then
      let log2 := log1 ++ [Event.get loopCount state.total_count]
      match state.get loopCount with
      | .error e => .error e
      | .ok tLeft =>
        let log3 := log2 ++ [Event.get (loopCount + 1) state.total_count]
        match state.get (loopCount + 1) with
        | .error e => .error e
        | .ok tRight =>
          if tLeft.value = 1 ∧ tRight.value = 0 then
            let log4 := log3 ++ [Event.swap loopCount state.total_count]
            match state.swap loopCount with
            | .error e => .error e
            | .ok state1 =>
              left_to_right_traced fuel state1 (numOfSwap + 1) (loopCount + 1) log4
          else
            left_to_right_traced fuel state numOfSwap (loopCount + 1) log3
    else
      .ok (state, numOfSwap, loopCount, log1)

/-- The loop `right_to_left` of `sort_lawnmower`, recording its events. -/
def right_to_left_traced :
    Nat → disk_state → Nat → Nat → List Event → Except Fault (disk_state × Nat × List Event)
  | 0, _, _, _, _ => .error .out_of_fuel
  | fuel + 1, state, numOfSwap, loopCount, log =>
    if loopCount > 1 then
      let log1 := log ++ [Event.get loopCount state.total_count]
      match state.get loopCount with
      | .error e => .error e
      | .ok tRight =>
        let log2 := log1 ++ [Event.sub loopCount 1,
          Event.get (usub loopCount 1) state.total_count]
        match state.get (usub loopCount 1) with
        | .error e => .error e
        | .ok tLeft =>
          if tLeft.value = 1 ∧ tRight.value = 0 then
            let log3 := log2 ++ [Event.sub loopCount 1,
              Event.swap (usub loopCount 1) state.total_count]
            match state.swap (usub loopCount 1) with
            | .error e => .error e
            | .ok state1 =>
              right_to_left_traced fuel state1 (numOfSwap + 1) (usub loopCount 1)
                (log3 ++ [Event.sub loopCount 1])
          else
            right_to_left_traced fuel state numOfSwap (usub loopCount 1)
              (log2 ++ [Event.sub loopCount 1])
    else
      .ok (state, numOfSwap, log)

/-- The outer loop `loop` of `sort_lawnmower`, recording its events. -/
def loop_traced (passFuel : Nat) :
    Nat → disk_state → Nat → List Event → Except Fault (disk_state × Nat × List Event)
  | 0, _, _, _ => .error .out_of_fuel
  | fuel + 1, state, numOfSwap, log =>
    let swapCheck := numOfSwap
    match left_to_right_traced passFuel state numOfSwap 0 log with
    | .error e => .error e
    | .ok (state1, numOfSwap1, loopCount1, log1) =>
      match right_to_left_traced passFuel state1 numOfSwap1 loopCount1 log1 with
      | .error e => .error e
      | .ok (state2, numOfSwap2, log2) =>
        if swapCheck = numOfSwap2 then
          .ok (state2, numOfSwap2, log2)
        else
          loop_traced passFuel fuel state2 numOfSwap2 log2

end sort_lawnmower

/-- The function `sort_lawnmower(before)`, recording its events. -/
def sort_lawnmower_traced (fuel : Nat) (before : disk_state) :
    Except Fault (sorted_disks × List Event) :=
  match sort_lawnmower.loop_traced fuel fuel before 0 [] with
  | .error e => .error e
  | .ok (state, numOfSwap, log) => .ok (sorted_disks.ctor state numOfSwap, log)

/-! ## Rows and measures used in the statements -/

/-- Number of pairs of positions `i < j` with a dark disk at `i` and a light disk at `j`. -/
def inversions : List disk_color → Nat
  | [] => 0
  | c :: cs => (if c = DISK_DARK then cs.count DISK_LIGHT else 0) + inversions cs

/-- The row `l2` is a rearrangement of `l1` with `k` fewer dark-before-light pairs, and it
is `l1` itself when `k = 0`.  This is what `k` exchanges of a dark disk with the light
disk right after it achieve. -/
def SwapsTo (l1 : List disk_color) (k : Nat) (l2 : List disk_color) : Prop :=
  l2.Perm l1 ∧ inversions l2 + k = inversions l1 ∧ (k = 0 → l2 = l1)

/-- No dark disk stands right before a light disk. -/
def NoDarkLight (l : List disk_color) : Prop :=
  ∀ j, ¬ (l[j]? = some DISK_DARK ∧ l[j + 1]? = some DISK_LIGHT)

/-- The row of `a` light disks followed by `b` dark disks. -/
def lights_then_darks (a b : Nat) : List disk_color :=
  List.replicate a DISK_LIGHT ++ List.replicate b DISK_DARK

/-- The alternating row of `n` light and `n` dark disks: light at the even positions,
dark at the odd ones. -/
def alternating : Nat → List disk_color
  | 0 => []
  | n + 1 => DISK_LIGHT :: DISK_DARK :: alternating n

/-- The row holds exactly `N` light and `N` dark disks. -/
def HasCounts (N : Nat) (s : disk_state) : Prop :=
  s._colors.count DISK_LIGHT = N ∧ s._colors.count DISK_DARK = N

/-- The row Dark Light Dark Light ... of `n` pairs: what a pass of `sort_alternate` with
`loopCount ≥ 1` finds inside its window on the canonical input. -/
def dark_light : Nat → List disk_color
  | 0 => []
  | n + 1 => DISK_DARK :: DISK_LIGHT :: dark_light n

/-- Characters that follow the first token of a rendering: a space and a letter for every
further disk. -/
def rendered_tail : List disk_color → List Char
  | [] => []
  | c :: rest => ' ' :: (token c).data ++ rendered_tail rest

/-- The row that pass `k` of `sort_alternate` leaves on the alternating input of `N` light
and `N` dark disks: `k` light disks, the alternating row of `N - k` pairs, `k` dark
disks. -/
def after_pass (N k : Nat) : List disk_color :=
  List.replicate k DISK_LIGHT ++ (alternating (N - k) ++ List.replicate k DISK_DARK)

/-- Number of swaps `sort_alternate` has performed on the alternating row of `N` light and
`N` dark disks when pass `k` starts: pass `0` performs none and pass `j ≥ 1` performs
`N - j`. -/
def swaps_before (N : Nat) : Nat → Nat
  | 0 => 0
  | k + 1 => swaps_before N k + (if k = 0 then 0 else N - k)

/-- The row and the swap counter with which pass `k` of `sort_alternate` starts: the input
and `0` for `k = 0`, and for `k + 1` what the inner loop run with `loopCount = k` returns
on the row and the counter with which pass `k` starts. -/
def sort_alternate.state_before_pass (passFuel : Nat) (before : disk_state) :
    Nat → Except Fault (disk_state × Nat)
  | 0 => .ok (before, 0)
  | k + 1 =>
    match sort_alternate.state_before_pass passFuel before k with
    | .error e => .error e
    | .ok (state, numOfSwap) => sort_alternate.pass passFuel state numOfSwap k 0

/-! ## Reading and swapping at a position given by a prefix -/

theorem disk_color.value_eq_one (c : disk_color) : c.value = 1 ↔ c = DISK_DARK := by
  cases c <;> simp [disk_color.value]

theorem disk_color.value_eq_zero (c : disk_color) : c.value = 0 ↔ c = DISK_LIGHT := by
  cases c <;> simp [disk_color.value]

theorem usub_of_le {a b : Nat} (h : b ≤ a) : usub a b = a - b := by
  simp [usub, h]

theorem split_at_pair (l : List disk_color) (p : Nat) (h : p + 1 < l.length) :
    ∃ pre x y suf, l = pre ++ x :: y :: suf ∧ pre.length = p := by
  refine ⟨l.take p, l[p], l[p + 1], l.drop (p + 2), ?_, ?_⟩
  · have h1 : l.drop p = l[p] :: l.drop (p + 1) := by
      rw [List.drop_eq_getElem_cons]
    have h2 : l.drop (p + 1) = l[p + 1] :: l.drop (p + 2) := by
      rw [List.drop_eq_getElem_cons]
    rw [← h2, ← h1, List.take_append_drop]
  · simp; omega

theorem getElem?_at_prefix (pre : List disk_color) (x : disk_color) (suf : List disk_color) :
    (pre ++ x :: suf)[pre.length]? = some x := by
  induction pre with
  | nil => simp
  | cons a pre ih => simpa using ih

theorem getElem?_after_prefix (pre : List disk_color) (x y : disk_color)
    (suf : List disk_color) : (pre ++ x :: y :: suf)[pre.length + 1]? = some y := by
  induction pre with
  | nil => simp
  | cons a pre ih => simpa using ih

theorem set_pair_at_prefix (pre : List disk_color) (x y a b : disk_color)
    (suf : List disk_color) :
    ((pre ++ x :: y :: suf).set pre.length a).set (pre.length + 1) b = pre ++ a :: b :: suf := by
  induction pre with
  | nil => rfl
  | cons c pre ih => simp [ih]

theorem disk_state.get_at_prefix (pre : List disk_color) (x : disk_color) (suf : List disk_color) :
    disk_state.get ⟨pre ++ x :: suf⟩ pre.length = .ok x := by
  have h : (pre ++ x :: suf)[pre.length]? = some x := getElem?_at_prefix pre x suf
  simp only [disk_state.get, disk_state.is_index, disk_state.total_count, h]
  simp

theorem disk_state.get_after_prefix (pre : List disk_color) (x y : disk_color)
    (suf : List disk_color) :
    disk_state.get ⟨pre ++ x :: y :: suf⟩ (pre.length + 1) = .ok y := by
  have h := getElem?_after_prefix pre x y suf
  simp only [disk_state.get, disk_state.is_index, disk_state.total_count, h]
  simp

theorem disk_state.swap_at_prefix (pre : List disk_color) (x y : disk_color)
    (suf : List disk_color) :
    disk_state.swap ⟨pre ++ x :: y :: suf⟩ pre.length = .ok ⟨pre ++ y :: x :: suf⟩ := by
  have h1 := getElem?_at_prefix pre x (y :: suf)
  have h2 := getElem?_after_prefix pre x y suf
  simp only [disk_state.swap, disk_state.is_index, disk_state.total_count, h1, h2,
    set_pair_at_prefix]
  simp

/-! ## Counting disorder -/

theorem inversions_append (a b : List disk_color) :
    inversions (a ++ b)
      = inversions a + inversions b + a.count DISK_DARK * b.count DISK_LIGHT := by
  induction a with
  | nil => simp [inversions]
  | cons c a ih =>
    cases c
    · simp [inversions, ih]
    · simp [inversions, ih, List.count_append]
      ring

theorem inversions_swap (pre suf : List disk_color) :
    inversions (pre ++ DISK_LIGHT :: DISK_DARK :: suf) + 1
      = inversions (pre ++ DISK_DARK :: DISK_LIGHT :: suf) := by
  rw [inversions_append, inversions_append]
  simp [inversions]
  ring

theorem SwapsTo.refl (l : List disk_color) : SwapsTo l 0 l :=
  ⟨List.Perm.refl l, rfl, fun _ => rfl⟩

theorem SwapsTo.trans {a b c : List disk_color} {k j : Nat}
    (h1 : SwapsTo a k b) (h2 : SwapsTo b j c) : SwapsTo a (k + j) c := by
  obtain ⟨p1, i1, e1⟩ := h1
  obtain ⟨p2, i2, e2⟩ := h2
  refine ⟨p2.trans p1, by omega, fun h => ?_⟩
  have hk : k = 0 := by omega
  have hj : j = 0 := by omega
  rw [e2 hj, e1 hk]

theorem SwapsTo.swap (pre suf : List disk_color) :
    SwapsTo (pre ++ DISK_DARK :: DISK_LIGHT :: suf) 1 (pre ++ DISK_LIGHT :: DISK_DARK :: suf) := by
  refine ⟨?_, inversions_swap pre suf, fun h => absurd h (by decide)⟩
  exact List.Perm.append_left pre (List.Perm.swap _ _ _)

theorem SwapsTo.length_eq {a b : List disk_color} {k : Nat} (h : SwapsTo a k b) :
    b.length = a.length := h.1.length_eq

theorem SwapsTo.le_inversions {a b : List disk_color} {k : Nat} (h : SwapsTo a k b) :
    k ≤ inversions a := by
  have := h.2.1
  omega

/-! ## One comparison of a neighbouring pair -/

theorem step_spec (s : disk_state) (p : Nat) (h : p + 1 < s.total_count) :
    ∃ x y, s.get p = .ok x ∧ s.get (p + 1) = .ok y ∧
      s._colors[p]? = some x ∧ s._colors[p + 1]? = some y ∧
      (x.value = 1 ∧ y.value = 0 →
        ∃ s1, s.swap p = .ok s1 ∧ SwapsTo s._colors 1 s1._colors) := by
  obtain ⟨l⟩ := s
  obtain ⟨pre, x, y, suf, rfl, rfl⟩ := split_at_pair l p h
  refine ⟨x, y, disk_state.get_at_prefix pre x _, disk_state.get_after_prefix pre x y suf,
    getElem?_at_prefix pre x _, getElem?_after_prefix pre x y suf, ?_⟩
  rintro ⟨hx, hy⟩
  rw [disk_color.value_eq_one] at hx
  rw [disk_color.value_eq_zero] at hy
  subst hx hy
  exact ⟨_, disk_state.swap_at_prefix pre _ _ suf, SwapsTo.swap pre suf⟩

/-! ## The loops of `sort_lawnmower` -/

theorem sort_lawnmower.left_to_right_spec (fuel : Nat) :
    ∀ (s : disk_state) (n i : Nat), i < s.total_count → s.total_count < fuel + i →
      ∃ s1 n1, sort_lawnmower.left_to_right fuel s n i = .ok (s1, n1, s.total_count - 1) ∧
        n ≤ n1 ∧ SwapsTo s._colors (n1 - n) s1._colors ∧
        (n1 = n → ∀ j, i ≤ j →
          ¬ (s._colors[j]? = some DISK_DARK ∧ s._colors[j + 1]? = some DISK_LIGHT)) := by
  induction fuel with
  | zero => intro s n i h1 h2; omega
  | succ fuel ih =>
    intro s n i h1 h2
    have hsub : usub s.total_count 1 = s.total_count - 1 := usub_of_le (by omega)
    rw [sort_lawnmower.left_to_right, hsub]
    by_cases hc : i < s.total_count - 1
    · rw [if_pos hc]
      obtain ⟨x, y, hx, hy, ex, ey, hswap⟩ := step_spec s i (by omega)
      rw [hx, hy]
      by_cases hxy : x.value = 1 ∧ y.value = 0
      · obtain ⟨s1, hs1, hsw⟩ := hswap hxy
        have hlen : s1.total_count = s.total_count := hsw.length_eq
        simp only [hxy, and_self, if_true, hs1]
        obtain ⟨s2, n2, h2eq, hn, hsw2, _⟩ :=
          ih s1 (n + 1) (i + 1) (by omega) (by omega)
        refine ⟨s2, n2, by rw [h2eq, hlen], by omega, ?_, fun h => by omega⟩
        have : n2 - n = 1 + (n2 - (n + 1)) := by omega
        rw [this]
        exact hsw.trans hsw2
      · simp only [hxy, if_false]
        obtain ⟨s2, n2, h2eq, hn, hsw2, hscan⟩ := ih s n (i + 1) (by omega) (by omega)
        refine ⟨s2, n2, h2eq, hn, hsw2, fun h j hj => ?_⟩
        rcases Nat.eq_or_lt_of_le hj with rfl | hlt
        · rintro ⟨hd, hl⟩
          rw [ex] at hd
          rw [ey] at hl
          injection hd with hd
          injection hl with hl
          subst hd hl
          exact hxy ⟨rfl, rfl⟩
        · exact hscan h j hlt
    · rw [if_neg hc]
      have hi : i = s.total_count - 1 := by omega
      refine ⟨s, n, by rw [← hi], le_refl n, by simpa using SwapsTo.refl s._colors,
        fun _ j hj => ?_⟩
      rintro ⟨_, hl⟩
      have : s._colors.length ≤ j + 1 := by
        have := h1
        simp only [disk_state.total_count] at hc this
        omega
      rw [List.getElem?_eq_none this] at hl
      exact absurd hl (by simp)

theorem sort_lawnmower.right_to_left_spec (fuel : Nat) :
    ∀ (s : disk_state) (n i : Nat), i < s.total_count → i < fuel →
      ∃ s1 n1, sort_lawnmower.right_to_left fuel s n i = .ok (s1, n1) ∧
        n ≤ n1 ∧ SwapsTo s._colors (n1 - n) s1._colors := by
  induction fuel with
  | zero => intro s n i h1 h2; omega
  | succ fuel ih =>
    intro s n i h1 h2
    rw [sort_lawnmower.right_to_left]
    by_cases hc : i > 1
    · have hsub : usub i 1 = i - 1 := usub_of_le (by omega)
      rw [if_pos hc, hsub]
      obtain ⟨x, y, hx, hy, _, _, hswap⟩ := step_spec s (i - 1) (by omega)
      have hi : i - 1 + 1 = i := by omega
      rw [hi] at hy
      rw [hy, hx]
      by_cases hxy : x.value = 1 ∧ y.value = 0
      · obtain ⟨s1, hs1, hsw⟩ := hswap hxy
        have hlen : s1.total_count = s.total_count := hsw.length_eq
        simp only [hxy, and_self, if_true, hs1]
        obtain ⟨s2, n2, h2eq, hn, hsw2⟩ := ih s1 (n + 1) (i - 1) (by omega) (by omega)
        refine ⟨s2, n2, h2eq, by omega, ?_⟩
        have : n2 - n = 1 + (n2 - (n + 1)) := by omega
        rw [this]
        exact hsw.trans hsw2
      · simp only [hxy, if_false]
        exact ih s n (i - 1) (by omega) (by omega)
    · rw [if_neg hc]
      exact ⟨s, n, rfl, le_refl n, by simpa using SwapsTo.refl s._colors⟩

theorem sort_lawnmower.sweep_spec (passFuel : Nat) (s : disk_state) (n : Nat)
    (hpos : 0 < s.total_count) (hfuel : s.total_count < passFuel) :
    ∃ s1 n1, sort_lawnmower.sweep passFuel s n = .ok (s1, n1) ∧
      n ≤ n1 ∧ SwapsTo s._colors (n1 - n) s1._colors ∧
      (n1 = n → NoDarkLight s._colors) := by
  obtain ⟨s1, n1, h1, hn1, hsw1, hscan⟩ :=
    sort_lawnmower.left_to_right_spec passFuel s n 0 hpos (by omega)
  have hlen : s1.total_count = s.total_count := hsw1.length_eq
  obtain ⟨s2, n2, h2, hn2, hsw2⟩ :=
    sort_lawnmower.right_to_left_spec passFuel s1 n1 (s.total_count - 1) (by omega) (by omega)
  refine ⟨s2, n2, ?_, by omega, ?_, fun h j => hscan (by omega) j (Nat.zero_le j)⟩
  · simp only [sort_lawnmower.sweep, h1, h2]
  · have : n2 - n = (n1 - n) + (n2 - n1) := by omega
    rw [this]
    exact hsw1.trans hsw2

theorem sort_lawnmower.loop_spec (passFuel : Nat) (fuel : Nat) :
    ∀ (s : disk_state) (n : Nat), 0 < s.total_count → s.total_count < passFuel →
      inversions s._colors < fuel →
      ∃ s1 n1, sort_lawnmower.loop passFuel fuel s n = .ok (s1, n1) ∧
        n ≤ n1 ∧ SwapsTo s._colors (n1 - n) s1._colors ∧ NoDarkLight s1._colors := by
  induction fuel with
  | zero => intro s n _ _ h; omega
  | succ fuel ih =>
    intro s n hpos hfuel hinv
    obtain ⟨s1, n1, h1, hn1, hsw1, hnone⟩ := sort_lawnmower.sweep_spec passFuel s n hpos hfuel
    simp only [sort_lawnmower.loop, h1]
    by_cases hc : n = n1
    · rw [if_pos hc]
      have h0 : n1 - n = 0 := by omega
      have hs : s1._colors = s._colors := hsw1.2.2 h0
      refine ⟨s1, n1, rfl, hn1, hsw1, ?_⟩
      rw [hs]
      exact hnone hc.symm
    · rw [if_neg hc]
      have hlen : s1.total_count = s.total_count := hsw1.length_eq
      have hdec : inversions s1._colors < fuel := by
        have := hsw1.2.1
        omega
      obtain ⟨s2, n2, h2, hn2, hsw2, hnd⟩ := ih s1 n1 (by omega) (by omega) hdec
      refine ⟨s2, n2, h2, by omega, ?_, hnd⟩
      have : n2 - n = (n1 - n) + (n2 - n1) := by omega
      rw [this]
      exact hsw1.trans hsw2

/-! ## Rows without a dark disk right before a light one -/

theorem inversions_le_product (l : List disk_color) :
    inversions l ≤ l.count DISK_DARK * l.count DISK_LIGHT := by
  induction l with
  | nil => simp [inversions]
  | cons c cs ih =>
    cases c
    · simp only [inversions, List.count_cons]
      simp
      nlinarith
    · simp only [inversions, List.count_cons]
      simp
      nlinarith

theorem NoDarkLight.tail {c : disk_color} {cs : List disk_color}
    (h : NoDarkLight (c :: cs)) : NoDarkLight cs := by
  intro j hj
  exact h (j + 1) (by simpa using hj)

theorem NoDarkLight.shape (l : List disk_color) (h : NoDarkLight l) :
    l = List.replicate (l.count DISK_LIGHT) DISK_LIGHT
          ++ List.replicate (l.count DISK_DARK) DISK_DARK := by
  induction l with
  | nil => simp
  | cons c cs ih =>
    have ih1 := ih h.tail
    cases c
    · simp only [List.count_cons]
      simp [List.replicate_succ, ← ih1]
    · have h0 : cs.count DISK_LIGHT = 0 := by
        by_contra hne
        obtain ⟨a, ha⟩ := Nat.exists_eq_succ_of_ne_zero hne
        have h1 := h 0
        rw [ih1, ha] at h1
        simp [List.replicate_succ] at h1
      simp only [List.count_cons]
      rw [h0] at ih1 ⊢
      simp [List.replicate_succ, ← ih1] 
      simpa using ih1

theorem inversions_sorted (a b : Nat) :
    inversions (List.replicate a DISK_LIGHT ++ List.replicate b DISK_DARK) = 0 := by
  induction a with
  | zero =>
    induction b with
    | zero => rfl
    | succ b ih =>
      simp only [List.replicate_succ, List.replicate_zero, List.nil_append, inversions] at ih ⊢
      simp [ih, List.count_replicate]
  | succ a ih =>
    simp only [List.replicate_succ, List.cons_append, inversions]
    simpa using ih

/-! ## The members `get`, `is_sorted` and `is_initialized` -/

theorem disk_state.get_of_lt (s : disk_state) (j : Nat) (h : j < s.total_count) :
    ∃ c, s.get j = .ok c ∧ s._colors[j]? = some c := by
  have h2 : j < s._colors.length := h
  refine ⟨s._colors[j], ?_, List.getElem?_eq_getElem h2⟩
  simp only [disk_state.get, disk_state.is_index, disk_state.total_count, h2, decide_True,
    if_true, List.getElem?_eq_getElem h2]

theorem disk_state.get_of_ge (s : disk_state) (j : Nat) (h : s.total_count ≤ j) :
    s.get j = .error .assert_failed := by
  have h2 : ¬ j < s.total_count := by omega
  simp [disk_state.get, disk_state.is_index, h2]

theorem disk_state.get_eq_ok_iff (s : disk_state) (j : Nat) (c : disk_color) :
    s.get j = .ok c ↔ s._colors[j]? = some c := by
  by_cases h : j < s.total_count
  · obtain ⟨d, hd, hd2⟩ := s.get_of_lt j h
    rw [hd, hd2]
    constructor
    · intro e; injection e with e; rw [e]
    · intro e; injection e with e; rw [e]
  · have h1 : s.total_count ≤ j := by omega
    rw [s.get_of_ge j h1, List.getElem?_eq_none h1]
    constructor
    · intro e; cases e
    · intro e; cases e

theorem disk_state.is_sorted_loop_spec (s : disk_state) (bad hi : Nat) (fuel : Nat) :
    ∀ i, i ≤ hi → hi ≤ s.total_count → hi < fuel + i →
      ∃ b, disk_state.is_sorted_loop s bad hi fuel i = .ok b ∧
        (b = true ↔ ∀ j, i ≤ j → j < hi → ∃ c, s.get j = .ok c ∧ c.value ≠ bad) := by
  induction fuel with
  | zero => intro i h1 _ h3; omega
  | succ fuel ih =>
    intro i h1 h2 h3
    rw [disk_state.is_sorted_loop]
    by_cases hc : i < hi
    · rw [if_pos hc]
      obtain ⟨c, hc1, _⟩ := s.get_of_lt i (by omega)
      rw [hc1]
      by_cases hbad : c.value = bad
      · simp only [hbad, if_true]
        refine ⟨false, rfl, ?_⟩
        constructor
        · intro h; cases h
        · intro h
          obtain ⟨d, hd, hd2⟩ := h i (le_refl i) hc
          rw [hc1] at hd
          injection hd with hd
          subst hd
          exact absurd hbad hd2
      · simp only [hbad, if_false]
        obtain ⟨b, hb, hiff⟩ := ih (i + 1) (by omega) h2 (by omega)
        refine ⟨b, hb, ?_⟩
        rw [hiff]
        constructor
        · intro h j hj1 hj2
          rcases Nat.eq_or_lt_of_le hj1 with rfl | hlt
          · exact ⟨c, hc1, hbad⟩
          · exact h j hlt hj2
        · intro h j hj1 hj2
          exact h j (by omega) hj2
    · rw [if_neg hc]
      exact ⟨true, rfl, by simp; intro j hj1 hj2; omega⟩

theorem disk_state.is_sorted_spec (s : disk_state) :
    ∃ b, s.is_sorted = .ok b ∧
      (b = true ↔
        (∀ j, j < s.light_count → s.get j = .ok DISK_LIGHT) ∧
        (∀ j, s.light_count ≤ j → j < s.total_count → s.get j = .ok DISK_DARK)) := by
  have hN : s.light_count ≤ s.total_count := Nat.div_le_self _ _
  obtain ⟨b1, h1, iff1⟩ := disk_state.is_sorted_loop_spec s 1 s.light_count
    (s.total_count + 1) 0 (Nat.zero_le _) hN (by omega)
  obtain ⟨b2, h2, iff2⟩ := disk_state.is_sorted_loop_spec s 0 s.total_count
    (s.total_count + 1) s.light_count hN (le_refl _) (by omega)
  have e1 : (∀ j, 0 ≤ j → j < s.light_count → ∃ c, s.get j = .ok c ∧ c.value ≠ 1)
      ↔ ∀ j, j < s.light_count → s.get j = .ok DISK_LIGHT := by
    constructor
    · intro h j hj
      obtain ⟨c, hc, hv⟩ := h j (Nat.zero_le j) hj
      cases c
      · exact hc
      · exact absurd rfl hv
    · intro h j _ hj
      exact ⟨DISK_LIGHT, h j hj, by decide⟩
  have e2 : (∀ j, s.light_count ≤ j → j < s.total_count → ∃ c, s.get j = .ok c ∧ c.value ≠ 0)
      ↔ ∀ j, s.light_count ≤ j → j < s.total_count → s.get j = .ok DISK_DARK := by
    constructor
    · intro h j hj1 hj2
      obtain ⟨c, hc, hv⟩ := h j hj1 hj2
      cases c
      · exact absurd rfl hv
      · exact hc
    · intro h j hj1 hj2
      exact ⟨DISK_DARK, h j hj1 hj2, by decide⟩
  rw [e1] at iff1
  rw [e2] at iff2
  cases b1 with
  | false =>
    refine ⟨false, by simp only [disk_state.is_sorted, h1], ?_⟩
    constructor
    · intro h; cases h
    · intro h
      exact iff1.mpr h.1
  | true =>
    refine ⟨b2, by simp only [disk_state.is_sorted, h1, h2], ?_⟩
    rw [iff2]
    constructor
    · intro h; exact ⟨iff1.mp rfl, h⟩
    · intro h; exact h.2

theorem length_eq_counts (l : List disk_color) :
    l.length = l.count DISK_LIGHT + l.count DISK_DARK := by
  induction l with
  | nil => rfl
  | cons c cs ih =>
    cases c <;> simp [List.count_cons, ih] <;> omega

theorem HasCounts.total_count {N : Nat} {s : disk_state} (h : HasCounts N s) :
    s.total_count = 2 * N := by
  have := length_eq_counts s._colors
  rw [h.1, h.2] at this
  simp only [disk_state.total_count]
  omega

theorem lights_then_darks_get_left (a b j : Nat) (h : j < a) :
    (lights_then_darks a b)[j]? = some DISK_LIGHT := by
  unfold lights_then_darks
  rw [List.getElem?_append_left (by simpa using h)]
  simp [List.getElem?_replicate, h]

theorem lights_then_darks_get_right (a b j : Nat) (h1 : a ≤ j) (h2 : j < a + b) :
    (lights_then_darks a b)[j]? = some DISK_DARK := by
  unfold lights_then_darks
  rw [List.getElem?_append_right (by simpa using h1)]
  have : j - a < b := by omega
  simp [List.getElem?_replicate, this]

theorem is_sorted_lights_then_darks (N : Nat) :
    disk_state.is_sorted ⟨lights_then_darks N N⟩ = .ok true := by
  obtain ⟨b, hb, hiff⟩ := disk_state.is_sorted_spec ⟨lights_then_darks N N⟩
  have hlen : disk_state.total_count ⟨lights_then_darks N N⟩ = N + N := by
    simp [disk_state.total_count, lights_then_darks]
  have hN : disk_state.light_count ⟨lights_then_darks N N⟩ = N := by
    simp only [disk_state.light_count, hlen]
    omega
  have : b = true := by
    rw [hiff, hN, hlen]
    constructor
    · intro j hj
      rw [disk_state.get_eq_ok_iff]
      exact lights_then_darks_get_left N N j hj
    · intro j hj1 hj2
      rw [disk_state.get_eq_ok_iff]
      exact lights_then_darks_get_right N N j hj1 hj2
  rw [hb, this]

theorem HasCounts.is_sorted_of_noDarkLight {N : Nat} {s : disk_state} (h : HasCounts N s)
    (hnd : NoDarkLight s._colors) : s._colors = lights_then_darks N N := by
  have := NoDarkLight.shape s._colors hnd
  rw [h.1, h.2] at this
  exact this

theorem HasCounts.of_swapsTo {N k : Nat} {s s1 : disk_state} (h : HasCounts N s)
    (hsw : SwapsTo s._colors k s1._colors) : HasCounts N s1 :=
  ⟨by rw [hsw.1.count_eq]; exact h.1, by rw [hsw.1.count_eq]; exact h.2⟩

theorem HasCounts.inversions_le {N : Nat} {s : disk_state} (h : HasCounts N s) :
    inversions s._colors ≤ N * N := by
  have := inversions_le_product s._colors
  rw [h.1, h.2] at this
  exact this

/-- Result of `sort_lawnmower` on any non-empty row: it returns, and the returned row is a
rearrangement of the input without a dark disk right before a light one. -/
theorem sort_lawnmower_spec (fuel : Nat) (s : disk_state) (hpos : 0 < s.total_count)
    (h1 : s.total_count < fuel) (h2 : inversions s._colors < fuel) :
    ∃ s1 n1, sort_lawnmower fuel s = .ok (sorted_disks.ctor s1 n1) ∧
      SwapsTo s._colors n1 s1._colors ∧ NoDarkLight s1._colors := by
  obtain ⟨s1, n1, h, _, hsw, hnd⟩ := sort_lawnmower.loop_spec fuel fuel s 0 hpos h1 h2
  exact ⟨s1, n1, by simp only [sort_lawnmower, h], by simpa using hsw, hnd⟩

/-! ## The loops of `sort_alternate` on an arbitrary row -/

theorem sort_alternate.pass_spec (fuel : Nat) :
    ∀ (s : disk_state) (n k c : Nat), k ≤ s.total_count →
      (1 ≤ k ∨ (c % 2 = 0 ∧ s.total_count % 2 = 0)) →
      s.total_count - (c + k) < fuel →
      ∃ s1 n1, sort_alternate.pass fuel s n k c = .ok (s1, n1) ∧
        n ≤ n1 ∧ SwapsTo s._colors (n1 - n) s1._colors := by
  induction fuel with
  | zero => intro s n k c _ _ h; omega
  | succ fuel ih =>
    intro s n k c hk hpar hfuel
    have hsub : usub s.total_count k = s.total_count - k := usub_of_le hk
    rw [sort_alternate.pass, hsub]
    by_cases hc : c + k < s.total_count - k
    · rw [if_pos hc]
      have hin : c + k + 1 < s.total_count := by
        rcases hpar with h | ⟨h1, h2⟩
        · omega
        · omega
      obtain ⟨x, y, hx, hy, _, _, hswap⟩ := step_spec s (c + k) hin
      rw [hx, hy]
      by_cases hxy : x.value = 1 ∧ y.value = 0
      · obtain ⟨s1, hs1, hsw⟩ := hswap hxy
        have hlen : s1.total_count = s.total_count := hsw.length_eq
        simp only [hxy, and_self, if_true, hs1]
        obtain ⟨s2, n2, h2eq, hn, hsw2⟩ :=
          ih s1 (n + 1) k (c + 2) (by omega) (by rw [hlen]; omega) (by omega)
        refine ⟨s2, n2, h2eq, by omega, ?_⟩
        have : n2 - n = 1 + (n2 - (n + 1)) := by omega
        rw [this]
        exact hsw.trans hsw2
      · simp only [hxy, if_false]
        exact ih s n k (c + 2) hk (by omega) (by omega)
    · rw [if_neg hc]
      exact ⟨s, n, rfl, le_refl n, by simpa using SwapsTo.refl s._colors⟩

theorem sort_alternate.pass_empty_window (fuel : Nat) (s : disk_state) (n k : Nat)
    (hk : k ≤ s.total_count) (hw : s.total_count ≤ 2 * k) :
    sort_alternate.pass (fuel + 1) s n k 0 = .ok (s, n) := by
  have hsub : usub s.total_count k = s.total_count - k := usub_of_le hk
  rw [sort_alternate.pass, hsub]
  have : ¬ (0 + k < s.total_count - k) := by omega
  rw [if_neg this]

theorem sort_alternate.loop_rearranges (passFuel N : Nat) (fuel : Nat) :
    ∀ (s : disk_state) (n k : Nat), s.total_count = 2 * N → 1 ≤ N → k ≤ N →
      2 * N < passFuel → N - k < fuel →
      ∃ s1 n1, sort_alternate.loop passFuel fuel s n k = .ok (s1, n1) ∧
        n ≤ n1 ∧ SwapsTo s._colors (n1 - n) s1._colors := by
  induction fuel with
  | zero => intro s n k _ _ _ _ h; omega
  | succ fuel ih =>
    intro s n k hlen hN hk hpf hfuel
    obtain ⟨s1, n1, h1, hn1, hsw1⟩ :=
      sort_alternate.pass_spec passFuel s n k 0 (by omega) (by omega) (by omega)
    simp only [sort_alternate.loop, h1]
    by_cases hc : n = n1 ∧ k ≠ 0
    · rw [if_pos hc]
      exact ⟨s1, n1, rfl, hn1, hsw1⟩
    · rw [if_neg hc]
      have hlt : k < N := by
        by_contra hge
        have hkN : k = N := by omega
        obtain ⟨pf, rfl⟩ : ∃ pf, passFuel = pf + 1 := ⟨passFuel - 1, by omega⟩
        rw [sort_alternate.pass_empty_window pf s n k (by omega) (by omega)] at h1
        injection h1 with h1
        injection h1 with _ h1
        exact hc ⟨h1, by omega⟩
      have hlen1 : s1.total_count = 2 * N := by rw [← hlen]; exact hsw1.length_eq
      obtain ⟨s2, n2, h2, hn2, hsw2⟩ :=
        ih s1 n1 (k + 1) hlen1 hN (by omega) hpf (by omega)
      refine ⟨s2, n2, h2, by omega, ?_⟩
      have : n2 - n = (n1 - n) + (n2 - n1) := by omega
      rw [this]
      exact hsw1.trans hsw2

/-- Result of `sort_alternate` on any row of even length at least two: it returns, and the
returned row is a rearrangement of the input. -/
theorem sort_alternate_spec (fuel N : Nat) (s : disk_state) (hlen : s.total_count = 2 * N)
    (hN : 1 ≤ N) (hfuel : 2 * N < fuel) :
    ∃ s1 n1, sort_alternate fuel s = .ok (sorted_disks.ctor s1 n1) ∧
      SwapsTo s._colors n1 s1._colors := by
  obtain ⟨s1, n1, h, _, hsw⟩ :=
    sort_alternate.loop_rearranges fuel N fuel s 0 0 hlen hN (Nat.zero_le _) hfuel (by omega)
  exact ⟨s1, n1, by simp only [sort_alternate, h], by simpa using hsw⟩

/-! ## The constructor and the alternating row -/

theorem alternating_length (n : Nat) : (alternating n).length = 2 * n := by
  induction n with
  | zero => rfl
  | succ n ih => simp [alternating, ih]; omega

theorem dark_light_length (n : Nat) : (dark_light n).length = 2 * n := by
  induction n with
  | zero => rfl
  | succ n ih => simp [dark_light, ih]; omega

theorem alternating_snoc (n : Nat) :
    alternating n ++ [DISK_LIGHT, DISK_DARK] = alternating (n + 1) := by
  induction n with
  | zero => rfl
  | succ n ih =>
    simp only [alternating, List.cons_append] at ih ⊢
    rw [ih]

theorem alternating_succ_eq (n : Nat) :
    alternating (n + 1) = DISK_LIGHT :: (dark_light n ++ [DISK_DARK]) := by
  induction n with
  | zero => rfl
  | succ n ih =>
    have : alternating (n + 1 + 1) = DISK_LIGHT :: DISK_DARK :: alternating (n + 1) := rfl
    rw [this, ih]
    simp [dark_light]

theorem alternating_count_light (n : Nat) : (alternating n).count DISK_LIGHT = n := by
  induction n with
  | zero => rfl
  | succ n ih => simp [alternating, ih]

theorem alternating_count_dark (n : Nat) : (alternating n).count DISK_DARK = n := by
  induction n with
  | zero => rfl
  | succ n ih => simp [alternating, ih]

theorem inversions_alternating (n : Nat) : 2 * inversions (alternating n) = n * (n - 1) := by
  induction n with
  | zero => rfl
  | succ n ih =>
    simp only [alternating, inversions, alternating_count_light]
    simp only [if_true, Nat.add_sub_cancel]
    cases n with
    | zero => simp [alternating, inversions]
    | succ m =>
      simp only [Nat.add_sub_cancel] at ih
      have : (if DISK_LIGHT = DISK_DARK then (DISK_DARK :: alternating (m + 1)).count DISK_LIGHT
          else 0) = 0 := by simp
      rw [this]
      nlinarith

theorem set_after_prefix (pre : List disk_color) (x y b : disk_color) (suf : List disk_color) :
    (pre ++ x :: y :: suf).set (pre.length + 1) b = pre ++ x :: b :: suf := by
  induction pre with
  | nil => rfl
  | cons c pre ih => simp [ih]

theorem disk_state.ctor_loop_spec (m : Nat) :
    ∀ (fuel j : Nat), m < fuel →
      disk_state.ctor_loop fuel (alternating j ++ List.replicate (2 * m) DISK_LIGHT) (2 * j + 1)
        = .ok (alternating (j + m)) := by
  induction m with
  | zero =>
    intro fuel j h
    obtain ⟨f, rfl⟩ : ∃ f, fuel = f + 1 := ⟨fuel - 1, by omega⟩
    simp [disk_state.ctor_loop, alternating_length]
  | succ m ih =>
    intro fuel j h
    obtain ⟨f, rfl⟩ : ∃ f, fuel = f + 1 := ⟨fuel - 1, by omega⟩
    have hrep : List.replicate (2 * (m + 1)) DISK_LIGHT
        = DISK_LIGHT :: DISK_LIGHT :: List.replicate (2 * m) DISK_LIGHT := by
      have : 2 * (m + 1) = 2 * m + 1 + 1 := by omega
      rw [this, List.replicate_succ, List.replicate_succ]
    have hcond : 2 * j + 1 < (alternating j ++ List.replicate (2 * (m + 1)) DISK_LIGHT).length := by
      simp [alternating_length]; omega
    rw [disk_state.ctor_loop, if_pos hcond, hrep]
    have hset := set_after_prefix (alternating j) DISK_LIGHT DISK_LIGHT DISK_DARK
      (List.replicate (2 * m) DISK_LIGHT)
    rw [alternating_length] at hset
    rw [hset]
    have hnext := ih f (j + 1) (by omega)
    rw [← alternating_snoc j] at hnext
    have e1 : 2 * (j + 1) + 1 = 2 * j + 1 + 2 := by omega
    have e2 : j + 1 + m = j + (m + 1) := by omega
    rw [e1, e2] at hnext
    simpa using hnext

theorem umul_two_even (N : Nat) : umul N 2 = 2 * (umul N 2 / 2) := by
  simp only [umul, SIZE_MODULUS]
  omega

theorem umul_two_of_lt (N : Nat) (h : N < 2 ^ 63) : umul N 2 = 2 * N := by
  simp only [umul, SIZE_MODULUS]
  omega

/-- For a positive count the constructor returns an alternating row: the one of
`(light_count * 2 mod 2 ^ 64) / 2` light and as many dark disks. -/
theorem disk_state.ctor_wrapped (N : Nat) (hN : 1 ≤ N) :
    disk_state.ctor N = .ok ⟨alternating (umul N 2 / 2)⟩ := by
  have h := disk_state.ctor_loop_spec (umul N 2 / 2) (umul N 2 + 1) 0 (by omega)
  simp only [alternating, List.nil_append, Nat.mul_zero, Nat.zero_add] at h
  rw [← umul_two_even N] at h
  simp only [disk_state.ctor, List.length_replicate, h]
  simp; omega

/-- For a positive count whose double fits a `size_t` the constructor returns the
alternating row of that many light and dark disks. -/
theorem disk_state.ctor_eq (N : Nat) (hN : 1 ≤ N) (hfit : N < 2 ^ 63) :
    disk_state.ctor N = .ok ⟨alternating N⟩ := by
  rw [disk_state.ctor_wrapped N hN, umul_two_of_lt N hfit]
  have : 2 * N / 2 = N := by omega
  rw [this]

/-! ## `sort_alternate` on the alternating row -/

theorem sort_alternate.pass_dark_light (m : Nat) :
    ∀ (fuel : Nat) (pre suf : List disk_color) (n k c : Nat),
      pre.length = c + k → suf.length = k → m < fuel →
      sort_alternate.pass fuel ⟨pre ++ (dark_light m ++ suf)⟩ n k c
        = .ok (⟨pre ++ (alternating m ++ suf)⟩, n + m) := by
  induction m with
  | zero =>
    intro fuel pre suf n k c hpre hsuf h
    obtain ⟨f, rfl⟩ : ∃ f, fuel = f + 1 := ⟨fuel - 1, by omega⟩
    have htot : disk_state.total_count ⟨pre ++ (dark_light 0 ++ suf)⟩ = c + k + k := by
      simp only [disk_state.total_count, List.length_append, dark_light_length, hpre, hsuf]
      omega
    have hsub : usub (disk_state.total_count ⟨pre ++ (dark_light 0 ++ suf)⟩) k = c + k := by
      rw [htot, usub_of_le (by omega)]
      omega
    rw [sort_alternate.pass, hsub, if_neg (by omega)]
    rfl
  | succ m ih =>
    intro fuel pre suf n k c hpre hsuf h
    obtain ⟨f, rfl⟩ : ∃ f, fuel = f + 1 := ⟨fuel - 1, by omega⟩
    have htot : disk_state.total_count ⟨pre ++ (dark_light (m + 1) ++ suf)⟩
        = c + k + 2 * (m + 1) + k := by
      simp only [disk_state.total_count, List.length_append, dark_light_length, hpre, hsuf]
      omega
    have hsub : usub (disk_state.total_count ⟨pre ++ (dark_light (m + 1) ++ suf)⟩) k
        = c + k + 2 * (m + 1) := by
      rw [htot, usub_of_le (by omega)]
      omega
    rw [sort_alternate.pass, hsub, if_pos (by omega), ← hpre]
    have hshape : pre ++ (dark_light (m + 1) ++ suf)
        = pre ++ DISK_DARK :: DISK_LIGHT :: (dark_light m ++ suf) := rfl
    rw [hshape, disk_state.get_at_prefix, disk_state.get_after_prefix,
      disk_state.swap_at_prefix]
    simp only [disk_color.value, and_self, if_true]
    have hnext := ih f (pre ++ [DISK_LIGHT, DISK_DARK]) suf (n + 1) k (c + 2)
      (by simp [hpre]; omega) hsuf (by omega)
    simp only [List.append_assoc, List.cons_append, List.nil_append] at hnext
    rw [hnext]
    have e : n + 1 + m = n + (m + 1) := by omega
    rw [e]
    rfl

theorem sort_alternate.pass_alternating (m : Nat) :
    ∀ (fuel : Nat) (pre suf : List disk_color) (n k c : Nat),
      pre.length = c + k → suf.length = k → m < fuel →
      sort_alternate.pass fuel ⟨pre ++ (alternating m ++ suf)⟩ n k c
        = .ok (⟨pre ++ (alternating m ++ suf)⟩, n) := by
  induction m with
  | zero =>
    intro fuel pre suf n k c hpre hsuf h
    obtain ⟨f, rfl⟩ : ∃ f, fuel = f + 1 := ⟨fuel - 1, by omega⟩
    have htot : disk_state.total_count ⟨pre ++ (alternating 0 ++ suf)⟩ = c + k + k := by
      simp only [disk_state.total_count, List.length_append, alternating_length, hpre, hsuf]
      omega
    have hsub : usub (disk_state.total_count ⟨pre ++ (alternating 0 ++ suf)⟩) k = c + k := by
      rw [htot, usub_of_le (by omega)]
      omega
    rw [sort_alternate.pass, hsub, if_neg (by omega)]
  | succ m ih =>
    intro fuel pre suf n k c hpre hsuf h
    obtain ⟨f, rfl⟩ : ∃ f, fuel = f + 1 := ⟨fuel - 1, by omega⟩
    have htot : disk_state.total_count ⟨pre ++ (alternating (m + 1) ++ suf)⟩
        = c + k + 2 * (m + 1) + k := by
      simp only [disk_state.total_count, List.length_append, alternating_length, hpre, hsuf]
      omega
    have hsub : usub (disk_state.total_count ⟨pre ++ (alternating (m + 1) ++ suf)⟩) k
        = c + k + 2 * (m + 1) := by
      rw [htot, usub_of_le (by omega)]
      omega
    rw [sort_alternate.pass, hsub, if_pos (by omega), ← hpre]
    have hshape : pre ++ (alternating (m + 1) ++ suf)
        = pre ++ DISK_LIGHT :: DISK_DARK :: (alternating m ++ suf) := rfl
    rw [hshape, disk_state.get_at_prefix, disk_state.get_after_prefix]
    simp only [disk_color.value]
    have hnext := ih f (pre ++ [DISK_LIGHT, DISK_DARK]) suf n k (c + 2)
      (by simp [hpre]; omega) hsuf (by omega)
    simp only [List.append_assoc, List.cons_append, List.nil_append] at hnext
    simp only [zero_ne_one, false_and, if_false]
    rw [hnext]

theorem alternating_window (j m : Nat) :
    List.replicate j DISK_LIGHT ++ (alternating (m + 1) ++ List.replicate j DISK_DARK)
      = List.replicate (j + 1) DISK_LIGHT
          ++ (dark_light m ++ List.replicate (j + 1) DISK_DARK) := by
  rw [alternating_succ_eq, List.replicate_succ', List.replicate_succ]
  simp

theorem sort_alternate.loop_canonical (passFuel N : Nat) (hpf : N < passFuel) (fuel : Nat) :
    ∀ (j n : Nat), 1 ≤ j → j ≤ N → N - j < fuel →
      ∃ n1, sort_alternate.loop passFuel fuel
          ⟨List.replicate j DISK_LIGHT ++ (dark_light (N - j) ++ List.replicate j DISK_DARK)⟩ n j
        = .ok (⟨lights_then_darks N N⟩, n1) := by
  induction fuel with
  | zero => intro j n _ _ h; omega
  | succ fuel ih =>
    intro j n hj1 hj2 hfuel
    have hpass := sort_alternate.pass_dark_light (N - j) passFuel
      (List.replicate j DISK_LIGHT) (List.replicate j DISK_DARK) n j 0
      (by simp) (by simp) (by omega)
    simp only [sort_alternate.loop, hpass]
    by_cases hc : n = n + (N - j) ∧ j ≠ 0
    · rw [if_pos hc]
      have hm : N - j = 0 := by omega
      have hjN : j = N := by omega
      refine ⟨n + (N - j), ?_⟩
      rw [hm, hjN]
      simp [alternating, lights_then_darks]
    · rw [if_neg hc]
      obtain ⟨m, hm⟩ : ∃ m, N - j = m + 1 := ⟨N - j - 1, by omega⟩
      have hm2 : N - (j + 1) = m := by omega
      rw [hm, alternating_window j m, ← hm2]
      exact ih (j + 1) _ (by omega) (by omega) (by omega)

/-- On the alternating row `sort_alternate` returns the row of `N` light disks followed by
`N` dark disks. -/
theorem sort_alternate_canonical (fuel N : Nat) (hN : 1 ≤ N) (hfuel : N < fuel) :
    ∃ n1, sort_alternate.loop fuel fuel ⟨alternating N⟩ 0 0
      = .ok (⟨lights_then_darks N N⟩, n1) := by
  obtain ⟨f, rfl⟩ : ∃ f, fuel = f + 1 := ⟨fuel - 1, by omega⟩
  have hpass := sort_alternate.pass_alternating N (f + 1) [] [] 0 0 0 rfl rfl hfuel
  simp only [List.nil_append, List.append_nil] at hpass
  simp only [sort_alternate.loop, hpass]
  simp only [ne_eq, not_true_eq_false, and_false, if_false]
  obtain ⟨m, rfl⟩ : ∃ m, N = m + 1 := ⟨N - 1, by omega⟩
  have hloop := sort_alternate.loop_canonical (f + 1) (m + 1) hfuel f 1 0 (le_refl 1)
    (by omega) (by omega)
  have hw := alternating_window 0 m
  simp only [List.replicate_zero, List.nil_append, List.append_nil, Nat.zero_add] at hw
  have e : m + 1 - 1 = m := by omega
  rw [e, ← hw] at hloop
  exact hloop

/-! ## Results of the two algorithms -/

theorem hasCounts_alternating (N : Nat) : HasCounts N ⟨alternating N⟩ :=
  ⟨alternating_count_light N, alternating_count_dark N⟩

theorem hasCounts_lights_then_darks (N : Nat) : HasCounts N ⟨lights_then_darks N N⟩ := by
  constructor <;> simp [lights_then_darks, List.count_append, List.count_replicate]

theorem inversions_alternating_eq (N : Nat) : inversions (alternating N) = N * (N - 1) / 2 := by
  have := inversions_alternating N
  omega

/-- The lawnmower algorithm on a row of `N` light and `N` dark disks returns the segregated
row, and its counter is the number of dark-before-light pairs of the input. -/
theorem sort_lawnmower_result (fuel N : Nat) (s : disk_state) (hN : 1 ≤ N)
    (hs : HasCounts N s) (hfuel : N * N + 2 * N < fuel) :
    sort_lawnmower fuel s
      = .ok (sorted_disks.ctor ⟨lights_then_darks N N⟩ (inversions s._colors)) := by
  have hlen := hs.total_count
  have hinv := hs.inversions_le
  obtain ⟨s1, n1, h, hsw, hnd⟩ :=
    sort_lawnmower_spec fuel s (by omega) (by omega) (by omega)
  have hs1 : s1._colors = lights_then_darks N N :=
    (hs.of_swapsTo hsw).is_sorted_of_noDarkLight hnd
  have hn1 : n1 = inversions s._colors := by
    have h0 := hsw.2.1
    rw [hs1] at h0
    have hz : inversions (lights_then_darks N N) = 0 := inversions_sorted N N
    omega
  have hs1' : s1 = ⟨lights_then_darks N N⟩ := by
    cases s1
    simp only at hs1
    rw [hs1]
  rw [h, hs1', hn1]

/-- The alternate algorithm on the alternating row returns the segregated row, and its
counter is the number of dark-before-light pairs of the alternating row. -/
theorem sort_alternate_result (fuel N : Nat) (hN : 1 ≤ N) (hfuel : 2 * N < fuel) :
    sort_alternate fuel ⟨alternating N⟩
      = .ok (sorted_disks.ctor ⟨lights_then_darks N N⟩ (inversions (alternating N))) := by
  obtain ⟨n1, h1⟩ := sort_alternate_canonical fuel N hN (by omega)
  obtain ⟨s2, n2, h2, _, hsw⟩ := sort_alternate.loop_rearranges fuel N fuel ⟨alternating N⟩ 0 0
    (by simp [disk_state.total_count, alternating_length]) hN (Nat.zero_le _) hfuel (by omega)
  rw [h1] at h2
  injection h2 with h2
  injection h2 with hs hn
  subst hs hn
  have h0 := hsw.2.1
  have hz : inversions (lights_then_darks N N) = 0 := inversions_sorted N N
  simp only [Nat.sub_zero] at h0
  have hn1 : n1 = inversions (alternating N) := by omega
  simp only [sort_alternate, h1, hn1]

theorem get_lights_then_darks_left (N i : Nat) (h : i < N) :
    disk_state.get ⟨lights_then_darks N N⟩ i = .ok DISK_LIGHT := by
  rw [disk_state.get_eq_ok_iff]
  exact lights_then_darks_get_left N N i h

theorem get_lights_then_darks_right (N i : Nat) (h1 : N ≤ i) (h2 : i < 2 * N) :
    disk_state.get ⟨lights_then_darks N N⟩ i = .ok DISK_DARK := by
  rw [disk_state.get_eq_ok_iff]
  exact lights_then_darks_get_right N N i h1 (by omega)

/-! ## The claims -/

/-- Counterexample to C1 as stated: for `N = 2 ^ 63` the `size_t` product
`light_count * 2` wraps to `0`, the constructor returns the empty row, and
`sort_alternate` on it fails the assertion of `get`. -/
theorem C1_counterexample :
    1 ≤ 9223372036854775808 ∧ 9223372036854775808 = 2 ^ 63 ∧
    disk_state.ctor 9223372036854775808 = .ok ⟨[]⟩ ∧
    sort_alternate 5 ⟨[]⟩ = .error .assert_failed := by
  decide

/-- Claim C1, amended.  For every `N` with `1 ≤ N < 2 ^ 63` (so that `light_count * 2` does
not wrap) the constructor returns the alternating row, and `sort_alternate` on it (with a
step budget above `2 * N`) returns a result whose row satisfies `is_sorted()`: the indices
`0 .. N-1` hold light disks and the indices `N .. 2N-1` hold dark disks. -/
theorem C1_sort_alternate_sorts_canonical_amended (N fuel : Nat) (hN : 1 ≤ N)
    (hfit : N < 2 ^ 63) (hfuel : 2 * N < fuel) :
    ∃ before r, disk_state.ctor N = .ok before ∧ sort_alternate fuel before = .ok r ∧
      before.total_count = 2 * N ∧
      r.after.is_sorted = .ok true ∧
      (∀ i, i < N → r.after.get i = .ok DISK_LIGHT) ∧
      (∀ i, N ≤ i → i < 2 * N → r.after.get i = .ok DISK_DARK) :=
  ⟨⟨alternating N⟩, _, disk_state.ctor_eq N hN hfit, sort_alternate_result fuel N hN hfuel,
    alternating_length N, is_sorted_lights_then_darks N, get_lights_then_darks_left N,
    get_lights_then_darks_right N⟩

/-- Witness for the amended C1 at `N = 2` with a budget of five steps. -/
theorem C1_sort_alternate_sorts_canonical_amended_witness :
    ∃ before r, disk_state.ctor 2 = .ok before ∧ sort_alternate 5 before = .ok r ∧
      before.total_count = 2 * 2 ∧
      r.after.is_sorted = .ok true ∧
      (∀ i, i < 2 → r.after.get i = .ok DISK_LIGHT) ∧
      (∀ i, 2 ≤ i → i < 2 * 2 → r.after.get i = .ok DISK_DARK) :=
  C1_sort_alternate_sorts_canonical_amended 2 5 (by decide) (by decide) (by decide)

/-- Claim C2.  For every `N ≥ 1` and every row holding exactly `N` light and `N` dark
disks, in any order, `sort_lawnmower` (with a step budget above `N * N + 2 * N`) returns a
result whose row satisfies `is_sorted()`. -/
theorem C2_sort_lawnmower_sorts (N fuel : Nat) (before : disk_state) (hN : 1 ≤ N)
    (hrow : HasCounts N before) (hfuel : N * N + 2 * N < fuel) :
    ∃ r, sort_lawnmower fuel before = .ok r ∧ r.after.is_sorted = .ok true :=
  ⟨_, sort_lawnmower_result fuel N before hN hrow hfuel, is_sorted_lights_then_darks N⟩

/-- Witness for C2 at the row Dark Dark Light Light. -/
theorem C2_sort_lawnmower_sorts_witness :
    ∃ r, sort_lawnmower 9 ⟨[DISK_DARK, DISK_DARK, DISK_LIGHT, DISK_LIGHT]⟩ = .ok r ∧
      r.after.is_sorted = .ok true :=
  C2_sort_lawnmower_sorts 2 9 ⟨[DISK_DARK, DISK_DARK, DISK_LIGHT, DISK_LIGHT]⟩ (by decide)
    ⟨by decide, by decide⟩ (by decide)

/-- A run on the segregated row changes nothing: a rearrangement with `k` fewer
dark-before-light pairs of a row that has none is the row itself, and `k = 0`. -/
theorem SwapsTo.of_sorted {N k : Nat} {l : List disk_color}
    (h : SwapsTo (lights_then_darks N N) k l) : k = 0 ∧ l = lights_then_darks N N := by
  have h0 := h.2.1
  have hz : inversions (lights_then_darks N N) = 0 := inversions_sorted N N
  have hk : k = 0 := by omega
  exact ⟨hk, h.2.2 hk⟩

/-- Counterexample to C3 as stated: the row Dark Dark Light Light holds two light and two
dark disks, and `sort_alternate` returns Dark Light Dark Light after one swap, a row on
which `is_sorted()` is false. -/
theorem C3_counterexample :
    HasCounts 2 ⟨[DISK_DARK, DISK_DARK, DISK_LIGHT, DISK_LIGHT]⟩ ∧
    sort_alternate 5 ⟨[DISK_DARK, DISK_DARK, DISK_LIGHT, DISK_LIGHT]⟩
      = .ok (sorted_disks.ctor ⟨[DISK_DARK, DISK_LIGHT, DISK_DARK, DISK_LIGHT]⟩ 1) ∧
    disk_state.is_sorted ⟨[DISK_DARK, DISK_LIGHT, DISK_DARK, DISK_LIGHT]⟩ = .ok false :=
  ⟨⟨by decide, by decide⟩, by decide, by decide⟩

/-- Claim C3, amended.  For every `N ≥ 1` and every row holding exactly `N` light and `N`
dark disks, `sort_alternate` (with a step budget above `2 * N`) returns a result whose row
again holds `N` light and `N` dark disks; the returned row satisfies `is_sorted()` when
the input is the alternating row or the segregated row. -/
theorem C3_sort_alternate_amended (N fuel : Nat) (before : disk_state) (hN : 1 ≤ N)
    (hrow : HasCounts N before) (hfuel : 2 * N < fuel) :
    ∃ r, sort_alternate fuel before = .ok r ∧ HasCounts N r.after ∧
      (before._colors = alternating N ∨ before._colors = lights_then_darks N N →
        r.after.is_sorted = .ok true) := by
  obtain ⟨s1, n1, h, hsw⟩ := sort_alternate_spec fuel N before hrow.total_count hN hfuel
  refine ⟨_, h, hrow.of_swapsTo hsw, ?_⟩
  rintro (hb | hb)
  · have hb2 : before = ⟨alternating N⟩ := by
      cases before
      simp only at hb
      rw [hb]
    rw [hb2, sort_alternate_result fuel N hN hfuel] at h
    injection h with h
    rw [← h]
    exact is_sorted_lights_then_darks N
  · rw [hb] at hsw
    have hs1 : s1 = ⟨lights_then_darks N N⟩ := by
      cases s1
      simp only at hsw
      rw [hsw.of_sorted.2]
    show s1.is_sorted = .ok true
    rw [hs1]
    exact is_sorted_lights_then_darks N

/-- Witness for the amended C3 at the alternating row of two light and two dark disks. -/
theorem C3_sort_alternate_amended_witness :
    ∃ r, sort_alternate 5 ⟨[DISK_LIGHT, DISK_DARK, DISK_LIGHT, DISK_DARK]⟩ = .ok r ∧
      HasCounts 2 r.after ∧
      (([DISK_LIGHT, DISK_DARK, DISK_LIGHT, DISK_DARK] = alternating 2 ∨
        [DISK_LIGHT, DISK_DARK, DISK_LIGHT, DISK_DARK] = lights_then_darks 2 2) →
        r.after.is_sorted = .ok true) :=
  C3_sort_alternate_amended 2 5 ⟨[DISK_LIGHT, DISK_DARK, DISK_LIGHT, DISK_DARK]⟩ (by decide)
    ⟨by decide, by decide⟩ (by decide)

/-- Counterexample to C4 as stated: for `N = 2` both algorithms turn L D L D into L L D D
and report one swap, not four; for `N = 3` both report three swaps, not nine.  And for
`N = 2 ^ 63` the `size_t` product `light_count * 2` wraps to `0`, the constructor returns
the empty row and neither algorithm returns a result. -/
theorem C4_counterexample :
    (9223372036854775808 = 2 ^ 63 ∧ disk_state.ctor 9223372036854775808 = .ok ⟨[]⟩ ∧
      sort_alternate 5 ⟨[]⟩ = .error .assert_failed ∧
      sort_lawnmower 5 ⟨[]⟩ = .error .assert_failed) ∧
    (disk_state.ctor 2 = .ok ⟨[DISK_LIGHT, DISK_DARK, DISK_LIGHT, DISK_DARK]⟩ ∧
      sort_alternate 16 ⟨[DISK_LIGHT, DISK_DARK, DISK_LIGHT, DISK_DARK]⟩
        = .ok ⟨⟨[DISK_LIGHT, DISK_LIGHT, DISK_DARK, DISK_DARK]⟩, 1⟩ ∧
      sort_lawnmower 16 ⟨[DISK_LIGHT, DISK_DARK, DISK_LIGHT, DISK_DARK]⟩
        = .ok ⟨⟨[DISK_LIGHT, DISK_LIGHT, DISK_DARK, DISK_DARK]⟩, 1⟩ ∧
      1 ≠ 2 * 2) ∧
    (disk_state.ctor 3
        = .ok ⟨[DISK_LIGHT, DISK_DARK, DISK_LIGHT, DISK_DARK, DISK_LIGHT, DISK_DARK]⟩ ∧
      sort_alternate 16 ⟨[DISK_LIGHT, DISK_DARK, DISK_LIGHT, DISK_DARK, DISK_LIGHT, DISK_DARK]⟩
        = .ok ⟨⟨[DISK_LIGHT, DISK_LIGHT, DISK_LIGHT, DISK_DARK, DISK_DARK, DISK_DARK]⟩, 3⟩ ∧
      sort_lawnmower 16 ⟨[DISK_LIGHT, DISK_DARK, DISK_LIGHT, DISK_DARK, DISK_LIGHT, DISK_DARK]⟩
        = .ok ⟨⟨[DISK_LIGHT, DISK_LIGHT, DISK_LIGHT, DISK_DARK, DISK_DARK, DISK_DARK]⟩, 3⟩ ∧
      3 ≠ 3 * 3) := by
  decide

/-- Claim C4, amended.  For every `N` with `2 ≤ N < 2 ^ 63` (so that `light_count * 2`
does not wrap), on the alternating row of `2 * N` disks returned by the constructor both
`sort_alternate` and `sort_lawnmower` (with a step budget above `N * N + 2 * N`) report as
`swap_count()` the number `N * (N - 1) / 2` reduced to the range of the `unsigned`
counter, which is `N * (N - 1) / 2` itself whenever that number is below `2 ^ 32`. -/
theorem C4_swap_count_canonical_amended (N fuel : Nat) (hN : 2 ≤ N) (hfit : N < 2 ^ 63)
    (hfuel : N * N + 2 * N < fuel) :
    ∃ before ra rl, disk_state.ctor N = .ok before ∧ before.total_count = 2 * N ∧
      sort_alternate fuel before = .ok ra ∧ sort_lawnmower fuel before = .ok rl ∧
      ra.swap_count = N * (N - 1) / 2 % UNSIGNED_MODULUS ∧
      rl.swap_count = N * (N - 1) / 2 % UNSIGNED_MODULUS ∧
      (N * (N - 1) / 2 < UNSIGNED_MODULUS →
        ra.swap_count = N * (N - 1) / 2 ∧ rl.swap_count = N * (N - 1) / 2) := by
  refine ⟨⟨alternating N⟩, _, _, disk_state.ctor_eq N (by omega) hfit, alternating_length N,
    sort_alternate_result fuel N (by omega) (by nlinarith),
    sort_lawnmower_result fuel N ⟨alternating N⟩ (by omega) (hasCounts_alternating N) hfuel,
    ?_, ?_, ?_⟩
  · simp only [sorted_disks.swap_count, sorted_disks.ctor, inversions_alternating_eq]
  · simp only [sorted_disks.swap_count, sorted_disks.ctor, inversions_alternating_eq]
  · intro h
    simp only [sorted_disks.swap_count, sorted_disks.ctor, inversions_alternating_eq,
      Nat.mod_eq_of_lt h, and_self]

/-- Witness for the amended C4 at `N = 3`, where the count is `3`. -/
theorem C4_swap_count_canonical_amended_witness :
    ∃ before ra rl, disk_state.ctor 3 = .ok before ∧ before.total_count = 2 * 3 ∧
      sort_alternate 16 before = .ok ra ∧ sort_lawnmower 16 before = .ok rl ∧
      ra.swap_count = 3 * (3 - 1) / 2 % UNSIGNED_MODULUS ∧
      rl.swap_count = 3 * (3 - 1) / 2 % UNSIGNED_MODULUS ∧
      (3 * (3 - 1) / 2 < UNSIGNED_MODULUS →
        ra.swap_count = 3 * (3 - 1) / 2 ∧ rl.swap_count = 3 * (3 - 1) / 2) :=
  C4_swap_count_canonical_amended 3 16 (by decide) (by decide) (by decide)

theorem disk_state.std_equal_self (l : List disk_color) :
    disk_state.std_equal l l = .ok true := by
  induction l with
  | nil => rfl
  | cons c cs ih => simp [disk_state.std_equal, ih]

/-- Counterexample to C5 as stated: for `N = 2 ^ 63` the `size_t` product
`light_count * 2` wraps to `0`, the constructor returns the empty row, and neither
algorithm returns a result on it: both fail the assertion of `get`. -/
theorem C5_counterexample :
    1 ≤ 9223372036854775808 ∧ 9223372036854775808 = 2 ^ 63 ∧
    disk_state.ctor 9223372036854775808 = .ok ⟨[]⟩ ∧
    sort_alternate 5 ⟨[]⟩ = .error .assert_failed ∧
    sort_lawnmower 5 ⟨[]⟩ = .error .assert_failed := by
  decide

/-- Claim C5, amended.  For every `N` with `1 ≤ N < 2 ^ 63` (so that `light_count * 2` does
not wrap), `sort_alternate` and `sort_lawnmower` run on the alternating row returned by
the constructor (with a step budget above `N * N + 2 * N`) return equal final rows (the
same length and the same colour at every index, and `operator==` answers true) and
report the same `swap_count()`. -/
theorem C5_same_result_on_canonical_amended (N fuel : Nat) (hN : 1 ≤ N) (hfit : N < 2 ^ 63)
    (hfuel : N * N + 2 * N < fuel) :
    ∃ before ra rl, disk_state.ctor N = .ok before ∧ before.total_count = 2 * N ∧
      sort_alternate fuel before = .ok ra ∧ sort_lawnmower fuel before = .ok rl ∧
      ra.after = rl.after ∧
      ra.after.total_count = rl.after.total_count ∧
      (∀ i, ra.after.get i = rl.after.get i) ∧
      disk_state.operator_eq ra.after rl.after = .ok true ∧
      ra.swap_count = rl.swap_count :=
  ⟨⟨alternating N⟩, _, _, disk_state.ctor_eq N hN hfit, alternating_length N,
    sort_alternate_result fuel N hN (by nlinarith),
    sort_lawnmower_result fuel N ⟨alternating N⟩ hN (hasCounts_alternating N) hfuel,
    rfl, rfl, fun _ => rfl, disk_state.std_equal_self _, rfl⟩

/-- Witness for the amended C5 at `N = 2`. -/
theorem C5_same_result_on_canonical_amended_witness :
    ∃ before ra rl, disk_state.ctor 2 = .ok before ∧ before.total_count = 2 * 2 ∧
      sort_alternate 9 before = .ok ra ∧ sort_lawnmower 9 before = .ok rl ∧
      ra.after = rl.after ∧
      ra.after.total_count = rl.after.total_count ∧
      (∀ i, ra.after.get i = rl.after.get i) ∧
      disk_state.operator_eq ra.after rl.after = .ok true ∧
      ra.swap_count = rl.swap_count :=
  C5_same_result_on_canonical_amended 2 9 (by decide) (by decide) (by decide)

/-- Claim C6.  For every input row of even length at least two, in any arrangement, the
rows returned by `sort_alternate` and by `sort_lawnmower` (with a step budget above the
square of the length) are permutations of the input: the same `total_count()`, the same
number of light disks and the same number of dark disks. -/
theorem C6_sorts_permute_input (before : disk_state) (fuel : Nat)
    (heven : before.total_count % 2 = 0) (hlen : 2 ≤ before.total_count)
    (hfuel : before.total_count * before.total_count < fuel) :
    ∃ ra rl, sort_alternate fuel before = .ok ra ∧ sort_lawnmower fuel before = .ok rl ∧
      ra.after._colors.Perm before._colors ∧ rl.after._colors.Perm before._colors ∧
      ra.after.total_count = before.total_count ∧
      rl.after.total_count = before.total_count ∧
      ra.after._colors.count DISK_LIGHT = before._colors.count DISK_LIGHT ∧
      rl.after._colors.count DISK_LIGHT = before._colors.count DISK_LIGHT ∧
      ra.after._colors.count DISK_DARK = before._colors.count DISK_DARK ∧
      rl.after._colors.count DISK_DARK = before._colors.count DISK_DARK := by
  have hbig : before.total_count < fuel := by nlinarith
  have hinv : inversions before._colors < fuel := by
    have h1 := inversions_le_product before._colors
    have h2 := length_eq_counts before._colors
    have h3 : before._colors.length = before.total_count := rfl
    have h4 : before._colors.count DISK_DARK * before._colors.count DISK_LIGHT
        ≤ before.total_count * before.total_count :=
      Nat.mul_le_mul (by omega) (by omega)
    omega
  obtain ⟨sa, na, ha, hswa⟩ := sort_alternate_spec fuel (before.total_count / 2) before
    (by omega) (by omega) (by omega)
  obtain ⟨sl, nl, hl, hswl, _⟩ := sort_lawnmower_spec fuel before (by omega) hbig hinv
  exact ⟨_, _, ha, hl, hswa.1, hswl.1, hswa.length_eq, hswl.length_eq,
    hswa.1.count_eq _, hswl.1.count_eq _, hswa.1.count_eq _, hswl.1.count_eq _⟩

/-- Witness for C6 at the row Dark Dark Light Light. -/
theorem C6_sorts_permute_input_witness :
    ∃ ra rl,
      sort_alternate 17 ⟨[DISK_DARK, DISK_DARK, DISK_LIGHT, DISK_LIGHT]⟩ = .ok ra ∧
      sort_lawnmower 17 ⟨[DISK_DARK, DISK_DARK, DISK_LIGHT, DISK_LIGHT]⟩ = .ok rl ∧
      ra.after._colors.Perm [DISK_DARK, DISK_DARK, DISK_LIGHT, DISK_LIGHT] ∧
      rl.after._colors.Perm [DISK_DARK, DISK_DARK, DISK_LIGHT, DISK_LIGHT] ∧
      ra.after.total_count
        = disk_state.total_count ⟨[DISK_DARK, DISK_DARK, DISK_LIGHT, DISK_LIGHT]⟩ ∧
      rl.after.total_count
        = disk_state.total_count ⟨[DISK_DARK, DISK_DARK, DISK_LIGHT, DISK_LIGHT]⟩ ∧
      ra.after._colors.count DISK_LIGHT
        = [DISK_DARK, DISK_DARK, DISK_LIGHT, DISK_LIGHT].count DISK_LIGHT ∧
      rl.after._colors.count DISK_LIGHT
        = [DISK_DARK, DISK_DARK, DISK_LIGHT, DISK_LIGHT].count DISK_LIGHT ∧
      ra.after._colors.count DISK_DARK
        = [DISK_DARK, DISK_DARK, DISK_LIGHT, DISK_LIGHT].count DISK_DARK ∧
      rl.after._colors.count DISK_DARK
        = [DISK_DARK, DISK_DARK, DISK_LIGHT, DISK_LIGHT].count DISK_DARK :=
  C6_sorts_permute_input ⟨[DISK_DARK, DISK_DARK, DISK_LIGHT, DISK_LIGHT]⟩ 17
    (by decide) (by decide) (by decide)

/-- Claim C7.  For every `N ≥ 1`, on the segregated row of `N` light disks followed by `N`
dark disks (on which `is_sorted()` is true) both `sort_alternate` and `sort_lawnmower`
(with a step budget above `2 * N`) return `swap_count() = 0` and a final row identical to
the input at every index. -/
theorem C7_sorted_input_unchanged (N fuel : Nat) (hN : 1 ≤ N) (hfuel : 2 * N < fuel) :
    disk_state.is_sorted ⟨lights_then_darks N N⟩ = .ok true ∧
    ∃ ra rl, sort_alternate fuel ⟨lights_then_darks N N⟩ = .ok ra ∧
      sort_lawnmower fuel ⟨lights_then_darks N N⟩ = .ok rl ∧
      ra.swap_count = 0 ∧ rl.swap_count = 0 ∧
      ra.after = ⟨lights_then_darks N N⟩ ∧ rl.after = ⟨lights_then_darks N N⟩ ∧
      (∀ i, ra.after.get i = disk_state.get ⟨lights_then_darks N N⟩ i) ∧
      (∀ i, rl.after.get i = disk_state.get ⟨lights_then_darks N N⟩ i) := by
  have hcnt := hasCounts_lights_then_darks N
  have hz : inversions (lights_then_darks N N) = 0 := inversions_sorted N N
  obtain ⟨sa, na, ha, hswa⟩ :=
    sort_alternate_spec fuel N ⟨lights_then_darks N N⟩ hcnt.total_count hN hfuel
  obtain ⟨sl, nl, hl, hswl, _⟩ := sort_lawnmower_spec fuel ⟨lights_then_darks N N⟩
    (by rw [hcnt.total_count]; omega) (by rw [hcnt.total_count]; omega)
    (by show inversions (lights_then_darks N N) < fuel; omega)
  obtain ⟨hna, hsa⟩ := hswa.of_sorted
  obtain ⟨hnl, hsl⟩ := hswl.of_sorted
  have hsa2 : sa = ⟨lights_then_darks N N⟩ := by
    cases sa
    simp only at hsa
    rw [hsa]
  have hsl2 : sl = ⟨lights_then_darks N N⟩ := by
    cases sl
    simp only at hsl
    rw [hsl]
  subst hna hnl hsa2 hsl2
  exact ⟨is_sorted_lights_then_darks N, _, _, ha, hl, rfl, rfl, rfl, rfl,
    fun _ => rfl, fun _ => rfl⟩

/-- Witness for C7 at `N = 2`. -/
theorem C7_sorted_input_unchanged_witness :
    disk_state.is_sorted ⟨lights_then_darks 2 2⟩ = .ok true ∧
    ∃ ra rl, sort_alternate 5 ⟨lights_then_darks 2 2⟩ = .ok ra ∧
      sort_lawnmower 5 ⟨lights_then_darks 2 2⟩ = .ok rl ∧
      ra.swap_count = 0 ∧ rl.swap_count = 0 ∧
      ra.after = ⟨lights_then_darks 2 2⟩ ∧ rl.after = ⟨lights_then_darks 2 2⟩ ∧
      (∀ i, ra.after.get i = disk_state.get ⟨lights_then_darks 2 2⟩ i) ∧
      (∀ i, rl.after.get i = disk_state.get ⟨lights_then_darks 2 2⟩ i) :=
  C7_sorted_input_unchanged 2 5 (by decide) (by decide)

theorem disk_state.is_initialized_loop_alternating (m : Nat) :
    ∀ (fuel : Nat) (pre : List disk_color), pre.length % 2 = 0 → 2 * m < fuel →
      disk_state.is_initialized_loop ⟨pre ++ alternating m⟩ fuel pre.length = .ok true := by
  induction m with
  | zero =>
    intro fuel pre _ h
    obtain ⟨f, rfl⟩ : ∃ f, fuel = f + 1 := ⟨fuel - 1, by omega⟩
    simp [disk_state.is_initialized_loop, disk_state.total_count, alternating]
  | succ m ih =>
    intro fuel pre hpre h
    obtain ⟨f, rfl⟩ : ∃ f, fuel = f + 2 := ⟨fuel - 2, by omega⟩
    have hshape : pre ++ alternating (m + 1)
        = pre ++ DISK_LIGHT :: DISK_DARK :: alternating m := rfl
    have htot : disk_state.total_count ⟨pre ++ alternating (m + 1)⟩
        = pre.length + 2 * m + 2 := by
      simp only [disk_state.total_count, List.length_append, alternating_length]
      omega
    have hodd : ¬ ((pre.length + 1) % 2 = 0) := by omega
    have hnext := ih f (pre ++ [DISK_LIGHT, DISK_DARK]) (by simp; omega) (by omega)
    simp only [List.append_assoc, List.cons_append, List.nil_append, List.length_append,
      List.length_cons, List.length_nil] at hnext
    rw [disk_state.is_initialized_loop, htot, if_pos (by omega)]
    simp only [hshape, getElem?_at_prefix, hpre, if_true]
    rw [if_neg (by decide), disk_state.is_initialized_loop, ← hshape, htot, if_pos (by omega)]
    simp only [hshape, getElem?_after_prefix, hodd, if_false]
    rw [if_neg (by decide)]
    exact hnext

theorem is_initialized_alternating (m : Nat) :
    disk_state.is_initialized ⟨alternating m⟩ = .ok true := by
  have hlen : disk_state.total_count ⟨alternating m⟩ = 2 * m := alternating_length m
  have hinit := disk_state.is_initialized_loop_alternating m (2 * m + 1) [] rfl (by omega)
  simp only [disk_state.is_initialized, hlen]
  simpa using hinit

/-- Counterexample to C8 as stated: for `N = 2 ^ 63` the `size_t` product
`light_count * 2` wraps to `0` and the constructor returns the empty row, with
`total_count() = 0` and `light_count() = 0`; for `N = 2 ^ 63 + 1` it returns the row
Light Dark, with `total_count() = 2`. -/
theorem C8_counterexample :
    1 ≤ 9223372036854775808 ∧ 9223372036854775808 = 2 ^ 63 ∧
    disk_state.ctor 9223372036854775808 = .ok ⟨[]⟩ ∧
    disk_state.total_count ⟨[]⟩ = 0 ∧ disk_state.light_count ⟨[]⟩ = 0 ∧
    0 ≠ 2 * 9223372036854775808 ∧
    disk_state.ctor 9223372036854775809 = .ok ⟨[DISK_LIGHT, DISK_DARK]⟩ ∧
    disk_state.total_count ⟨[DISK_LIGHT, DISK_DARK]⟩ = 2 := by
  decide

/-- Claim C8, amended.  For every `N ≥ 1` the constructor `disk_state(N)` returns a row
with `is_initialized()` true, `total_count()` equal to the `size_t` product
`N * 2 mod 2 ^ 64` and `light_count() = dark_count() = total_count() / 2`; for
`N < 2 ^ 63`, where the product does not wrap, this is `total_count() = 2N` and
`light_count() = dark_count() = N`. -/
theorem C8_constructor_alternating_amended (N : Nat) (hN : 1 ≤ N) :
    ∃ s, disk_state.ctor N = .ok s ∧ s.is_initialized = .ok true ∧
      s.total_count = N * 2 % 2 ^ 64 ∧
      s.light_count = s.total_count / 2 ∧ s.dark_count = s.total_count / 2 ∧
      (N < 2 ^ 63 → s.total_count = 2 * N ∧ s.light_count = N ∧ s.dark_count = N) := by
  have hlen : disk_state.total_count ⟨alternating (umul N 2 / 2)⟩ = umul N 2 := by
    rw [umul_two_even N]
    have h := alternating_length (umul N 2 / 2)
    rw [← umul_two_even N] at h ⊢
    exact h
  refine ⟨⟨alternating (umul N 2 / 2)⟩, disk_state.ctor_wrapped N hN,
    is_initialized_alternating _, ?_, rfl, rfl, ?_⟩
  · rw [hlen]
    rfl
  · intro hfit
    have hl : disk_state.total_count ⟨alternating (umul N 2 / 2)⟩ = 2 * N := by
      rw [hlen, umul_two_of_lt N hfit]
    refine ⟨hl, ?_, ?_⟩
    · simp only [disk_state.light_count, hl]
      omega
    · simp only [disk_state.dark_count, disk_state.light_count, hl]
      omega

/-- Witness for the amended C8 at `N = 3`. -/
theorem C8_constructor_alternating_amended_witness :
    ∃ s, disk_state.ctor 3 = .ok s ∧ s.is_initialized = .ok true ∧
      s.total_count = 3 * 2 % 2 ^ 64 ∧
      s.light_count = s.total_count / 2 ∧ s.dark_count = s.total_count / 2 ∧
      (3 < 2 ^ 63 → s.total_count = 2 * 3 ∧ s.light_count = 3 ∧ s.dark_count = 3) :=
  C8_constructor_alternating_amended 3 (by decide)

/-- On two rows of the same length `std::equal` decides whether they are the same row. -/
theorem disk_state.std_equal_of_length_eq :
    ∀ (a b : List disk_color), a.length = b.length →
      disk_state.std_equal a b = .ok (decide (a = b)) := by
  intro a
  induction a with
  | nil =>
    intro b h
    cases b with
    | nil => rfl
    | cons _ _ => simp at h
  | cons x xs ih =>
    intro b h
    cases b with
    | nil => simp at h
    | cons y ys =>
      have hl : xs.length = ys.length := by simpa using h
      by_cases hxy : x = y
      · simp [disk_state.std_equal, hxy, ih ys hl]
      · simp [disk_state.std_equal, hxy]

/-- Claim C9, evaluated on the code: `disk_state(1)` is L D and `disk_state(2)` is
L D L D; `operator==` compares only as many positions as the left operand has and
answers true for this pair although the two rows differ in `total_count()`.  With the
operands exchanged the comparison reads past the end of the shorter row. -/
theorem C9_operator_eq_ignores_length :
    ∃ a b, disk_state.ctor 1 = .ok a ∧ disk_state.ctor 2 = .ok b ∧
      disk_state.operator_eq a b = .ok true ∧ a.total_count ≠ b.total_count ∧
      disk_state.operator_eq b a = .error .out_of_range :=
  ⟨⟨[DISK_LIGHT, DISK_DARK]⟩, ⟨[DISK_LIGHT, DISK_DARK, DISK_LIGHT, DISK_DARK]⟩,
    by decide, by decide, by decide, by decide, by decide⟩

/-- Claim C10.  For every row of even length `2N`, in any arrangement (in particular for
`2N ≥ 2`), `is_sorted()` returns, and it returns true if and only if every index in
`[0, N)` holds a light disk and every index in `[N, 2N)` holds a dark disk, where
`N = light_count()`. -/
theorem C10_is_sorted_iff (s : disk_state) (N : Nat) (hlen : s.total_count = 2 * N) :
    s.light_count = N ∧
    ∃ b, s.is_sorted = .ok b ∧
      (b = true ↔
        (∀ i, i < N → s.get i = .ok DISK_LIGHT) ∧
        (∀ i, N ≤ i → i < 2 * N → s.get i = .ok DISK_DARK)) := by
  have hl : s.light_count = N := by
    simp only [disk_state.light_count, hlen]
    omega
  obtain ⟨b, hb, hiff⟩ := s.is_sorted_spec
  rw [hl, hlen] at hiff
  exact ⟨hl, b, hb, hiff⟩

/-- Witness for C10 at the row Light Dark Dark Light, on which `is_sorted()` is false. -/
theorem C10_is_sorted_iff_witness :
    disk_state.light_count ⟨[DISK_LIGHT, DISK_DARK, DISK_DARK, DISK_LIGHT]⟩ = 2 ∧
    ∃ b, disk_state.is_sorted ⟨[DISK_LIGHT, DISK_DARK, DISK_DARK, DISK_LIGHT]⟩ = .ok b ∧
      (b = true ↔
        (∀ i, i < 2 →
          disk_state.get ⟨[DISK_LIGHT, DISK_DARK, DISK_DARK, DISK_LIGHT]⟩ i = .ok DISK_LIGHT) ∧
        (∀ i, 2 ≤ i → i < 2 * 2 →
          disk_state.get ⟨[DISK_LIGHT, DISK_DARK, DISK_DARK, DISK_LIGHT]⟩ i = .ok DISK_DARK)) :=
  C10_is_sorted_iff ⟨[DISK_LIGHT, DISK_DARK, DISK_DARK, DISK_LIGHT]⟩ 2 (by decide)

theorem getElem?_swap_other (pre : List disk_color) (x y : disk_color) (suf : List disk_color) :
    ∀ j, j ≠ pre.length → j ≠ pre.length + 1 →
      (pre ++ y :: x :: suf)[j]? = (pre ++ x :: y :: suf)[j]? := by
  induction pre with
  | nil =>
    intro j h1 h2
    obtain ⟨k, rfl⟩ : ∃ k, j = k + 2 := ⟨j - 2, by simp at h1 h2; omega⟩
    simp
  | cons c pre ih =>
    intro j h1 h2
    cases j with
    | zero => simp
    | succ j =>
      simp only [List.cons_append, List.getElem?_cons_succ]
      exact ih j (by simpa using h1) (by simpa using h2)

theorem disk_state.get_congr (s1 s2 : disk_state) (j : Nat)
    (hlen : s1.total_count = s2.total_count) (h : s1._colors[j]? = s2._colors[j]?) :
    s1.get j = s2.get j := by
  simp only [disk_state.get, disk_state.is_index, hlen, h]

/-- Claim C11.  For every row and every `left_index` with
`left_index + 1 < total_count()`, `swap(left_index)` returns a row in which the colours
at `left_index` and `left_index + 1` are exchanged, the colour at every other index is
unchanged, and `total_count()` is unchanged. -/
theorem C11_swap_exchanges_neighbours (s : disk_state) (left_index : Nat)
    (h : left_index + 1 < s.total_count) :
    ∃ s1, s.swap left_index = .ok s1 ∧
      s1.get left_index = s.get (left_index + 1) ∧
      s1.get (left_index + 1) = s.get left_index ∧
      (∀ j, j ≠ left_index → j ≠ left_index + 1 → s1.get j = s.get j) ∧
      s1.total_count = s.total_count := by
  obtain ⟨l⟩ := s
  obtain ⟨pre, x, y, suf, rfl, rfl⟩ := split_at_pair l left_index h
  refine ⟨⟨pre ++ y :: x :: suf⟩, disk_state.swap_at_prefix pre x y suf, ?_, ?_, ?_, ?_⟩
  · rw [disk_state.get_at_prefix, disk_state.get_after_prefix]
  · rw [disk_state.get_after_prefix, disk_state.get_at_prefix]
  · intro j h1 h2
    exact disk_state.get_congr _ _ j (by simp [disk_state.total_count])
      (getElem?_swap_other pre x y suf j h1 h2)
  · simp [disk_state.total_count]

/-- Witness for C11: swapping at index 1 of the row Light Dark Light Dark. -/
theorem C11_swap_exchanges_neighbours_witness :
    ∃ s1, disk_state.swap ⟨[DISK_LIGHT, DISK_DARK, DISK_LIGHT, DISK_DARK]⟩ 1 = .ok s1 ∧
      s1.get 1 = disk_state.get ⟨[DISK_LIGHT, DISK_DARK, DISK_LIGHT, DISK_DARK]⟩ (1 + 1) ∧
      s1.get (1 + 1) = disk_state.get ⟨[DISK_LIGHT, DISK_DARK, DISK_LIGHT, DISK_DARK]⟩ 1 ∧
      (∀ j, j ≠ 1 → j ≠ 1 + 1 →
        s1.get j = disk_state.get ⟨[DISK_LIGHT, DISK_DARK, DISK_LIGHT, DISK_DARK]⟩ j) ∧
      s1.total_count
        = disk_state.total_count ⟨[DISK_LIGHT, DISK_DARK, DISK_LIGHT, DISK_DARK]⟩ :=
  C11_swap_exchanges_neighbours ⟨[DISK_LIGHT, DISK_DARK, DISK_LIGHT, DISK_DARK]⟩ 1 (by decide)

theorem disk_state.swap_of_lt (s : disk_state) (i : Nat) (h : i + 1 < s.total_count) :
    ∃ s1, s.swap i = .ok s1 := by
  obtain ⟨l⟩ := s
  obtain ⟨pre, x, y, suf, rfl, rfl⟩ := split_at_pair l i h
  exact ⟨_, disk_state.swap_at_prefix pre x y suf⟩

theorem disk_state.swap_of_ge (s : disk_state) (i : Nat) (h : s.total_count ≤ i + 1) :
    s.swap i = .error .assert_failed := by
  have h2 : ¬ i + 1 < s.total_count := by omega
  by_cases h1 : i < s.total_count
  · simp [disk_state.swap, disk_state.is_index, h1, h2]
  · simp [disk_state.swap, disk_state.is_index, h1]

/-- Claim C12.  The precondition failures are exactly the out-of-bounds and zero-count
cases: `get(i)` fails (the assertion fires) if and only if `i ≥ total_count()` and
otherwise returns the colour stored at `i`; `swap(i)` fails if and only if
`i ≥ total_count()` or `i + 1 ≥ total_count()` and otherwise returns a row; constructing
`disk_state(0)` fails, and `disk_state(N)` returns a row for every `N ≥ 1`. -/
theorem C12_precondition_failures :
    (∀ (s : disk_state) (i : Nat),
      (s.get i = .error .assert_failed ↔ s.total_count ≤ i) ∧
      ((∃ c, s.get i = .ok c ∧ s._colors[i]? = some c) ↔ i < s.total_count)) ∧
    (∀ (s : disk_state) (i : Nat),
      (s.swap i = .error .assert_failed ↔ (s.total_count ≤ i ∨ s.total_count ≤ i + 1)) ∧
      ((∃ s1, s.swap i = .ok s1) ↔ i + 1 < s.total_count)) ∧
    disk_state.ctor 0 = .error .assert_failed ∧
    (∀ N, (∃ s, disk_state.ctor N = .ok s) ↔ 1 ≤ N) := by
  refine ⟨fun s i => ⟨⟨fun h => ?_, s.get_of_ge i⟩, ⟨fun h => ?_, s.get_of_lt i⟩⟩,
    fun s i => ⟨⟨fun h => ?_, fun h => s.swap_of_ge i (by omega)⟩,
      ⟨fun h => ?_, s.swap_of_lt i⟩⟩, by decide, fun N => ⟨fun h => ?_, fun h => ?_⟩⟩
  · by_contra hlt
    obtain ⟨c, hc, _⟩ := s.get_of_lt i (by omega)
    rw [hc] at h
    cases h
  · by_contra hge
    obtain ⟨c, hc, _⟩ := h
    rw [s.get_of_ge i (by omega)] at hc
    cases hc
  · by_contra hlt
    obtain ⟨s1, hs1⟩ := s.swap_of_lt i (by omega)
    rw [hs1] at h
    cases h
  · by_contra hge
    obtain ⟨s1, hs1⟩ := h
    rw [s.swap_of_ge i (by omega)] at hs1
    cases hs1
  · by_contra h0
    have hN : N = 0 := by omega
    obtain ⟨s, hs⟩ := h
    have hz : disk_state.ctor 0 = .error .assert_failed := by decide
    rw [hN, hz] at hs
    cases hs
  · exact ⟨_, disk_state.ctor_wrapped N h⟩

/-! ## The member `to_string` -/

theorem token_data (c : disk_color) : (token c).data = ['L'] ∨ (token c).data = ['D'] := by
  cases c
  · left; rfl
  · right; rfl

theorem token_no_space (c : disk_color) : ' ' ∉ (token c).data := by
  cases c <;> decide

theorem disk_state.to_string_loop_eq_go (l : List disk_color) :
    ∀ acc : String, disk_state.to_string_loop l false acc
      = String.intercalate.go acc " " (l.map token) := by
  induction l with
  | nil => intro acc; rfl
  | cons c rest ih =>
    intro acc
    cases c <;> simp [disk_state.to_string_loop, String.intercalate.go, token, ih]

theorem disk_state.to_string_eq_intercalate (s : disk_state) :
    s.to_string = " ".intercalate (s._colors.map token) := by
  obtain ⟨l⟩ := s
  cases l with
  | nil => rfl
  | cons c rest =>
    cases c <;>
      simp [disk_state.to_string, disk_state.to_string_loop, String.intercalate, token,
        disk_state.to_string_loop_eq_go]

theorem intercalate_go_data (l : List disk_color) :
    ∀ acc : String, (String.intercalate.go acc " " (l.map token)).data
      = acc.data ++ rendered_tail l := by
  induction l with
  | nil => intro acc; simp [String.intercalate.go, rendered_tail]
  | cons c rest ih =>
    intro acc
    simp [String.intercalate.go, rendered_tail, ih]

theorem list_intercalate_tokens (c : disk_color) (rest : List disk_color) :
    [' '].intercalate ((c :: rest).map (fun d => (token d).data))
      = (token c).data ++ rendered_tail rest := by
  induction rest generalizing c with
  | nil => simp [List.intercalate, rendered_tail]
  | cons d rest ih =>
    have := ih d
    simp only [List.intercalate, List.map_cons, List.intersperse_cons_cons, List.flatten_cons,
      rendered_tail] at this ⊢
    rw [this]
    simp

theorem disk_state.to_string_data (c : disk_color) (rest : List disk_color) :
    (disk_state.to_string ⟨c :: rest⟩).data = (token c).data ++ rendered_tail rest := by
  have h := intercalate_go_data rest (token c)
  rw [disk_state.to_string_eq_intercalate]
  exact h

theorem rendered_last (rest : List disk_color) :
    ∀ (a : Char), a ≠ ' ' → (a :: rendered_tail rest).getLast? ≠ some ' ' := by
  induction rest with
  | nil => intro a ha; simpa [rendered_tail] using ha
  | cons d rest ih =>
    intro a _
    cases d
    · have := ih 'L' (by decide)
      simpa [rendered_tail, token, List.getLast?_cons_cons] using this
    · have := ih 'D' (by decide)
      simpa [rendered_tail, token, List.getLast?_cons_cons] using this

/-- Claim C13.  For every row, `to_string()` is a sequence of exactly `total_count()`
tokens joined by single spaces, with no leading or trailing space (so, for a row that is
not empty, splitting it at the spaces gives back these tokens), and for every index `i`
the `i`-th token is "L" when `get(i)` is light and "D" when `get(i)` is dark;
`disk_state(2)` renders as "L D L D". -/
theorem C13_to_string_tokens :
    (∀ s : disk_state, ∃ tokens : List String,
      tokens.length = s.total_count ∧
      (∀ i, (s.get i = .ok DISK_LIGHT → tokens[i]? = some "L") ∧
        (s.get i = .ok DISK_DARK → tokens[i]? = some "D")) ∧
      s.to_string = " ".intercalate tokens ∧
      (∀ t ∈ tokens, ' ' ∉ t.data) ∧
      (0 < s.total_count → s.to_string.data.splitOn ' ' = tokens.map String.data) ∧
      s.to_string.data.head? ≠ some ' ' ∧ s.to_string.data.getLast? ≠ some ' ') ∧
    (∃ s, disk_state.ctor 2 = .ok s ∧ s.to_string = "L D L D") := by
  refine ⟨fun s => ⟨s._colors.map token, by simp [disk_state.total_count], fun i => ⟨?_, ?_⟩,
    s.to_string_eq_intercalate, ?_, ?_, ?_, ?_⟩,
    ⟨⟨[DISK_LIGHT, DISK_DARK, DISK_LIGHT, DISK_DARK]⟩, by decide, by decide⟩⟩
  · intro h
    rw [disk_state.get_eq_ok_iff] at h
    simp [List.getElem?_map, h, token]
  · intro h
    rw [disk_state.get_eq_ok_iff] at h
    simp [List.getElem?_map, h, token]
  · intro t ht
    obtain ⟨c, _, rfl⟩ := List.mem_map.mp ht
    exact token_no_space c
  · intro hpos
    obtain ⟨l⟩ := s
    cases l with
    | nil => simp [disk_state.total_count] at hpos
    | cons c rest =>
      rw [disk_state.to_string_data, ← list_intercalate_tokens, List.map_map]
      apply List.splitOn_intercalate
      · intro l hl
        obtain ⟨d, _, rfl⟩ := List.mem_map.mp hl
        exact token_no_space d
      · simp
  · obtain ⟨l⟩ := s
    cases l with
    | nil => simp [disk_state.to_string, disk_state.to_string_loop]
    | cons c rest =>
      rw [disk_state.to_string_data]
      cases c <;> simp [token]
  · obtain ⟨l⟩ := s
    cases l with
    | nil => simp [disk_state.to_string, disk_state.to_string_loop]
    | cons c rest =>
      rw [disk_state.to_string_data]
      cases c
      · exact rendered_last rest 'L' (by decide)
      · exact rendered_last rest 'D' (by decide)

/-- Claim C15.  For every `N ≥ 1` and every row holding `N` light and `N` dark disks in any
order, the `swap_count()` reported by `sort_alternate` and the one reported by
`sort_lawnmower` (with a step budget above `N * N + 2 * N`) are at most `N * N`. -/
theorem C15_swap_count_at_most_square (N fuel : Nat) (before : disk_state) (hN : 1 ≤ N)
    (hrow : HasCounts N before) (hfuel : N * N + 2 * N < fuel) :
    ∃ ra rl, sort_alternate fuel before = .ok ra ∧ sort_lawnmower fuel before = .ok rl ∧
      ra.swap_count ≤ N * N ∧ rl.swap_count ≤ N * N := by
  have hinv := hrow.inversions_le
  obtain ⟨sa, na, ha, hswa⟩ :=
    sort_alternate_spec fuel N before hrow.total_count hN (by omega)
  have hl := sort_lawnmower_result fuel N before hN hrow hfuel
  refine ⟨_, _, ha, hl, ?_, ?_⟩
  · have h1 := hswa.le_inversions
    have h2 : na % UNSIGNED_MODULUS ≤ na := Nat.mod_le _ _
    show na % UNSIGNED_MODULUS ≤ N * N
    omega
  · have h2 : inversions before._colors % UNSIGNED_MODULUS ≤ inversions before._colors :=
      Nat.mod_le _ _
    show inversions before._colors % UNSIGNED_MODULUS ≤ N * N
    omega

/-- Witness for C15 at the row Dark Dark Light Light, where the bound `2 * 2` is met by
`sort_lawnmower`. -/
theorem C15_swap_count_at_most_square_witness :
    ∃ ra rl, sort_alternate 9 ⟨[DISK_DARK, DISK_DARK, DISK_LIGHT, DISK_LIGHT]⟩ = .ok ra ∧
      sort_lawnmower 9 ⟨[DISK_DARK, DISK_DARK, DISK_LIGHT, DISK_LIGHT]⟩ = .ok rl ∧
      ra.swap_count ≤ 2 * 2 ∧ rl.swap_count ≤ 2 * 2 :=
  C15_swap_count_at_most_square 2 9 ⟨[DISK_DARK, DISK_DARK, DISK_LIGHT, DISK_LIGHT]⟩
    (by decide) ⟨by decide, by decide⟩ (by decide)

/-- Counterexample to C17 as stated: on `disk_state(1)` and on `disk_state(2)` the first
pass of `sort_alternate` (started with `numOfSwap = 0`, `loopCount = 0`,
`currentIndex = 0`) ends with the counter still at `0` and the row unchanged. -/
theorem C17_counterexample :
    (disk_state.ctor 1 = .ok ⟨[DISK_LIGHT, DISK_DARK]⟩ ∧
      sort_alternate.pass 5 ⟨[DISK_LIGHT, DISK_DARK]⟩ 0 0 0
        = .ok (⟨[DISK_LIGHT, DISK_DARK]⟩, 0)) ∧
    (disk_state.ctor 2 = .ok ⟨[DISK_LIGHT, DISK_DARK, DISK_LIGHT, DISK_DARK]⟩ ∧
      sort_alternate.pass 5 ⟨[DISK_LIGHT, DISK_DARK, DISK_LIGHT, DISK_DARK]⟩ 0 0 0
        = .ok (⟨[DISK_LIGHT, DISK_DARK, DISK_LIGHT, DISK_DARK]⟩, 0)) := by
  decide

/-! ## Dark-before-light pairs, counted by position -/

theorem countP_light_range (cs : List disk_color) :
    (List.range cs.length).countP (fun j => decide (cs[j]? = some DISK_LIGHT))
      = cs.count DISK_LIGHT := by
  induction cs with
  | nil => rfl
  | cons c cs ih =>
    rw [List.length_cons, List.range_succ_eq_map, List.countP_cons, List.countP_map]
    have hfun : ((fun j => decide ((c :: cs)[j]? = some DISK_LIGHT)) ∘ Nat.succ)
        = fun j => decide (cs[j]? = some DISK_LIGHT) := by
      funext j
      simp
    rw [hfun, ih]
    cases c <;> simp

theorem dark_before_light_pairs_cons (c : disk_color) (cs : List disk_color) :
    dark_before_light_pairs (c :: cs)
      = (if c = DISK_DARK then cs.count DISK_LIGHT else 0) + dark_before_light_pairs cs := by
  unfold dark_before_light_pairs
  rw [List.length_cons, List.range_succ_eq_map, List.map_cons, List.sum_cons, List.map_map]
  congr 1
  · rw [List.countP_cons, List.countP_map]
    by_cases hc : c = DISK_DARK
    · have hfun : ((fun j => decide (0 < j ∧ (c :: cs)[0]? = some DISK_DARK ∧
          (c :: cs)[j]? = some DISK_LIGHT)) ∘ Nat.succ)
          = fun j => decide (cs[j]? = some DISK_LIGHT) := by
        funext j
        simp [hc]
      rw [hfun, countP_light_range]
      simp [hc]
    · have hfun : ((fun j => decide (0 < j ∧ (c :: cs)[0]? = some DISK_DARK ∧
          (c :: cs)[j]? = some DISK_LIGHT)) ∘ Nat.succ)
          = fun _ => false := by
        funext j
        simp [hc]
      rw [hfun]
      simp [hc]
  · congr 1
    apply List.map_congr_left
    intro i _
    rw [Function.comp_apply, List.countP_cons, List.countP_map]
    have hfun : ((fun j => decide (i.succ < j ∧ (c :: cs)[i.succ]? = some DISK_DARK ∧
        (c :: cs)[j]? = some DISK_LIGHT)) ∘ Nat.succ)
        = fun j => decide (i < j ∧ cs[i]? = some DISK_DARK ∧ cs[j]? = some DISK_LIGHT) := by
      funext j
      simp
    rw [hfun]
    simp

/-- The recursive count `inversions` is the count of dark-before-light index pairs. -/
theorem inversions_eq_pairs (l : List disk_color) :
    inversions l = dark_before_light_pairs l := by
  induction l with
  | nil => rfl
  | cons c cs ih => rw [dark_before_light_pairs_cons, ← ih, inversions]

theorem half_product_lt_unsigned (N : Nat) (h : N ≤ 92682) :
    N * (N - 1) / 2 < UNSIGNED_MODULUS := by
  have h1 : N * (N - 1) ≤ 92682 * 92681 := Nat.mul_le_mul h (by omega)
  have h2 : N * (N - 1) / 2 ≤ 92682 * 92681 / 2 := Nat.div_le_div_right h1
  have h3 : 92682 * 92681 / 2 < UNSIGNED_MODULUS := by
    simp only [UNSIGNED_MODULUS]
    norm_num
  omega

/-- On the alternating row both algorithms report the number `N * (N - 1) / 2` reduced to
the range of the `unsigned` counter. -/
theorem reported_swap_count_canonical (N fuel : Nat) (hN : 1 ≤ N) (hfit : N < 2 ^ 63)
    (hfuel : N * N + 2 * N < fuel) :
    ∃ before ra rl, disk_state.ctor N = .ok before ∧
      sort_alternate fuel before = .ok ra ∧ sort_lawnmower fuel before = .ok rl ∧
      ra.swap_count = N * (N - 1) / 2 % UNSIGNED_MODULUS ∧
      rl.swap_count = N * (N - 1) / 2 % UNSIGNED_MODULUS := by
  refine ⟨⟨alternating N⟩, _, _, disk_state.ctor_eq N hN hfit,
    sort_alternate_result fuel N hN (by nlinarith),
    sort_lawnmower_result fuel N ⟨alternating N⟩ hN (hasCounts_alternating N) hfuel, ?_, ?_⟩
  · simp only [sorted_disks.swap_count, sorted_disks.ctor, inversions_alternating_eq]
  · simp only [sorted_disks.swap_count, sorted_disks.ctor, inversions_alternating_eq]

/-- Counterexample to C20 as stated: for `N = 92683` the alternating row has
`92683 * 92682 / 2 = 4295022903` dark-before-light pairs, which does not fit the
`unsigned` counter of `sorted_disks`; both algorithms report `swap_count() = 55607`.
And for `N = 2 ^ 63` the `size_t` product `light_count * 2` wraps to `0`, the constructor
returns the empty row and neither algorithm returns a result. -/
theorem C20_counterexample :
    (∃ before ra rl, disk_state.ctor 92683 = .ok before ∧
      sort_alternate 8590323976 before = .ok ra ∧
      sort_lawnmower 8590323976 before = .ok rl ∧
      ra.swap_count = 55607 ∧ rl.swap_count = 55607 ∧
      92683 * (92683 - 1) / 2 = 4295022903) ∧
    (9223372036854775808 = 2 ^ 63 ∧ disk_state.ctor 9223372036854775808 = .ok ⟨[]⟩ ∧
      sort_alternate 5 ⟨[]⟩ = .error .assert_failed ∧
      sort_lawnmower 5 ⟨[]⟩ = .error .assert_failed) := by
  have hval : 92683 * (92683 - 1) / 2 % UNSIGNED_MODULUS = 55607 := by
    simp only [UNSIGNED_MODULUS]
    norm_num
  obtain ⟨before, ra, rl, h1, h2, h3, h4, h5⟩ :=
    reported_swap_count_canonical 92683 8590323976 (by norm_num) (by norm_num)
      (by norm_num)
  exact ⟨⟨before, ra, rl, h1, h2, h3, h4.trans hval, h5.trans hval, by norm_num⟩,
    by decide⟩

/-- Claim C20, amended.  For every `N` with `1 ≤ N < 2 ^ 63` (so that `light_count * 2`
does not wrap), the alternating row of `2 * N` disks returned by the constructor has `N * (N - 1) / 2` index pairs `i < j` with a dark disk at `i` and a light
disk at `j`, each exchange of a dark disk with the light disk right after it removes
exactly one such pair, and both `sort_alternate` and `sort_lawnmower` (with a step budget
above `N * N + 2 * N`) report as `swap_count()` that number reduced to the range of the
`unsigned` counter: `N * (N - 1) / 2` itself when it is below `2 ^ 32`, which is the case
for `N ≤ 92682`. -/
theorem C20_swap_count_is_pair_count_amended (N fuel : Nat) (hN : 1 ≤ N)
    (hfit : N < 2 ^ 63) (hfuel : N * N + 2 * N < fuel) :
    ∃ before ra rl, disk_state.ctor N = .ok before ∧ before.total_count = 2 * N ∧
      sort_alternate fuel before = .ok ra ∧ sort_lawnmower fuel before = .ok rl ∧
      dark_before_light_pairs before._colors = N * (N - 1) / 2 ∧
      (∀ pre suf : List disk_color,
        dark_before_light_pairs (pre ++ DISK_LIGHT :: DISK_DARK :: suf) + 1
          = dark_before_light_pairs (pre ++ DISK_DARK :: DISK_LIGHT :: suf)) ∧
      ra.swap_count = N * (N - 1) / 2 % UNSIGNED_MODULUS ∧
      rl.swap_count = N * (N - 1) / 2 % UNSIGNED_MODULUS ∧
      (N * (N - 1) / 2 < UNSIGNED_MODULUS →
        ra.swap_count = N * (N - 1) / 2 ∧ rl.swap_count = N * (N - 1) / 2) ∧
      (N ≤ 92682 → ra.swap_count = N * (N - 1) / 2 ∧ rl.swap_count = N * (N - 1) / 2) := by
  have hexact : N * (N - 1) / 2 < UNSIGNED_MODULUS →
      (sorted_disks.ctor ⟨lights_then_darks N N⟩ (inversions (alternating N))).swap_count
        = N * (N - 1) / 2 := by
    intro h
    simp only [sorted_disks.swap_count, sorted_disks.ctor, inversions_alternating_eq,
      Nat.mod_eq_of_lt h]
  refine ⟨⟨alternating N⟩, _, _, disk_state.ctor_eq N hN hfit, alternating_length N,
    sort_alternate_result fuel N hN (by nlinarith),
    sort_lawnmower_result fuel N ⟨alternating N⟩ hN (hasCounts_alternating N) hfuel,
    ?_, ?_, ?_, ?_, fun h => ⟨hexact h, hexact h⟩,
    fun h => ⟨hexact (half_product_lt_unsigned N h), hexact (half_product_lt_unsigned N h)⟩⟩
  · rw [← inversions_eq_pairs, inversions_alternating_eq]
  · intro pre suf
    rw [← inversions_eq_pairs, ← inversions_eq_pairs]
    exact inversions_swap pre suf
  · simp only [sorted_disks.swap_count, sorted_disks.ctor, inversions_alternating_eq]
  · simp only [sorted_disks.swap_count, sorted_disks.ctor, inversions_alternating_eq]

/-- Witness for the amended C20 at `N = 3`, where the count is `3`. -/
theorem C20_swap_count_is_pair_count_amended_witness :
    ∃ before ra rl, disk_state.ctor 3 = .ok before ∧ before.total_count = 2 * 3 ∧
      sort_alternate 16 before = .ok ra ∧ sort_lawnmower 16 before = .ok rl ∧
      dark_before_light_pairs before._colors = 3 * (3 - 1) / 2 ∧
      (∀ pre suf : List disk_color,
        dark_before_light_pairs (pre ++ DISK_LIGHT :: DISK_DARK :: suf) + 1
          = dark_before_light_pairs (pre ++ DISK_DARK :: DISK_LIGHT :: suf)) ∧
      ra.swap_count = 3 * (3 - 1) / 2 % UNSIGNED_MODULUS ∧
      rl.swap_count = 3 * (3 - 1) / 2 % UNSIGNED_MODULUS ∧
      (3 * (3 - 1) / 2 < UNSIGNED_MODULUS →
        ra.swap_count = 3 * (3 - 1) / 2 ∧ rl.swap_count = 3 * (3 - 1) / 2) ∧
      (3 ≤ 92682 → ra.swap_count = 3 * (3 - 1) / 2 ∧ rl.swap_count = 3 * (3 - 1) / 2) :=
  C20_swap_count_is_pair_count_amended 3 16 (by decide) (by decide) (by decide)

/-! ## One sweep of `sort_lawnmower` against the reference sweep -/

theorem code_step_eq_reference (s : disk_state) (n p : Nat) (h : p + 1 < s.total_count) :
    ∃ x y, s.get p = .ok x ∧ s.get (p + 1) = .ok y ∧
      ((x.value = 1 ∧ y.value = 0) →
        ∃ s1, s.swap p = .ok s1 ∧ s1.total_count = s.total_count ∧
          reference_step (s._colors, n) p = (s1._colors, n + 1)) ∧
      (¬ (x.value = 1 ∧ y.value = 0) → reference_step (s._colors, n) p = (s._colors, n)) := by
  obtain ⟨l⟩ := s
  obtain ⟨pre, x, y, suf, rfl, rfl⟩ := split_at_pair l p h
  refine ⟨x, y, disk_state.get_at_prefix pre x _, disk_state.get_after_prefix pre x y suf,
    ?_, ?_⟩
  · rintro ⟨hx, hy⟩
    rw [disk_color.value_eq_one] at hx
    rw [disk_color.value_eq_zero] at hy
    subst hx hy
    refine ⟨_, disk_state.swap_at_prefix pre _ _ suf, by simp [disk_state.total_count], ?_⟩
    simp only [reference_step, getElem?_at_prefix, getElem?_after_prefix, set_pair_at_prefix]
  · intro hxy
    simp only [reference_step, getElem?_at_prefix, getElem?_after_prefix]
    cases x <;> cases y <;> simp [disk_color.value] at hxy ⊢

theorem sort_lawnmower.left_to_right_eq_reference (cnt : Nat) :
    ∀ (fuel : Nat) (s : disk_state) (n i : Nat), i + cnt + 1 = s.total_count → cnt < fuel →
      sort_lawnmower.left_to_right fuel s n i
        = .ok (⟨((List.range' i cnt).foldl reference_step (s._colors, n)).1⟩,
            ((List.range' i cnt).foldl reference_step (s._colors, n)).2,
            s.total_count - 1) := by
  induction cnt with
  | zero =>
    intro fuel s n i hi hf
    obtain ⟨f, rfl⟩ : ∃ f, fuel = f + 1 := ⟨fuel - 1, by omega⟩
    have hsub : usub s.total_count 1 = s.total_count - 1 := usub_of_le (by omega)
    rw [sort_lawnmower.left_to_right, hsub, if_neg (by omega)]
    have : i = s.total_count - 1 := by omega
    simp [this]
  | succ cnt ih =>
    intro fuel s n i hi hf
    obtain ⟨f, rfl⟩ : ∃ f, fuel = f + 1 := ⟨fuel - 1, by omega⟩
    have hsub : usub s.total_count 1 = s.total_count - 1 := usub_of_le (by omega)
    rw [sort_lawnmower.left_to_right, hsub, if_pos (by omega)]
    obtain ⟨x, y, hx, hy, hyes, hno⟩ := code_step_eq_reference s n i (by omega)
    rw [hx, hy, List.range'_succ, List.foldl_cons]
    by_cases hxy : x.value = 1 ∧ y.value = 0
    · obtain ⟨s1, hs1, hlen, href⟩ := hyes hxy
      simp only [hxy, and_self, if_true, hs1]
      rw [href, ih f s1 (n + 1) (i + 1) (by omega) (by omega), hlen]
    · simp only [hxy, if_false]
      rw [hno hxy, ih f s n (i + 1) (by omega) (by omega)]

theorem sort_lawnmower.right_to_left_eq_reference (cnt : Nat) :
    ∀ (fuel : Nat) (s : disk_state) (n : Nat), cnt + 1 < s.total_count → cnt < fuel →
      sort_lawnmower.right_to_left fuel s n (cnt + 1)
        = .ok (⟨((List.range' 2 cnt).reverse.foldl
                  (fun st i => reference_step st (i - 1)) (s._colors, n)).1⟩,
            ((List.range' 2 cnt).reverse.foldl
                  (fun st i => reference_step st (i - 1)) (s._colors, n)).2) := by
  induction cnt with
  | zero =>
    intro fuel s n _ hf
    obtain ⟨f, rfl⟩ : ∃ f, fuel = f + 1 := ⟨fuel - 1, by omega⟩
    rw [sort_lawnmower.right_to_left, if_neg (by omega)]
    simp
  | succ cnt ih =>
    intro fuel s n hi hf
    obtain ⟨f, rfl⟩ : ∃ f, fuel = f + 1 := ⟨fuel - 1, by omega⟩
    have hsub : usub (cnt + 1 + 1) 1 = cnt + 1 := by rw [usub_of_le (by omega)]; omega
    rw [sort_lawnmower.right_to_left, if_pos (by omega), hsub]
    obtain ⟨x, y, hx, hy, hyes, hno⟩ := code_step_eq_reference s n (cnt + 1) (by omega)
    have hlist : (List.range' 2 (cnt + 1)).reverse
        = (cnt + 2) :: (List.range' 2 cnt).reverse := by
      rw [List.range'_concat, List.reverse_append]
      simp
      omega
    have hidx : cnt + 2 - 1 = cnt + 1 := by omega
    rw [hy, hx, hlist, List.foldl_cons, hidx]
    by_cases hxy : x.value = 1 ∧ y.value = 0
    · obtain ⟨s1, hs1, hlen, href⟩ := hyes hxy
      simp only [hxy, and_self, if_true, hs1]
      rw [href, ih f s1 (n + 1) (by omega) (by omega)]
    · simp only [hxy, if_false]
      rw [hno hxy, ih f s n (by omega) (by omega)]

theorem reference_step_count (l : List disk_color) (n p : Nat) :
    reference_step (l, n) p
      = ((reference_step (l, 0) p).1, n + (reference_step (l, 0) p).2) := by
  unfold reference_step
  dsimp only
  cases l[p]? with
  | none => simp
  | some a =>
    cases l[p + 1]? with
    | none => cases a <;> simp
    | some b => cases a <;> cases b <;> simp

theorem foldl_reference_step_count (is : List Nat) (f : Nat → Nat) :
    ∀ (l : List disk_color) (n : Nat),
      is.foldl (fun st i => reference_step st (f i)) (l, n)
        = ((is.foldl (fun st i => reference_step st (f i)) (l, 0)).1,
            n + (is.foldl (fun st i => reference_step st (f i)) (l, 0)).2) := by
  induction is with
  | nil => intro l n; rfl
  | cons i is ih =>
    intro l n
    simp only [List.foldl_cons]
    rw [reference_step_count l n (f i), ih]
    conv_rhs => rw [show reference_step (l, 0) (f i)
      = ((reference_step (l, 0) (f i)).1, (reference_step (l, 0) (f i)).2) from rfl, ih]
    simp [Nat.add_assoc]

theorem reference_step_length (st : List disk_color × Nat) (p : Nat) :
    (reference_step st p).1.length = st.1.length := by
  unfold reference_step
  split <;> simp

theorem foldl_reference_step_length (is : List Nat) :
    ∀ st : List disk_color × Nat, (is.foldl reference_step st).1.length = st.1.length := by
  induction is with
  | nil => intro st; rfl
  | cons i is ih =>
    intro st
    rw [List.foldl_cons, ih, reference_step_length]

/-- One sweep of `sort_lawnmower` is the reference sweep whose right-to-left pass stops at
`i = 2`. -/
theorem sort_lawnmower.sweep_eq_reference (passFuel : Nat) (s : disk_state) (n : Nat)
    (hlen : 2 ≤ s.total_count) (hfuel : s.total_count < passFuel) :
    sort_lawnmower.sweep passFuel s n
      = .ok (⟨(reference_sweep 2 s._colors).1⟩, n + (reference_sweep 2 s._colors).2) := by
  have hfwd := sort_lawnmower.left_to_right_eq_reference (s.total_count - 1) passFuel s n 0
    (by omega) (by omega)
  have hshift := foldl_reference_step_count (List.range' 0 (s.total_count - 1)) id
    s._colors n
  simp only [id] at hshift
  have hlenA : ((List.range' 0 (s.total_count - 1)).foldl reference_step
      (s._colors, 0)).1.length = s.total_count :=
    foldl_reference_step_length _ _
  rw [hshift] at hfwd
  have hcnt : s.total_count - 1 = (s.total_count - 2) + 1 := by omega
  have hbwd := sort_lawnmower.right_to_left_eq_reference (s.total_count - 2) passFuel
    ⟨((List.range' 0 (s.total_count - 1)).foldl reference_step (s._colors, 0)).1⟩
    (n + ((List.range' 0 (s.total_count - 1)).foldl reference_step (s._colors, 0)).2)
    (by show _ < List.length _; rw [hlenA]; omega) (by omega)
  rw [← hcnt] at hbwd
  simp only [sort_lawnmower.sweep, hfwd, hbwd]
  have hshift2 := foldl_reference_step_count (List.range' 2 (s.total_count - 2)).reverse
    (fun i => i - 1)
    ((List.range' 0 (s.total_count - 1)).foldl reference_step (s._colors, 0)).1
  have e1 := hshift2
    (n + ((List.range' 0 (s.total_count - 1)).foldl reference_step (s._colors, 0)).2)
  have e2 := hshift2
    ((List.range' 0 (s.total_count - 1)).foldl reference_step (s._colors, 0)).2
  have href : reference_sweep 2 s._colors
      = (List.range' 2 (s.total_count - 2)).reverse.foldl
          (fun st i => reference_step st (i - 1))
          (((List.range' 0 (s.total_count - 1)).foldl reference_step (s._colors, 0)).1,
            ((List.range' 0 (s.total_count - 1)).foldl reference_step (s._colors, 0)).2) := rfl
  rw [href, e1, e2]
  simp [Nat.add_assoc]

/-- Counterexample to C18 as stated: on Dark Dark Light Light one sweep of
`sort_lawnmower` gives Dark Light Light Dark after two swaps, while the reference sweep
whose right-to-left pass runs down to `i = 1` gives Light Dark Light Dark after three. -/
theorem C18_counterexample :
    sort_lawnmower.sweep 5 ⟨[DISK_DARK, DISK_DARK, DISK_LIGHT, DISK_LIGHT]⟩ 0
      = .ok (⟨[DISK_DARK, DISK_LIGHT, DISK_LIGHT, DISK_DARK]⟩, 2) ∧
    reference_sweep 1 [DISK_DARK, DISK_DARK, DISK_LIGHT, DISK_LIGHT]
      = ([DISK_LIGHT, DISK_DARK, DISK_LIGHT, DISK_DARK], 3) := by
  decide

/-- Claim C18, amended.  For every row of length at least two (of even length in
particular), one sweep of `sort_lawnmower` produces the same row and the same number of
swaps as the reference sweep whose right-to-left pass runs over `i = total_count()-1`
down to `i = 2` inclusive, swapping at `i - 1`: the pair `(0, 1)` is examined in the
left-to-right pass only. -/
theorem C18_sweep_is_reference_amended (passFuel : Nat) (s : disk_state) (n : Nat)
    (hlen : 2 ≤ s.total_count) (hfuel : s.total_count < passFuel) :
    ∃ s1 n1, sort_lawnmower.sweep passFuel s n = .ok (s1, n1) ∧
      s1._colors = (reference_sweep 2 s._colors).1 ∧
      n1 - n = (reference_sweep 2 s._colors).2 ∧ n ≤ n1 :=
  ⟨_, _, sort_lawnmower.sweep_eq_reference passFuel s n hlen hfuel, rfl, by omega, by omega⟩

/-- Witness for the amended C18 at the row Dark Dark Light Light. -/
theorem C18_sweep_is_reference_amended_witness :
    ∃ s1 n1, sort_lawnmower.sweep 5 ⟨[DISK_DARK, DISK_DARK, DISK_LIGHT, DISK_LIGHT]⟩ 0
        = .ok (s1, n1) ∧
      s1._colors = (reference_sweep 2 [DISK_DARK, DISK_DARK, DISK_LIGHT, DISK_LIGHT]).1 ∧
      n1 - 0 = (reference_sweep 2 [DISK_DARK, DISK_DARK, DISK_LIGHT, DISK_LIGHT]).2 ∧
      0 ≤ n1 :=
  C18_sweep_is_reference_amended 5 ⟨[DISK_DARK, DISK_DARK, DISK_LIGHT, DISK_LIGHT]⟩ 0
    (by decide) (by decide)

/-! ## Preconditions during the two algorithms -/

theorem sort_alternate.pass_traced_spec (fuel : Nat) :
    ∀ (s : disk_state) (n k c : Nat) (log : List Event), k ≤ s.total_count →
      (1 ≤ k ∨ (c % 2 = 0 ∧ s.total_count % 2 = 0)) →
      s.total_count - (c + k) < fuel →
      ∃ s1 n1 evs, sort_alternate.pass_traced fuel s n k c log = .ok (s1, n1, log ++ evs) ∧
        sort_alternate.pass fuel s n k c = .ok (s1, n1) ∧
        s1.total_count = s.total_count ∧ (∀ e ∈ evs, e.safe = true) ∧
        evs.filterMap Event.get_index
          = List.range' (c + k) (2 * ((s.total_count - k - (c + k) + 1) / 2)) := by
  induction fuel with
  | zero => intro s n k c log _ _ h; omega
  | succ fuel ih =>
    intro s n k c log hk hpar hfuel
    have hsub : usub s.total_count k = s.total_count - k := usub_of_le hk
    have hsafe0 : (Event.sub s.total_count k).safe = true := by simpa [Event.safe] using hk
    rw [sort_alternate.pass_traced, sort_alternate.pass, hsub]
    by_cases hc : c + k < s.total_count - k
    · simp only [if_pos hc]
      have hin : c + k + 1 < s.total_count := by
        rcases hpar with h | ⟨h1, h2⟩
        · omega
        · omega
      have hsafe1 : (Event.get (c + k) s.total_count).safe = true := by
        simp [Event.safe]; omega
      have hsafe2 : (Event.get (c + k + 1) s.total_count).safe = true := by
        simpa [Event.safe] using hin
      have hsafe3 : (Event.swap (c + k) s.total_count).safe = true := by
        simpa [Event.safe] using hin
      obtain ⟨x, y, hx, hy, _, _, hswap⟩ := step_spec s (c + k) hin
      simp only [hx, hy]
      by_cases hxy : x.value = 1 ∧ y.value = 0
      · obtain ⟨s1, hs1, hsw⟩ := hswap hxy
        have hlen : s1.total_count = s.total_count := hsw.length_eq
        simp only [hxy, and_self, if_true, hs1]
        obtain ⟨s2, n2, evs, h2t, h2p, h2len, h2safe, h2idx⟩ :=
          ih s1 (n + 1) k (c + 2)
            (log ++ [Event.sub s.total_count k] ++ [Event.get (c + k) s.total_count]
              ++ [Event.get (c + k + 1) s.total_count] ++ [Event.swap (c + k) s.total_count])
            (by omega) (by rw [hlen]; omega) (by omega)
        refine ⟨s2, n2, [Event.sub s.total_count k, Event.get (c + k) s.total_count,
          Event.get (c + k + 1) s.total_count, Event.swap (c + k) s.total_count] ++ evs,
          ?_, h2p, by omega, ?_, ?_⟩
        · rw [h2t]; simp
        · intro e he
          simp only [List.mem_append, List.mem_cons, List.mem_singleton, List.mem_nil_iff,
            or_false] at he
          rcases he with (rfl | rfl | rfl | rfl) | he
          · exact hsafe0
          · exact hsafe1
          · exact hsafe2
          · exact hsafe3
          · exact h2safe e he
        · have hq : (s.total_count - k - (c + k) + 1) / 2
              = (s.total_count - k - (c + 2 + k) + 1) / 2 + 1 := by omega
          rw [hq, Nat.mul_add, Nat.mul_one, List.range'_succ, List.range'_succ]
          simp only [List.cons_append, List.filterMap_cons, Event.get_index, List.nil_append]
          rw [h2idx, hlen]
          have hp : c + k + 1 + 1 = c + 2 + k := by omega
          rw [hp]
      · simp only [hxy, if_false]
        obtain ⟨s2, n2, evs, h2t, h2p, h2len, h2safe, h2idx⟩ :=
          ih s n k (c + 2)
            (log ++ [Event.sub s.total_count k] ++ [Event.get (c + k) s.total_count]
              ++ [Event.get (c + k + 1) s.total_count])
            hk (by omega) (by omega)
        refine ⟨s2, n2, [Event.sub s.total_count k, Event.get (c + k) s.total_count,
          Event.get (c + k + 1) s.total_count] ++ evs, ?_, h2p, h2len, ?_, ?_⟩
        · rw [h2t]; simp
        · intro e he
          simp only [List.mem_append, List.mem_cons, List.mem_singleton, List.mem_nil_iff,
            or_false] at he
          rcases he with (rfl | rfl | rfl) | he
          · exact hsafe0
          · exact hsafe1
          · exact hsafe2
          · exact h2safe e he
        · have hq : (s.total_count - k - (c + k) + 1) / 2
              = (s.total_count - k - (c + 2 + k) + 1) / 2 + 1 := by omega
          rw [hq, Nat.mul_add, Nat.mul_one, List.range'_succ, List.range'_succ]
          simp only [List.cons_append, List.filterMap_cons, Event.get_index, List.nil_append]
          rw [h2idx]
          have hp : c + k + 1 + 1 = c + 2 + k := by omega
          rw [hp]
    · simp only [if_neg hc]
      refine ⟨s, n, [Event.sub s.total_count k], rfl, rfl, rfl, ?_, ?_⟩
      · intro e he
        simp only [List.mem_singleton] at he
        rw [he]
        exact hsafe0
      · have hq : (s.total_count - k - (c + k) + 1) / 2 = 0 := by omega
        rw [hq]
        rfl

theorem sort_alternate.outer_traced_spec (passFuel N : Nat) (fuel : Nat) :
    ∀ (s : disk_state) (n k : Nat) (log : List Event), s.total_count = 2 * N → 1 ≤ N →
      k ≤ N → 2 * N < passFuel → N - k < fuel →
      ∃ s1 n1 evs,
        sort_alternate.loop_traced passFuel fuel s n k log = .ok (s1, n1, log ++ evs) ∧
        sort_alternate.loop passFuel fuel s n k = .ok (s1, n1) ∧
        ∀ e ∈ evs, e.safe = true := by
  induction fuel with
  | zero => intro s n k log _ _ _ _ h; omega
  | succ fuel ih =>
    intro s n k log hlen hN hk hpf hfuel
    have hsafe0 : (Event.pass_start k s.total_count).safe = true := by
      simp [Event.safe]; omega
    obtain ⟨s1, n1, evs1, h1t, h1p, h1len, h1safe, _⟩ :=
      sort_alternate.pass_traced_spec passFuel s n k 0
        (log ++ [Event.pass_start k s.total_count]) (by omega) (by omega) (by omega)
    simp only [sort_alternate.loop_traced, sort_alternate.loop, h1t, h1p]
    by_cases hc : n = n1 ∧ k ≠ 0
    · simp only [if_pos hc]
      refine ⟨s1, n1, [Event.pass_start k s.total_count] ++ evs1, by simp, rfl, ?_⟩
      intro e he
      simp only [List.mem_append, List.mem_singleton] at he
      rcases he with rfl | he
      · exact hsafe0
      · exact h1safe e he
    · simp only [if_neg hc]
      have hlt : k < N := by
        by_contra hge
        have hkN : k = N := by omega
        obtain ⟨pf, rfl⟩ : ∃ pf, passFuel = pf + 1 := ⟨passFuel - 1, by omega⟩
        rw [sort_alternate.pass_empty_window pf s n k (by omega) (by omega)] at h1p
        injection h1p with h1p
        injection h1p with _ h1p
        exact hc ⟨h1p, by omega⟩
      obtain ⟨s2, n2, evs2, h2t, h2p, h2safe⟩ :=
        ih s1 n1 (k + 1) (log ++ [Event.pass_start k s.total_count] ++ evs1)
          (by omega) hN (by omega) hpf (by omega)
      refine ⟨s2, n2, [Event.pass_start k s.total_count] ++ evs1 ++ evs2, ?_, h2p, ?_⟩
      · rw [h2t]; simp
      · intro e he
        simp only [List.mem_append, List.mem_singleton] at he
        rcases he with (rfl | he) | he
        · exact hsafe0
        · exact h1safe e he
        · exact h2safe e he

theorem sort_lawnmower.left_to_right_traced_spec (fuel : Nat) :
    ∀ (s : disk_state) (n i : Nat) (log : List Event), i < s.total_count →
      s.total_count < fuel + i →
      ∃ s1 n1 evs,
        sort_lawnmower.left_to_right_traced fuel s n i log
          = .ok (s1, n1, s.total_count - 1, log ++ evs) ∧
        sort_lawnmower.left_to_right fuel s n i = .ok (s1, n1, s.total_count - 1) ∧
        s1.total_count = s.total_count ∧ ∀ e ∈ evs, e.safe = true := by
  induction fuel with
  | zero => intro s n i log h1 h2; omega
  | succ fuel ih =>
    intro s n i log h1 h2
    have hsub : usub s.total_count 1 = s.total_count - 1 := usub_of_le (by omega)
    have hsafe0 : (Event.sub s.total_count 1).safe = true := by
      simp [Event.safe]; omega
    rw [sort_lawnmower.left_to_right_traced, sort_lawnmower.left_to_right, hsub]
    by_cases hc : i < s.total_count - 1
    · simp only [if_pos hc]
      have hin : i + 1 < s.total_count := by omega
      have hsafe1 : (Event.get i s.total_count).safe = true := by
        simpa [Event.safe] using h1
      have hsafe2 : (Event.get (i + 1) s.total_count).safe = true := by
        simpa [Event.safe] using hin
      have hsafe3 : (Event.swap i s.total_count).safe = true := by
        simpa [Event.safe] using hin
      obtain ⟨x, y, hx, hy, _, _, hswap⟩ := step_spec s i hin
      simp only [hx, hy]
      by_cases hxy : x.value = 1 ∧ y.value = 0
      · obtain ⟨s1, hs1, hsw⟩ := hswap hxy
        have hlen : s1.total_count = s.total_count := hsw.length_eq
        simp only [hxy, and_self, if_true, hs1]
        obtain ⟨s2, n2, evs, h2t, h2p, h2len, h2safe⟩ :=
          ih s1 (n + 1) (i + 1)
            (log ++ [Event.sub s.total_count 1] ++ [Event.get i s.total_count]
              ++ [Event.get (i + 1) s.total_count] ++ [Event.swap i s.total_count])
            (by omega) (by omega)
        rw [hlen] at h2t h2p
        refine ⟨s2, n2, [Event.sub s.total_count 1, Event.get i s.total_count,
          Event.get (i + 1) s.total_count, Event.swap i s.total_count] ++ evs,
          ?_, h2p, by omega, ?_⟩
        · rw [h2t]; simp
        · intro e he
          simp only [List.mem_append, List.mem_cons, List.mem_singleton, List.mem_nil_iff,
            or_false] at he
          rcases he with (rfl | rfl | rfl | rfl) | he
          · exact hsafe0
          · exact hsafe1
          · exact hsafe2
          · exact hsafe3
          · exact h2safe e he
      · simp only [hxy, if_false]
        obtain ⟨s2, n2, evs, h2t, h2p, h2len, h2safe⟩ :=
          ih s n (i + 1)
            (log ++ [Event.sub s.total_count 1] ++ [Event.get i s.total_count]
              ++ [Event.get (i + 1) s.total_count])
            (by omega) (by omega)
        refine ⟨s2, n2, [Event.sub s.total_count 1, Event.get i s.total_count,
          Event.get (i + 1) s.total_count] ++ evs, ?_, h2p, h2len, ?_⟩
        · rw [h2t]; simp
        · intro e he
          simp only [List.mem_append, List.mem_cons, List.mem_singleton, List.mem_nil_iff,
            or_false] at he
          rcases he with (rfl | rfl | rfl) | he
          · exact hsafe0
          · exact hsafe1
          · exact hsafe2
          · exact h2safe e he
    · simp only [if_neg hc]
      have hi : i = s.total_count - 1 := by omega
      refine ⟨s, n, [Event.sub s.total_count 1], by rw [← hi], by rw [← hi], rfl, ?_⟩
      intro e he
      simp only [List.mem_singleton] at he
      rw [he]
      exact hsafe0

theorem sort_lawnmower.right_to_left_traced_spec (fuel : Nat) :
    ∀ (s : disk_state) (n i : Nat) (log : List Event), i < s.total_count → i < fuel →
      ∃ s1 n1 evs,
        sort_lawnmower.right_to_left_traced fuel s n i log = .ok (s1, n1, log ++ evs) ∧
        sort_lawnmower.right_to_left fuel s n i = .ok (s1, n1) ∧
        s1.total_count = s.total_count ∧ ∀ e ∈ evs, e.safe = true := by
  induction fuel with
  | zero => intro s n i log h1 h2; omega
  | succ fuel ih =>
    intro s n i log h1 h2
    rw [sort_lawnmower.right_to_left_traced, sort_lawnmower.right_to_left]
    by_cases hc : i > 1
    · have hsub : usub i 1 = i - 1 := usub_of_le (by omega)
      simp only [if_pos hc, hsub]
      have hsafe0 : (Event.sub i 1).safe = true := by
        simp [Event.safe]; omega
      have hsafe1 : (Event.get i s.total_count).safe = true := by
        simpa [Event.safe] using h1
      have hsafe2 : (Event.get (i - 1) s.total_count).safe = true := by
        simp [Event.safe]; omega
      have hsafe3 : (Event.swap (i - 1) s.total_count).safe = true := by
        simp [Event.safe]; omega
      obtain ⟨x, y, hx, hy, _, _, hswap⟩ := step_spec s (i - 1) (by omega)
      have hi : i - 1 + 1 = i := by omega
      rw [hi] at hy
      simp only [hx, hy]
      by_cases hxy : x.value = 1 ∧ y.value = 0
      · obtain ⟨s1, hs1, hsw⟩ := hswap hxy
        have hlen : s1.total_count = s.total_count := hsw.length_eq
        simp only [hxy, and_self, if_true, hs1]
        obtain ⟨s2, n2, evs, h2t, h2p, h2len, h2safe⟩ :=
          ih s1 (n + 1) (i - 1)
            (log ++ [Event.get i s.total_count]
              ++ [Event.sub i 1, Event.get (i - 1) s.total_count]
              ++ [Event.sub i 1, Event.swap (i - 1) s.total_count] ++ [Event.sub i 1])
            (by omega) (by omega)
        refine ⟨s2, n2, [Event.get i s.total_count, Event.sub i 1,
          Event.get (i - 1) s.total_count, Event.sub i 1,
          Event.swap (i - 1) s.total_count, Event.sub i 1] ++ evs, ?_, h2p, by omega, ?_⟩
        · rw [h2t]; simp
        · intro e he
          simp only [List.mem_append, List.mem_cons, List.mem_singleton, List.mem_nil_iff,
            or_false] at he
          rcases he with (rfl | rfl | rfl | rfl | rfl | rfl) | he
          · exact hsafe1
          · exact hsafe0
          · exact hsafe2
          · exact hsafe0
          · exact hsafe3
          · exact hsafe0
          · exact h2safe e he
      · simp only [hxy, if_false]
        obtain ⟨s2, n2, evs, h2t, h2p, h2len, h2safe⟩ :=
          ih s n (i - 1)
            (log ++ [Event.get i s.total_count]
              ++ [Event.sub i 1, Event.get (i - 1) s.total_count] ++ [Event.sub i 1])
            (by omega) (by omega)
        refine ⟨s2, n2, [Event.get i s.total_count, Event.sub i 1,
          Event.get (i - 1) s.total_count, Event.sub i 1] ++ evs, ?_, h2p, h2len, ?_⟩
        · rw [h2t]; simp
        · intro e he
          simp only [List.mem_append, List.mem_cons, List.mem_singleton, List.mem_nil_iff,
            or_false] at he
          rcases he with (rfl | rfl | rfl | rfl) | he
          · exact hsafe1
          · exact hsafe0
          · exact hsafe2
          · exact hsafe0
          · exact h2safe e he
    · simp only [if_neg hc]
      exact ⟨s, n, [], by simp, rfl, rfl, fun e he => by simp at he⟩

theorem sort_lawnmower.loop_traced_spec (passFuel : Nat) (fuel : Nat) :
    ∀ (s : disk_state) (n : Nat) (log : List Event), 0 < s.total_count →
      s.total_count < passFuel → inversions s._colors < fuel →
      ∃ s1 n1 evs,
        sort_lawnmower.loop_traced passFuel fuel s n log = .ok (s1, n1, log ++ evs) ∧
        sort_lawnmower.loop passFuel fuel s n = .ok (s1, n1) ∧
        ∀ e ∈ evs, e.safe = true := by
  induction fuel with
  | zero => intro s n log _ _ h; omega
  | succ fuel ih =>
    intro s n log hpos hfuel hinv
    obtain ⟨s1, n1, evs1, h1t, h1p, h1len, h1safe⟩ :=
      sort_lawnmower.left_to_right_traced_spec passFuel s n 0 log hpos (by omega)
    obtain ⟨s2, n2, evs2, h2t, h2p, h2len, h2safe⟩ :=
      sort_lawnmower.right_to_left_traced_spec passFuel s1 n1 (s.total_count - 1)
        (log ++ evs1) (by omega) (by omega)
    obtain ⟨s3, n3, h3, hn3, hsw, _⟩ := sort_lawnmower.sweep_spec passFuel s n hpos hfuel
    have hsweep : sort_lawnmower.sweep passFuel s n = .ok (s2, n2) := by
      simp only [sort_lawnmower.sweep, h1p, h2p]
    rw [hsweep] at h3
    injection h3 with h3
    injection h3 with hs hn
    subst hs hn
    simp only [sort_lawnmower.loop_traced, sort_lawnmower.loop, h1t, h2t, hsweep]
    by_cases hc : n = n2
    · simp only [if_pos hc]
      refine ⟨s2, n2, evs1 ++ evs2, by simp, rfl, ?_⟩
      intro e he
      rcases List.mem_append.mp he with he | he
      · exact h1safe e he
      · exact h2safe e he
    · simp only [if_neg hc]
      have hdec : inversions s2._colors < fuel := by
        have := hsw.2.1
        omega
      obtain ⟨s4, n4, evs4, h4t, h4p, h4safe⟩ :=
        ih s2 n2 (log ++ evs1 ++ evs2) (by omega) (by omega) hdec
      refine ⟨s4, n4, evs1 ++ evs2 ++ evs4, ?_, h4p, ?_⟩
      · rw [h4t]; simp
      · intro e he
        simp only [List.mem_append] at he
        rcases he with (he | he) | he
        · exact h1safe e he
        · exact h2safe e he
        · exact h4safe e he

/-- Claim C19.  For every input row of even length at least two, in any arrangement, both
algorithms (with a step budget above the square of the length) return, and every
operation of the run meets its precondition: every index passed to `get` is below
`total_count()`, every index `i` passed to `swap` has `i + 1 < total_count()`, no
`size_t` subtraction wraps below zero, and `loopCount` does not exceed
`total_count() / 2` when a pass of `sort_alternate` starts. -/
theorem C19_preconditions_hold (before : disk_state) (fuel : Nat)
    (heven : before.total_count % 2 = 0) (hlen : 2 ≤ before.total_count)
    (hfuel : before.total_count * before.total_count < fuel) :
    ∃ ra la rl ll,
      sort_alternate_traced fuel before = .ok (ra, la) ∧ sort_alternate fuel before = .ok ra ∧
      sort_lawnmower_traced fuel before = .ok (rl, ll) ∧ sort_lawnmower fuel before = .ok rl ∧
      (∀ e, e ∈ la ∨ e ∈ ll → e.safe = true) ∧
      (∀ i t, Event.get i t ∈ la ∨ Event.get i t ∈ ll → i < t) ∧
      (∀ i t, Event.swap i t ∈ la ∨ Event.swap i t ∈ ll → i + 1 < t) ∧
      (∀ a b, Event.sub a b ∈ la ∨ Event.sub a b ∈ ll → b ≤ a) ∧
      (∀ k t, Event.pass_start k t ∈ la → k ≤ t / 2) := by
  have hbig : before.total_count < fuel := by nlinarith
  have hinv : inversions before._colors < fuel := by
    have h1 := inversions_le_product before._colors
    have h2 := length_eq_counts before._colors
    have h3 : before._colors.length = before.total_count := rfl
    have h4 : before._colors.count DISK_DARK * before._colors.count DISK_LIGHT
        ≤ before.total_count * before.total_count :=
      Nat.mul_le_mul (by omega) (by omega)
    omega
  obtain ⟨sa, na, la, hat, hap, hasafe⟩ :=
    sort_alternate.outer_traced_spec fuel (before.total_count / 2) fuel before 0 0 []
      (by omega) (by omega) (Nat.zero_le _) (by omega) (by omega)
  obtain ⟨sl, nl, ll, hlt, hlp, hlsafe⟩ :=
    sort_lawnmower.loop_traced_spec fuel fuel before 0 [] (by omega) hbig hinv
  have hall : ∀ e, e ∈ la ∨ e ∈ ll → e.safe = true := by
    rintro e (he | he)
    · exact hasafe e he
    · exact hlsafe e he
  refine ⟨sorted_disks.ctor sa na, la, sorted_disks.ctor sl nl, ll, ?_, ?_, ?_, ?_, hall,
    ?_, ?_, ?_, ?_⟩
  · simp only [sort_alternate_traced, hat, List.nil_append]
  · simp only [sort_alternate, hap]
  · simp only [sort_lawnmower_traced, hlt, List.nil_append]
  · simp only [sort_lawnmower, hlp]
  · intro i t h
    simpa [Event.safe] using hall _ h
  · intro i t h
    simpa [Event.safe] using hall _ h
  · intro a b h
    simpa [Event.safe] using hall _ h
  · intro k t h
    simpa [Event.safe] using hall _ (Or.inl h)

/-- Witness for C19 at the row Dark Dark Light Light. -/
theorem C19_preconditions_hold_witness :
    ∃ ra la rl ll,
      sort_alternate_traced 17 ⟨[DISK_DARK, DISK_DARK, DISK_LIGHT, DISK_LIGHT]⟩
        = .ok (ra, la) ∧
      sort_alternate 17 ⟨[DISK_DARK, DISK_DARK, DISK_LIGHT, DISK_LIGHT]⟩ = .ok ra ∧
      sort_lawnmower_traced 17 ⟨[DISK_DARK, DISK_DARK, DISK_LIGHT, DISK_LIGHT]⟩
        = .ok (rl, ll) ∧
      sort_lawnmower 17 ⟨[DISK_DARK, DISK_DARK, DISK_LIGHT, DISK_LIGHT]⟩ = .ok rl ∧
      (∀ e, e ∈ la ∨ e ∈ ll → e.safe = true) ∧
      (∀ i t, Event.get i t ∈ la ∨ Event.get i t ∈ ll → i < t) ∧
      (∀ i t, Event.swap i t ∈ la ∨ Event.swap i t ∈ ll → i + 1 < t) ∧
      (∀ a b, Event.sub a b ∈ la ∨ Event.sub a b ∈ ll → b ≤ a) ∧
      (∀ k t, Event.pass_start k t ∈ la → k ≤ t / 2) :=
  C19_preconditions_hold ⟨[DISK_DARK, DISK_DARK, DISK_LIGHT, DISK_LIGHT]⟩ 17
    (by decide) (by decide) (by decide)

/-! ## The passes of `sort_alternate` on the alternating row, one by one -/

theorem after_pass_zero (N : Nat) : after_pass N 0 = alternating N := by
  simp [after_pass]

theorem after_pass_length (N k : Nat) (hk : k ≤ N) : (after_pass N k).length = 2 * N := by
  simp only [after_pass, List.length_append, List.length_replicate, alternating_length]
  omega

theorem after_pass_get_left (N k i : Nat) (h : i < k) :
    disk_state.get ⟨after_pass N k⟩ i = .ok DISK_LIGHT := by
  rw [disk_state.get_eq_ok_iff]
  show (after_pass N k)[i]? = some DISK_LIGHT
  unfold after_pass
  rw [List.getElem?_append_left (by simpa using h)]
  simp [List.getElem?_replicate, h]

theorem after_pass_get_right (N k i : Nat) (hk : k ≤ N) (h1 : 2 * N - k ≤ i)
    (h2 : i < 2 * N) : disk_state.get ⟨after_pass N k⟩ i = .ok DISK_DARK := by
  rw [disk_state.get_eq_ok_iff]
  show (after_pass N k)[i]? = some DISK_DARK
  unfold after_pass
  have hl : (List.replicate k DISK_LIGHT ++ alternating (N - k)).length = 2 * N - k := by
    rw [List.length_append, List.length_replicate, alternating_length]
    omega
  rw [← List.append_assoc, List.getElem?_append_right (by rw [hl]; exact h1)]
  have : i - (List.replicate k DISK_LIGHT ++ alternating (N - k)).length < k := by
    rw [hl]; omega
  rw [List.getElem?_replicate, if_pos this]

theorem sort_alternate.pass_after (N k fuel n : Nat) (hk : k ≤ N) (hfuel : N < fuel) :
    sort_alternate.pass fuel ⟨after_pass N (k - 1)⟩ n k 0
      = .ok (⟨after_pass N k⟩, n + (if k = 0 then 0 else N - k)) := by
  cases k with
  | zero =>
    have h := sort_alternate.pass_alternating N fuel [] [] n 0 0 rfl rfl hfuel
    simpa [after_pass] using h
  | succ j =>
    obtain ⟨m, hm⟩ : ∃ m, N - j = m + 1 := ⟨N - j - 1, by omega⟩
    have hm2 : N - (j + 1) = m := by omega
    have h := sort_alternate.pass_dark_light m fuel (List.replicate (j + 1) DISK_LIGHT)
      (List.replicate (j + 1) DISK_DARK) n (j + 1) 0 (by simp) (by simp) (by omega)
    simp only [Nat.add_sub_cancel, after_pass, hm, hm2, alternating_window j m]
    rw [h]
    simp

theorem sort_alternate.reach_pass (N fuel : Nat) (hfuel : N < fuel) (k : Nat) :
    k ≤ N → ∀ outer, sort_alternate.loop fuel (outer + k) ⟨alternating N⟩ 0 0
      = sort_alternate.loop fuel outer ⟨after_pass N (k - 1)⟩ (swaps_before N k) k := by
  induction k with
  | zero =>
    intro _ outer
    simp [after_pass_zero, swaps_before]
  | succ k ih =>
    intro hk outer
    have h1 := ih (by omega) (outer + 1)
    have e : outer + (k + 1) = outer + 1 + k := by omega
    rw [e, h1]
    simp only [sort_alternate.loop,
      sort_alternate.pass_after N k fuel (swaps_before N k) (by omega) hfuel,
      Nat.add_sub_cancel, swaps_before]
    have hc : ¬ (swaps_before N k = swaps_before N k + (if k = 0 then 0 else N - k)
        ∧ k ≠ 0) := by
      rintro ⟨h1, h2⟩
      rw [if_neg h2] at h1
      omega
    rw [if_neg hc]

theorem sort_alternate.state_before_pass_canonical (N fuel : Nat) (hfuel : N < fuel)
    (k : Nat) : k ≤ N →
      sort_alternate.state_before_pass fuel ⟨alternating N⟩ k
        = .ok (⟨after_pass N (k - 1)⟩, swaps_before N k) := by
  induction k with
  | zero =>
    intro _
    simp [sort_alternate.state_before_pass, after_pass_zero, swaps_before]
  | succ k ih =>
    intro hk
    simp only [sort_alternate.state_before_pass, ih (by omega),
      sort_alternate.pass_after N k fuel (swaps_before N k) (by omega) hfuel,
      Nat.add_sub_cancel, swaps_before]

theorem alternating_get_pair (m : Nat) :
    ∀ j, j < m → disk_state.get ⟨alternating m⟩ (2 * j) = .ok DISK_LIGHT ∧
      disk_state.get ⟨alternating m⟩ (2 * j + 1) = .ok DISK_DARK := by
  induction m with
  | zero => intro j h; omega
  | succ m ih =>
    intro j h
    rw [disk_state.get_eq_ok_iff, disk_state.get_eq_ok_iff]
    cases j with
    | zero => simp [alternating]
    | succ j =>
      obtain ⟨h1, h2⟩ := ih j (by omega)
      rw [disk_state.get_eq_ok_iff] at h1 h2
      have e1 : 2 * (j + 1) = 2 * j + 1 + 1 := by omega
      rw [e1]
      constructor
      · show (DISK_LIGHT :: DISK_DARK :: alternating m)[2 * j + 1 + 1]? = some DISK_LIGHT
        rw [List.getElem?_cons_succ, List.getElem?_cons_succ]
        exact h1
      · show (DISK_LIGHT :: DISK_DARK :: alternating m)[2 * j + 1 + 1 + 1]? = some DISK_DARK
        rw [List.getElem?_cons_succ, List.getElem?_cons_succ]
        exact h2

theorem umul_two_le (N : Nat) : umul N 2 ≤ 2 * N := by
  have := Nat.mod_le (N * 2) SIZE_MODULUS
  simp only [umul]
  omega

theorem range'_eq_pairs (m : Nat) :
    ∀ p, List.range' p (2 * m)
      = ((List.range m).map (fun j => [p + 2 * j, p + 2 * j + 1])).flatten := by
  induction m with
  | zero => intro p; rfl
  | succ m ih =>
    intro p
    have e : 2 * (m + 1) = 2 * m + 1 + 1 := by omega
    rw [e, List.range'_succ, List.range'_succ, List.range_succ_eq_map, List.map_cons,
      List.flatten_cons, List.map_map]
    have hfun : ((fun j => [p + 2 * j, p + 2 * j + 1]) ∘ Nat.succ)
        = fun j => [p + 1 + 1 + 2 * j, p + 1 + 1 + 2 * j + 1] := by
      funext j
      simp only [Function.comp_apply, Nat.succ_eq_add_one]
      have e1 : p + 2 * (j + 1) = p + 1 + 1 + 2 * j := by omega
      rw [e1]
    rw [hfun, ← ih (p + 1 + 1)]
    simp

/-- Counterexample to C16 as stated: for `N = 2 ^ 63` the `size_t` product
`light_count * 2` wraps to `0` and the constructor returns the empty row; pass `0` of
`sort_alternate` runs on it, and pass `1`, which is executed next, does not complete: the
subtraction `total_count() - loopCount` wraps and `get` fails its assertion. -/
theorem C16_counterexample :
    1 ≤ 9223372036854775808 ∧ 9223372036854775808 = 2 ^ 63 ∧
    disk_state.ctor 9223372036854775808 = .ok ⟨[]⟩ ∧
    sort_alternate.state_before_pass 5 ⟨[]⟩ 1 = .ok (⟨[]⟩, 0) ∧
    usub (disk_state.total_count ⟨[]⟩) 1 = 18446744073709551615 ∧
    sort_alternate.pass 5 ⟨[]⟩ 0 1 0 = .error .assert_failed ∧
    sort_alternate 5 ⟨[]⟩ = .error .assert_failed := by
  decide

/-- Claim C16, amended.  For every `N` with `1 ≤ N < 2 ^ 63` (so that `light_count * 2`
does not wrap), in `sort_alternate` on the alternating row returned by the constructor
every pass index `k` with `0 ≤ k ≤ N` is executed (the loop has not exited after `k`
passes, and pass `N` is the last one).  Pass `k` starts on the row of `k - 1` light disks,
the alternating row, `k - 1` dark disks, with the counter at `swaps_before N k`; it calls
`get` on exactly the pairs `(p, p+1)` for `p = k, k+2, ...` with `p < 2N - k`, in this
order, and when it completes the indices `0 .. k-1` hold light disks and the indices
`2N-k .. 2N-1` hold dark disks. -/
theorem C16_pass_window_and_outer_disks_amended (N fuel k : Nat) (hN : 1 ≤ N)
    (hfit : N < 2 ^ 63) (hk : k ≤ N) (hfuel : 2 * N < fuel) :
    ∃ before, disk_state.ctor N = .ok before ∧ before.total_count = 2 * N ∧
      sort_alternate.state_before_pass fuel before k
        = .ok (⟨after_pass N (k - 1)⟩, swaps_before N k) ∧
      sort_alternate.loop fuel k before 0 0 = .error .out_of_fuel ∧
      (∀ outer, sort_alternate.loop fuel (outer + k) before 0 0
        = sort_alternate.loop fuel outer ⟨after_pass N (k - 1)⟩ (swaps_before N k) k) ∧
      ∃ evs,
        sort_alternate.pass_traced fuel ⟨after_pass N (k - 1)⟩ (swaps_before N k) k 0 []
          = .ok (⟨after_pass N k⟩, swaps_before N (k + 1), evs) ∧
        sort_alternate.pass fuel ⟨after_pass N (k - 1)⟩ (swaps_before N k) k 0
          = .ok (⟨after_pass N k⟩, swaps_before N (k + 1)) ∧
        evs.filterMap Event.get_index
          = ((List.range (N - k)).map (fun j => [k + 2 * j, k + 2 * j + 1])).flatten ∧
        (∀ i, i < k → disk_state.get ⟨after_pass N k⟩ i = .ok DISK_LIGHT) ∧
        (∀ i, 2 * N - k ≤ i → i < 2 * N →
          disk_state.get ⟨after_pass N k⟩ i = .ok DISK_DARK) ∧
        (k < N → ∀ outer,
          sort_alternate.loop fuel (outer + 1) ⟨after_pass N (k - 1)⟩ (swaps_before N k) k
            = sort_alternate.loop fuel outer ⟨after_pass N k⟩ (swaps_before N (k + 1))
                (k + 1)) ∧
        (k = N → ∀ outer,
          sort_alternate.loop fuel (outer + 1) ⟨after_pass N (k - 1)⟩ (swaps_before N k) k
            = .ok (⟨after_pass N k⟩, swaps_before N (k + 1))) := by
  have hreach := sort_alternate.reach_pass N fuel (by omega) k hk
  have hlen : disk_state.total_count ⟨after_pass N (k - 1)⟩ = 2 * N :=
    after_pass_length N (k - 1) (by omega)
  obtain ⟨s1, n1, evs, ht, hp, _, _, hidx⟩ :=
    sort_alternate.pass_traced_spec fuel ⟨after_pass N (k - 1)⟩ (swaps_before N k) k 0 []
      (by rw [hlen]; omega) (by rw [hlen]; omega) (by rw [hlen]; omega)
  have hpass := sort_alternate.pass_after N k fuel (swaps_before N k) hk (by omega)
  have hnext : swaps_before N k + (if k = 0 then 0 else N - k) = swaps_before N (k + 1) :=
    rfl
  rw [hnext] at hpass
  rw [hpass] at hp
  injection hp with hp
  injection hp with hs hn
  subst hs hn
  have hcount : 2 * ((2 * N - k - (0 + k) + 1) / 2) = 2 * (N - k) := by omega
  rw [hlen, hcount, Nat.zero_add, range'_eq_pairs] at hidx
  have hstop : sort_alternate.loop fuel k ⟨alternating N⟩ 0 0 = .error .out_of_fuel := by
    have h0 := hreach 0
    rw [Nat.zero_add] at h0
    rw [h0]
    rfl
  refine ⟨⟨alternating N⟩, disk_state.ctor_eq N hN hfit, alternating_length N,
    sort_alternate.state_before_pass_canonical N fuel (by omega) k hk, hstop, hreach,
    evs, by simpa using ht, hpass, hidx,
    fun i hi => after_pass_get_left N k i hi,
    fun i h1 h2 => after_pass_get_right N k i hk h1 h2, ?_, ?_⟩
  · intro hlt outer
    simp only [sort_alternate.loop, hpass]
    have hc : ¬ (swaps_before N k = swaps_before N (k + 1) ∧ k ≠ 0) := by
      rintro ⟨h1, h2⟩
      rw [← hnext, if_neg h2] at h1
      omega
    rw [if_neg hc]
  · intro heq outer
    simp only [sort_alternate.loop, hpass]
    have hc : swaps_before N k = swaps_before N (k + 1) ∧ k ≠ 0 := by
      have hk0 : k ≠ 0 := by omega
      rw [← hnext, if_neg hk0]
      exact ⟨by omega, hk0⟩
    rw [if_pos hc]

/-- Witness for the amended C16 at `N = 2` and the pass with `loopCount = 1`, which scans
the pair `(1, 2)`. -/
theorem C16_pass_window_and_outer_disks_amended_witness :
    ∃ before, disk_state.ctor 2 = .ok before ∧ before.total_count = 2 * 2 ∧
      sort_alternate.state_before_pass 5 before 1
        = .ok (⟨after_pass 2 (1 - 1)⟩, swaps_before 2 1) ∧
      sort_alternate.loop 5 1 before 0 0 = .error .out_of_fuel ∧
      (∀ outer, sort_alternate.loop 5 (outer + 1) before 0 0
        = sort_alternate.loop 5 outer ⟨after_pass 2 (1 - 1)⟩ (swaps_before 2 1) 1) ∧
      ∃ evs,
        sort_alternate.pass_traced 5 ⟨after_pass 2 (1 - 1)⟩ (swaps_before 2 1) 1 0 []
          = .ok (⟨after_pass 2 1⟩, swaps_before 2 (1 + 1), evs) ∧
        sort_alternate.pass 5 ⟨after_pass 2 (1 - 1)⟩ (swaps_before 2 1) 1 0
          = .ok (⟨after_pass 2 1⟩, swaps_before 2 (1 + 1)) ∧
        evs.filterMap Event.get_index
          = ((List.range (2 - 1)).map (fun j => [1 + 2 * j, 1 + 2 * j + 1])).flatten ∧
        (∀ i, i < 1 → disk_state.get ⟨after_pass 2 1⟩ i = .ok DISK_LIGHT) ∧
        (∀ i, 2 * 2 - 1 ≤ i → i < 2 * 2 →
          disk_state.get ⟨after_pass 2 1⟩ i = .ok DISK_DARK) ∧
        (1 < 2 → ∀ outer,
          sort_alternate.loop 5 (outer + 1) ⟨after_pass 2 (1 - 1)⟩ (swaps_before 2 1) 1
            = sort_alternate.loop 5 outer ⟨after_pass 2 1⟩ (swaps_before 2 (1 + 1))
                (1 + 1)) ∧
        (1 = 2 → ∀ outer,
          sort_alternate.loop 5 (outer + 1) ⟨after_pass 2 (1 - 1)⟩ (swaps_before 2 1) 1
            = .ok (⟨after_pass 2 1⟩, swaps_before 2 (1 + 1))) :=
  C16_pass_window_and_outer_disks_amended 2 5 1 (by decide) (by decide) (by decide)
    (by decide)

/-- Claim C17, amended.  For every `N ≥ 1`, on the row returned by the constructor the
first pass of `sort_alternate` (the pass with `loopCount = 0`) compares the pairs
`(0, 1), (2, 3), ...` up to the end of the row, which all hold a light disk followed by a
dark one, performs no swap and leaves the row unchanged; the outer loop then goes on to
the pass with `loopCount = 1` (its exit test requires `loopCount != 0`).  For
`N < 2 ^ 63`, where `light_count * 2` does not wrap, the row has `2 * N` disks and that
second pass performs `N - 1` swaps. -/
theorem C17_first_pass_amended (N fuel : Nat) (hN : 1 ≤ N) (hfuel : 2 * N < fuel) :
    ∃ before, disk_state.ctor N = .ok before ∧
      (∀ n, sort_alternate.pass fuel before n 0 0 = .ok (before, n)) ∧
      (∀ n, ∃ evs, sort_alternate.pass_traced fuel before n 0 0 [] = .ok (before, n, evs) ∧
        evs.filterMap Event.get_index
          = ((List.range (before.total_count / 2)).map
              (fun j => [2 * j, 2 * j + 1])).flatten) ∧
      (∀ j, j < before.total_count / 2 →
        before.get (2 * j) = .ok DISK_LIGHT ∧ before.get (2 * j + 1) = .ok DISK_DARK) ∧
      (∀ outer n, sort_alternate.loop fuel (outer + 1) before n 0
        = sort_alternate.loop fuel outer before n 1) ∧
      (N < 2 ^ 63 → before.total_count = 2 * N ∧
        ∀ n, ∃ row, sort_alternate.pass fuel before n 1 0 = .ok (row, n + (N - 1))) := by
  have hm : umul N 2 / 2 * 2 ≤ 2 * N := by
    have := umul_two_le N
    omega
  have hlen : disk_state.total_count ⟨alternating (umul N 2 / 2)⟩ = 2 * (umul N 2 / 2) :=
    alternating_length _
  have hhalf : disk_state.total_count ⟨alternating (umul N 2 / 2)⟩ / 2 = umul N 2 / 2 := by
    rw [hlen]
    omega
  have hpass : ∀ n, sort_alternate.pass fuel ⟨alternating (umul N 2 / 2)⟩ n 0 0
      = .ok (⟨alternating (umul N 2 / 2)⟩, n) := by
    intro n
    have h := sort_alternate.pass_alternating (umul N 2 / 2) fuel [] [] n 0 0 rfl rfl
      (by omega)
    simpa using h
  refine ⟨⟨alternating (umul N 2 / 2)⟩, disk_state.ctor_wrapped N hN, hpass, ?_, ?_, ?_, ?_⟩
  · intro n
    obtain ⟨s1, n1, evs, ht, hp, _, _, hidx⟩ :=
      sort_alternate.pass_traced_spec fuel ⟨alternating (umul N 2 / 2)⟩ n 0 0 []
        (Nat.zero_le _) (Or.inr ⟨rfl, by rw [hlen]; omega⟩) (by rw [hlen]; omega)
    rw [hpass n] at hp
    injection hp with hp
    injection hp with hs hn
    subst hs hn
    have hcount : 2 * ((2 * (umul N 2 / 2) - 0 - (0 + 0) + 1) / 2)
        = 2 * (umul N 2 / 2) := by omega
    rw [hlen, hcount, range'_eq_pairs] at hidx
    refine ⟨evs, by simpa using ht, ?_⟩
    rw [hhalf, hidx]
    simp
  · intro j hj
    rw [hhalf] at hj
    exact alternating_get_pair _ j hj
  · intro outer n
    simp [sort_alternate.loop, hpass]
  · intro hfit
    have hmN : umul N 2 / 2 = N := by
      rw [umul_two_of_lt N hfit]
      omega
    rw [hmN]
    refine ⟨alternating_length N, fun n => ?_⟩
    obtain ⟨m, rfl⟩ : ∃ m, N = m + 1 := ⟨N - 1, by omega⟩
    have h := sort_alternate.pass_dark_light m fuel [DISK_LIGHT] [DISK_DARK] n 1 0 rfl rfl
      (by omega)
    rw [alternating_succ_eq]
    exact ⟨_, h⟩

/-- Witness for the amended C17 at `N = 2`. -/
theorem C17_first_pass_amended_witness :
    ∃ before, disk_state.ctor 2 = .ok before ∧
      (∀ n, sort_alternate.pass 5 before n 0 0 = .ok (before, n)) ∧
      (∀ n, ∃ evs, sort_alternate.pass_traced 5 before n 0 0 [] = .ok (before, n, evs) ∧
        evs.filterMap Event.get_index
          = ((List.range (before.total_count / 2)).map
              (fun j => [2 * j, 2 * j + 1])).flatten) ∧
      (∀ j, j < before.total_count / 2 →
        before.get (2 * j) = .ok DISK_LIGHT ∧ before.get (2 * j + 1) = .ok DISK_DARK) ∧
      (∀ outer n, sort_alternate.loop 5 (outer + 1) before n 0
        = sort_alternate.loop 5 outer before n 1) ∧
      (2 < 2 ^ 63 → before.total_count = 2 * 2 ∧
        ∀ n, ∃ row, sort_alternate.pass 5 before n 1 0 = .ok (row, n + (2 - 1))) :=
  C17_first_pass_amended 2 5 (by decide) (by decide)

/-! ## Progress of the outer loops -/

theorem sort_lawnmower.sweep_progress (passFuel : Nat) (s : disk_state) (n : Nat)
    (hpos : 0 < s.total_count) (hfuel : s.total_count < passFuel) :
    ∃ s1 n1, sort_lawnmower.sweep passFuel s n = .ok (s1, n1) ∧
      s1.total_count = s.total_count ∧
      ((n1 = n ∧ ∀ outer, sort_lawnmower.loop passFuel (outer + 1) s n = .ok (s1, n1)) ∨
       (n < n1 ∧ inversions s1._colors < inversions s._colors ∧
        ∀ outer, sort_lawnmower.loop passFuel (outer + 1) s n
          = sort_lawnmower.loop passFuel outer s1 n1)) := by
  obtain ⟨s1, n1, h1, hn1, hsw, _⟩ := sort_lawnmower.sweep_spec passFuel s n hpos hfuel
  refine ⟨s1, n1, h1, hsw.length_eq, ?_⟩
  by_cases hc : n = n1
  · left
    refine ⟨hc.symm, fun outer => ?_⟩
    simp only [sort_lawnmower.loop, h1, if_pos hc]
  · right
    have h0 := hsw.2.1
    refine ⟨by omega, by omega, fun outer => ?_⟩
    simp only [sort_lawnmower.loop, h1, if_neg hc]

theorem sort_alternate.pass_progress (passFuel N : Nat) (s : disk_state) (n k : Nat)
    (hlen : s.total_count = 2 * N) (hN : 1 ≤ N) (hk : k ≤ N) (hfuel : 2 * N < passFuel) :
    ∃ s1 n1, sort_alternate.pass passFuel s n k 0 = .ok (s1, n1) ∧
      s1.total_count = s.total_count ∧
      (k = 0 → ∀ outer, sort_alternate.loop passFuel (outer + 1) s n k
        = sort_alternate.loop passFuel outer s1 n1 1) ∧
      (k ≠ 0 →
        (n1 = n ∧ ∀ outer, sort_alternate.loop passFuel (outer + 1) s n k = .ok (s1, n1)) ∨
        (n < n1 ∧ inversions s1._colors < inversions s._colors ∧ k < N ∧
          ∀ outer, sort_alternate.loop passFuel (outer + 1) s n k
            = sort_alternate.loop passFuel outer s1 n1 (k + 1))) := by
  obtain ⟨s1, n1, h1, hn1, hsw⟩ :=
    sort_alternate.pass_spec passFuel s n k 0 (by omega) (by omega) (by omega)
  refine ⟨s1, n1, h1, hsw.length_eq, ?_, ?_⟩
  · intro hk0 outer
    subst hk0
    simp [sort_alternate.loop, h1]
  · intro hk0
    by_cases hc : n = n1
    · left
      refine ⟨hc.symm, fun outer => ?_⟩
      simp only [sort_alternate.loop, h1]
      rw [if_pos ⟨hc, hk0⟩]
    · right
      have h0 := hsw.2.1
      have hlt : k < N := by
        by_contra hge
        have hkN : k = N := by omega
        obtain ⟨pf, rfl⟩ : ∃ pf, passFuel = pf + 1 := ⟨passFuel - 1, by omega⟩
        rw [sort_alternate.pass_empty_window pf s n k (by omega) (by omega)] at h1
        injection h1 with h1
        injection h1 with _ h1
        exact hc h1
      refine ⟨by omega, by omega, hlt, fun outer => ?_⟩
      simp only [sort_alternate.loop, h1]
      rw [if_neg (fun h => hc h.1)]

/-- Counterexample to C14 as stated: on the row Light Dark the first pass of
`sort_alternate` performs no swap, and the loop does not exit after it: one iteration of
the outer loop is not enough, the loop exits after the second pass. -/
theorem C14_counterexample :
    sort_alternate.pass 5 ⟨[DISK_LIGHT, DISK_DARK]⟩ 0 0 0
      = .ok (⟨[DISK_LIGHT, DISK_DARK]⟩, 0) ∧
    sort_alternate.loop 5 1 ⟨[DISK_LIGHT, DISK_DARK]⟩ 0 0 = .error .out_of_fuel ∧
    sort_alternate.loop 5 2 ⟨[DISK_LIGHT, DISK_DARK]⟩ 0 0
      = .ok (⟨[DISK_LIGHT, DISK_DARK]⟩, 0) := by
  decide

/-- Claim C14, amended.  For every input row of even length at least two, in any
arrangement, both algorithms terminate: the outer loop of `sort_alternate` exits within
`total_count() / 2 + 1` passes and the outer loop of `sort_lawnmower` within one sweep more
than the row has dark-before-light pairs, so both functions return for every step budget
above the square of the length.  Every sweep of `sort_lawnmower`, and every pass of
`sort_alternate` after the first, either performs a swap, which strictly decreases the
number of dark-before-light pairs, or is followed by the loop exit; the first pass of
`sort_alternate` (`loopCount = 0`) is followed by a second pass in any case. -/
theorem C14_termination_amended (before : disk_state)
    (heven : before.total_count % 2 = 0) (hlen : 2 ≤ before.total_count) :
    (∀ passFuel, before.total_count < passFuel →
      (∃ r, sort_alternate.loop passFuel (before.total_count / 2 + 1) before 0 0 = .ok r) ∧
      (∃ r, sort_lawnmower.loop passFuel (inversions before._colors + 1) before 0 = .ok r)) ∧
    (∀ fuel, before.total_count * before.total_count < fuel →
      (∃ ra, sort_alternate fuel before = .ok ra) ∧
      (∃ rl, sort_lawnmower fuel before = .ok rl)) ∧
    (∀ passFuel s n, s.total_count = before.total_count → before.total_count < passFuel →
      ∃ s1 n1, sort_lawnmower.sweep passFuel s n = .ok (s1, n1) ∧
        s1.total_count = s.total_count ∧
        ((n1 = n ∧ ∀ outer, sort_lawnmower.loop passFuel (outer + 1) s n = .ok (s1, n1)) ∨
         (n < n1 ∧ inversions s1._colors < inversions s._colors ∧
          ∀ outer, sort_lawnmower.loop passFuel (outer + 1) s n
            = sort_lawnmower.loop passFuel outer s1 n1))) ∧
    (∀ passFuel s n k, s.total_count = before.total_count → before.total_count < passFuel →
      k ≤ before.total_count / 2 →
      ∃ s1 n1, sort_alternate.pass passFuel s n k 0 = .ok (s1, n1) ∧
        s1.total_count = s.total_count ∧
        (k = 0 → ∀ outer, sort_alternate.loop passFuel (outer + 1) s n k
          = sort_alternate.loop passFuel outer s1 n1 1) ∧
        (k ≠ 0 →
          (n1 = n ∧
            ∀ outer, sort_alternate.loop passFuel (outer + 1) s n k = .ok (s1, n1)) ∨
          (n < n1 ∧ inversions s1._colors < inversions s._colors ∧
            k < before.total_count / 2 ∧
            ∀ outer, sort_alternate.loop passFuel (outer + 1) s n k
              = sort_alternate.loop passFuel outer s1 n1 (k + 1)))) := by
  have h2N : before.total_count = 2 * (before.total_count / 2) := by omega
  have hinv : inversions before._colors < before.total_count * before.total_count := by
    have h1 := inversions_le_product before._colors
    have h2 := length_eq_counts before._colors
    have h3 : before._colors.length = before.total_count := rfl
    have h4 : before._colors.count DISK_DARK * before._colors.count DISK_LIGHT
        ≤ before.total_count * before.total_count :=
      Nat.mul_le_mul (by omega) (by omega)
    by_contra hge
    have hEq : before._colors.count DISK_DARK * before._colors.count DISK_LIGHT
        = before.total_count * before.total_count := by omega
    have hd : before._colors.count DISK_DARK ≤ before.total_count := by omega
    have hl : before._colors.count DISK_LIGHT ≤ before.total_count := by omega
    nlinarith
  refine ⟨fun passFuel hpf => ⟨?_, ?_⟩, fun fuel hfuel => ⟨?_, ?_⟩, ?_, ?_⟩
  · obtain ⟨s1, n1, h, _⟩ := sort_alternate.loop_rearranges passFuel (before.total_count / 2)
      (before.total_count / 2 + 1) before 0 0 h2N (by omega) (Nat.zero_le _) (by omega)
      (by omega)
    exact ⟨_, h⟩
  · obtain ⟨s1, n1, h, _⟩ := sort_lawnmower.loop_spec passFuel
      (inversions before._colors + 1) before 0 (by omega) hpf (by omega)
    exact ⟨_, h⟩
  · obtain ⟨s1, n1, h, _⟩ := sort_alternate_spec fuel (before.total_count / 2) before h2N
      (by omega) (by nlinarith)
    exact ⟨_, h⟩
  · obtain ⟨s1, n1, h, _⟩ := sort_lawnmower_spec fuel before (by omega) (by nlinarith)
      (by omega)
    exact ⟨_, h⟩
  · intro passFuel s n hs hpf
    exact sort_lawnmower.sweep_progress passFuel s n (by omega) (by omega)
  · intro passFuel s n k hs hpf hk
    exact sort_alternate.pass_progress passFuel (before.total_count / 2) s n k (by omega)
      (by omega) hk (by omega)

/-- Witness for the amended C14 at the row Dark Dark Light Light. -/
theorem C14_termination_amended_witness :
    (∃ r, sort_alternate.loop 5 (4 / 2 + 1)
      ⟨[DISK_DARK, DISK_DARK, DISK_LIGHT, DISK_LIGHT]⟩ 0 0 = .ok r) ∧
    (∃ ra, sort_alternate 17 ⟨[DISK_DARK, DISK_DARK, DISK_LIGHT, DISK_LIGHT]⟩ = .ok ra) ∧
    (∃ rl, sort_lawnmower 17 ⟨[DISK_DARK, DISK_DARK, DISK_LIGHT, DISK_LIGHT]⟩ = .ok rl) :=
  have h := C14_termination_amended ⟨[DISK_DARK, DISK_DARK, DISK_LIGHT, DISK_LIGHT]⟩
    (by decide) (by decide)
  ⟨(h.1 5 (by decide)).1, (h.2.1 17 (by decide)).1, (h.2.1 17 (by decide)).2⟩

/-! ## The recording loops return what the plain loops return, on every input -/

theorem sort_alternate.pass_traced_erase (fuel : Nat) :
    ∀ (s : disk_state) (n k c : Nat) (log : List Event),
      (sort_alternate.pass_traced fuel s n k c log).map (fun r => (r.1, r.2.1))
        = sort_alternate.pass fuel s n k c := by
  induction fuel with
  | zero => intro s n k c log; rfl
  | succ fuel ih =>
    intro s n k c log
    rw [sort_alternate.pass_traced, sort_alternate.pass]
    by_cases hc : c + k < usub s.total_count k
    · simp only [if_pos hc]
      cases s.get (c + k) with
      | error e => rfl
      | ok x =>
        cases s.get (c + k + 1) with
        | error e => rfl
        | ok y =>
          by_cases hxy : x.value = 1 ∧ y.value = 0
          · simp only [if_pos hxy]
            cases s.swap (c + k) with
            | error e => rfl
            | ok s1 => exact ih _ _ _ _ _
          · simp only [if_neg hxy]
            exact ih _ _ _ _ _
    · simp only [if_neg hc]
      rfl

theorem sort_alternate.outer_traced_erase (passFuel : Nat) (fuel : Nat) :
    ∀ (s : disk_state) (n k : Nat) (log : List Event),
      (sort_alternate.loop_traced passFuel fuel s n k log).map (fun r => (r.1, r.2.1))
        = sort_alternate.loop passFuel fuel s n k := by
  induction fuel with
  | zero => intro s n k log; rfl
  | succ fuel ih =>
    intro s n k log
    rw [sort_alternate.loop_traced, sort_alternate.loop,
      ← sort_alternate.pass_traced_erase passFuel s n k 0
        (log ++ [Event.pass_start k s.total_count])]
    cases sort_alternate.pass_traced passFuel s n k 0
        (log ++ [Event.pass_start k s.total_count]) with
    | error e => rfl
    | ok r =>
      obtain ⟨s1, n1, log1⟩ := r
      simp only [Except.map]
      by_cases hc : n = n1 ∧ k ≠ 0
      · simp only [if_pos hc]
      · simp only [if_neg hc]
        exact ih _ _ _ _

theorem sort_alternate_traced_erase (fuel : Nat) (before : disk_state) :
    (sort_alternate_traced fuel before).map (fun r => r.1) = sort_alternate fuel before := by
  rw [sort_alternate_traced, sort_alternate,
    ← sort_alternate.outer_traced_erase fuel fuel before 0 0 []]
  cases sort_alternate.loop_traced fuel fuel before 0 0 [] with
  | error e => rfl
  | ok r => rfl

theorem sort_lawnmower.left_to_right_traced_erase (fuel : Nat) :
    ∀ (s : disk_state) (n i : Nat) (log : List Event),
      (sort_lawnmower.left_to_right_traced fuel s n i log).map
          (fun r => (r.1, r.2.1, r.2.2.1))
        = sort_lawnmower.left_to_right fuel s n i := by
  induction fuel with
  | zero => intro s n i log; rfl
  | succ fuel ih =>
    intro s n i log
    rw [sort_lawnmower.left_to_right_traced, sort_lawnmower.left_to_right]
    by_cases hc : i < usub s.total_count 1
    · simp only [if_pos hc]
      cases s.get i with
      | error e => rfl
      | ok x =>
        cases s.get (i + 1) with
        | error e => rfl
        | ok y =>
          by_cases hxy : x.value = 1 ∧ y.value = 0
          · simp only [if_pos hxy]
            cases s.swap i with
            | error e => rfl
            | ok s1 => exact ih _ _ _ _
          · simp only [if_neg hxy]
            exact ih _ _ _ _
    · simp only [if_neg hc]
      rfl

theorem sort_lawnmower.right_to_left_traced_erase (fuel : Nat) :
    ∀ (s : disk_state) (n i : Nat) (log : List Event),
      (sort_lawnmower.right_to_left_traced fuel s n i log).map (fun r => (r.1, r.2.1))
        = sort_lawnmower.right_to_left fuel s n i := by
  induction fuel with
  | zero => intro s n i log; rfl
  | succ fuel ih =>
    intro s n i log
    rw [sort_lawnmower.right_to_left_traced, sort_lawnmower.right_to_left]
    by_cases hc : i > 1
    · simp only [if_pos hc]
      cases s.get i with
      | error e => rfl
      | ok y =>
        cases s.get (usub i 1) with
        | error e => rfl
        | ok x =>
          by_cases hxy : x.value = 1 ∧ y.value = 0
          · simp only [if_pos hxy]
            cases s.swap (usub i 1) with
            | error e => rfl
            | ok s1 => exact ih _ _ _ _
          · simp only [if_neg hxy]
            exact ih _ _ _ _
    · simp only [if_neg hc]
      rfl

theorem sort_lawnmower.loop_traced_erase (passFuel : Nat) (fuel : Nat) :
    ∀ (s : disk_state) (n : Nat) (log : List Event),
      (sort_lawnmower.loop_traced passFuel fuel s n log).map (fun r => (r.1, r.2.1))
        = sort_lawnmower.loop passFuel fuel s n := by
  induction fuel with
  | zero => intro s n log; rfl
  | succ fuel ih =>
    intro s n log
    rw [sort_lawnmower.loop_traced, sort_lawnmower.loop, sort_lawnmower.sweep,
      ← sort_lawnmower.left_to_right_traced_erase passFuel s n 0 log]
    cases sort_lawnmower.left_to_right_traced passFuel s n 0 log with
    | error e => rfl
    | ok r =>
      obtain ⟨s1, n1, i1, log1⟩ := r
      simp only [Except.map]
      rw [← sort_lawnmower.right_to_left_traced_erase passFuel s1 n1 i1 log1]
      cases sort_lawnmower.right_to_left_traced passFuel s1 n1 i1 log1 with
      | error e => rfl
      | ok r2 =>
        obtain ⟨s2, n2, log2⟩ := r2
        simp only [Except.map]
        by_cases hc : n = n2
        · simp only [if_pos hc]
        · simp only [if_neg hc]
          exact ih _ _ _

theorem sort_lawnmower_traced_erase (fuel : Nat) (before : disk_state) :
    (sort_lawnmower_traced fuel before).map (fun r => r.1) = sort_lawnmower fuel before := by
  rw [sort_lawnmower_traced, sort_lawnmower,
    ← sort_lawnmower.loop_traced_erase fuel fuel before 0 []]
  cases sort_lawnmower.loop_traced fuel fuel before 0 [] with
  | error e => rfl
  | ok r => rfl

